import Mathlib

/-!
Auroracoin `bignum.h`: a shallow embedding of `CBigNum`, and the RPC `addnode`
of `rpcnet.cpp` (namespace `Rpcnet`).

`CBigNum` wraps an OpenSSL `BIGNUM`.  A `BIGNUM` is a sign flag together with a
magnitude; the OpenSSL primitives the header calls (`BN_add`, `BN_div`,
`BN_bn2mpi`, `BN_mpi2bn`, ...) are written out here on that representation,
following the library's behaviour, sign handling included: a result that
becomes zero inside the library carries no sign (`bn_correct_top`,
`BN_set_negative`, `BN_rshift`), division rounds toward zero and its remainder
takes the sign of the dividend.  The methods of `CBigNum` are translated on
top of these primitives one by one, under the names they have in the header.

Machine integers are natural numbers or integers, reduced explicitly where the
C++ type is narrower than the value.  The widths the header leaves to the
platform (`BN_ULONG`, `unsigned long`) are a parameter, `DataModel`.
Allocation failures of the library are outside the model.

The file has two parts: the definitions, then the facts proved about them.
-/

namespace Bignum

/-! ## The OpenSSL `BIGNUM` and its primitives -/

/-- An OpenSSL `BIGNUM`: the sign flag `neg` and the magnitude. -/
structure BIGNUM where
  neg : Bool
  mag : Nat
deriving DecidableEq, Repr

/-- The class `CBigNum` holds exactly one `BIGNUM`. -/
abbrev CBigNum := BIGNUM

/-- The integer a `BIGNUM` stands for. -/
def BIGNUM.toInt (a : BIGNUM) : Int :=
  if a.neg then -(a.mag : Int) else (a.mag : Int)

/-- Canonical form: zero carries no sign (the data invariant of the class). -/
def BIGNUM.canonical (a : BIGNUM) : Prop :=
  a.neg = true → a.mag ≠ 0

instance (a : BIGNUM) : Decidable a.canonical := by
  unfold BIGNUM.canonical; exact inferInstance

/-- A freshly initialised `BIGNUM` (`BN_init` / `BN_new`): zero. -/
def BN_zero : BIGNUM := ⟨false, 0⟩

/-- The constant `BN_value_one()`. -/
def BN_value_one : BIGNUM := ⟨false, 1⟩

/-- OpenSSL `BN_is_zero`. -/
def BN_is_zero (a : BIGNUM) : Bool := a.mag == 0

/-- OpenSSL `BN_is_negative`: the sign flag. -/
def BN_is_negative (a : BIGNUM) : Bool := a.neg

/-- OpenSSL `BN_set_negative`: the flag is set only on a nonzero value. -/
def BN_set_negative (a : BIGNUM) (b : Bool) : BIGNUM :=
  ⟨b && !BN_is_zero a, a.mag⟩

/-- OpenSSL `BN_ucmp`: comparison of the magnitudes. -/
def BN_ucmp (a b : BIGNUM) : Int :=
  if a.mag > b.mag then 1 else if a.mag < b.mag then -1 else 0

/-- OpenSSL `BN_cmp`: signed comparison, the sign flags are looked at first. -/
def BN_cmp (a b : BIGNUM) : Int :=
  if a.neg != b.neg then (if a.neg then -1 else 1)
  else if a.mag > b.mag then (if a.neg then -1 else 1)
  else if a.mag < b.mag then (if a.neg then 1 else -1)
  else 0

/-- OpenSSL `BN_add`. -/
def BN_add (a b : BIGNUM) : BIGNUM :=
  if a.neg == b.neg then ⟨a.neg, a.mag + b.mag⟩
  else if BN_ucmp a b > 0 then ⟨a.neg, a.mag - b.mag⟩
  else if BN_ucmp a b < 0 then ⟨b.neg, b.mag - a.mag⟩
  else BN_zero

/-- OpenSSL `BN_sub`. -/
def BN_sub (a b : BIGNUM) : BIGNUM :=
  if a.neg != b.neg then ⟨a.neg, a.mag + b.mag⟩
  else if BN_ucmp a b > 0 then ⟨a.neg, a.mag - b.mag⟩
  else if BN_ucmp a b < 0 then ⟨!b.neg, b.mag - a.mag⟩
  else BN_zero

/-- OpenSSL `BN_mul`: a zero operand gives zero, otherwise the signs are
xor-ed. -/
def BN_mul (a b : BIGNUM) : BIGNUM :=
  if a.mag = 0 ∨ b.mag = 0 then BN_zero
  else ⟨xor a.neg b.neg, a.mag * b.mag⟩

/-- OpenSSL `BN_div`, returning `(dv, rem)`; `none` is the library's failure
on a zero divisor.  The quotient is rounded toward zero and the remainder takes
the sign of the dividend. -/
def BN_div (num divisor : BIGNUM) : Option (BIGNUM × BIGNUM) :=
  if BN_is_zero divisor then none
  else if BN_ucmp num divisor < 0 then some (BN_zero, num)
  else some (⟨xor num.neg divisor.neg, num.mag / divisor.mag⟩,
             ⟨num.neg && !(num.mag % divisor.mag == 0), num.mag % divisor.mag⟩)

/-- OpenSSL `BN_mod`: `BN_div` with the quotient dropped. -/
def BN_mod (a d : BIGNUM) : Option BIGNUM :=
  (BN_div a d).map Prod.snd

/-- OpenSSL `BN_lshift`: the magnitude is shifted, the sign kept. -/
def BN_lshift (a : BIGNUM) (n : Nat) : BIGNUM :=
  ⟨a.neg, a.mag * 2 ^ n⟩

/-- OpenSSL `BN_rshift`: the magnitude is shifted, and a result of zero has
no sign. -/
def BN_rshift (a : BIGNUM) (n : Nat) : BIGNUM :=
  ⟨a.neg && !(a.mag / 2 ^ n == 0), a.mag / 2 ^ n⟩

/-! ## The free operators of `bignum.h` -/

/-- `operator+`. -/
def op_add (a b : CBigNum) : CBigNum := BN_add a b

/-- `operator-` (binary). -/
def op_sub (a b : CBigNum) : CBigNum := BN_sub a b

/-- `operator-` (unary). -/
def op_neg (a : CBigNum) : CBigNum := BN_set_negative a (!BN_is_negative a)

/-- `operator*`. -/
def op_mul (a b : CBigNum) : CBigNum := BN_mul a b

/-- `operator/`: throws `bignum_error` when `BN_div` fails. -/
def op_div (a b : CBigNum) : Except String CBigNum :=
  match BN_div a b with
  | some (r, _) => Except.ok r
  | none => Except.error "CBigNum::operator/ : BN_div failed"

/-- `operator%`: throws `bignum_error` when `BN_mod` fails. -/
def op_mod (a b : CBigNum) : Except String CBigNum :=
  match BN_mod a b with
  | some r => Except.ok r
  | none => Except.error "CBigNum::operator% : BN_div failed"

/-- `operator==`. -/
def op_eq (a b : CBigNum) : Bool := BN_cmp a b == 0

/-! ## Widths of the native types -/

/-- The two widths the header depends on and does not fix itself: the bits of
OpenSSL's word type `BN_ULONG` and the bits of `unsigned long`.  `int` and
`unsigned int` are 32 bits wide throughout. -/
structure DataModel where
  BN_BITS2 : Nat
  ULONG_BITS : Nat
deriving DecidableEq, Repr

/-- 64-bit Unix: `BN_ULONG` and `unsigned long` are both 64 bits wide. -/
def LP64 : DataModel := ⟨64, 64⟩

/-- 32-bit builds: both are 32 bits wide. -/
def ILP32 : DataModel := ⟨32, 32⟩

/-- `std::numeric_limits<int>::max()`. -/
def INT_MAX : Int := 2147483647

/-- `std::numeric_limits<int>::min()`. -/
def INT_MIN : Int := -2147483648

/-! ## Words, bit lengths and the MPI byte format of OpenSSL -/

/-- OpenSSL `BN_set_word`. -/
def BN_set_word (w : Nat) : BIGNUM := ⟨false, w⟩

/-- OpenSSL `BN_get_word`: the magnitude when it fits one `BN_ULONG`, and the
all-ones word otherwise. -/
def BN_get_word (dm : DataModel) (a : BIGNUM) : Nat :=
  if a.mag < 2 ^ dm.BN_BITS2 then a.mag else 2 ^ dm.BN_BITS2 - 1

/-- Bit length by repeated halving; started with fuel `n` it never runs out. -/
def numBitsAux : Nat → Nat → Nat
  | 0, _ => 0
  | fuel + 1, n => if n = 0 then 0 else numBitsAux fuel (n / 2) + 1

/-- OpenSSL `BN_num_bits`: the bit length of the magnitude. -/
def BN_num_bits (a : BIGNUM) : Nat := numBitsAux a.mag a.mag

/-- OpenSSL `BN_num_bytes`. -/
def BN_num_bytes (a : BIGNUM) : Nat := (BN_num_bits a + 7) / 8

/-- The `len` low-order bytes of `m`, most significant first. -/
def bytesBE : Nat → Nat → List Nat
  | 0, _ => []
  | k + 1, m => (m / 256 ^ k) % 256 :: bytesBE k m

/-- OpenSSL `BN_bn2bin`: the magnitude in `BN_num_bytes` big-endian bytes. -/
def BN_bn2bin (a : BIGNUM) : List Nat := bytesBE (BN_num_bytes a) a.mag

/-- OpenSSL `BN_bin2bn`: the magnitude of a big-endian byte string. -/
def BN_bin2bn (s : List Nat) : Nat := s.foldl (fun acc b => acc * 256 + b) 0

/-- OpenSSL `BN_clear_bit`; a value that becomes zero loses its sign. -/
def BN_clear_bit (a : BIGNUM) (n : Nat) : BIGNUM :=
  if a.mag / 2 ^ n % 2 = 1 then
    ⟨a.neg && !(a.mag - 2 ^ n == 0), a.mag - 2 ^ n⟩
  else a

/-- The value `BN_bn2mpi` returns: the length of the MPI encoding. -/
def BN_bn2mpi_size (a : BIGNUM) : Nat :=
  let bits := BN_num_bits a
  let num := (bits + 7) / 8
  let ext := if bits > 0 ∧ bits % 8 = 0 then 1 else 0
  num + 4 + ext

/-- The first payload byte `d[4]` with the sign bit or-ed in. -/
def setSignBit : List Nat → List Nat
  | [] => []
  | b :: rest => (b ||| 0x80) :: rest

/-- The bytes `BN_bn2mpi` writes: a 4-byte big-endian length, an extra zero
byte when the top bit of the magnitude falls on a byte boundary, the
magnitude, and the sign in bit `0x80` of the first payload byte. -/
def BN_bn2mpi (a : BIGNUM) : List Nat :=
  let bits := BN_num_bits a
  let num := (bits + 7) / 8
  let ext := if bits > 0 ∧ bits % 8 = 0 then 1 else 0
  let l := num + ext
  let payload := (if ext = 1 then [0] else []) ++ BN_bn2bin a
  [(l >>> 24) &&& 0xff, (l >>> 16) &&& 0xff, (l >>> 8) &&& 0xff, l &&& 0xff] ++
    (if a.neg then setSignBit payload else payload)

/-- The part of `BN_mpi2bn` that reads a nonempty payload: the sign is bit
`0x80` of the first byte, the magnitude is read by `BN_bin2bn`, and for a
negative value the top bit of what was read is cleared. -/
def BN_mpi2bn_payload (payload : List Nat) : BIGNUM :=
  let neg := decide (payload.headD 0 &&& 0x80 ≠ 0)
  let a : BIGNUM := ⟨neg, BN_bin2bn payload⟩
  if neg then BN_clear_bit a (BN_num_bits a - 1) else a

/-- OpenSSL `BN_mpi2bn` on the buffer `d` with the length argument `n`;
`none` is the library's `NULL` (invalid length or encoding), in which case the
destination is not touched. -/
def BN_mpi2bn (d : List Nat) (n : Int) : Option BIGNUM :=
  match d with
  | d0 :: d1 :: d2 :: d3 :: rest =>
    if n < 4 ∨ d0 &&& 0x80 ≠ 0 then none
    else
      let len := (d0 <<< 24) ||| (d1 <<< 16) ||| (d2 <<< 8) ||| d3
      if (len : Int) + 4 ≠ n then none
      else if len = 0 then some ⟨false, 0⟩
      else some (BN_mpi2bn_payload (rest.take len))
  | _ => none

/-- Conversion of a size to C `int` (32 bits, two's complement). -/
def toCInt (x : Nat) : Int :=
  if x % 2 ^ 32 < 2 ^ 31 then ((x % 2 ^ 32 : Nat) : Int)
  else ((x % 2 ^ 32 : Nat) : Int) - 2 ^ 32

/-! ## `CBigNum`: native integers -/

/-- `CBigNum::setulong`.  `BN_ULONG` is at least as wide as `unsigned long`,
so the argument reaches `BN_set_word` unchanged. -/
def setulong (n : Nat) : CBigNum := BN_set_word n

/-- `CBigNum::getulong`. -/
def getulong (dm : DataModel) (self : CBigNum) : Nat :=
  BN_get_word dm self % 2 ^ dm.ULONG_BITS

/-- `CBigNum::getuint`: the word converted to `unsigned int`. -/
def getuint (dm : DataModel) (self : CBigNum) : Nat :=
  BN_get_word dm self % 2 ^ 32

/-- `CBigNum::getint`. -/
def getint (dm : DataModel) (self : CBigNum) : Int :=
  let n := BN_get_word dm self % 2 ^ dm.ULONG_BITS
  if !BN_is_negative self then
    (if (n : Int) > INT_MAX then INT_MAX else (n : Int))
  else
    (if (n : Int) > INT_MAX then INT_MIN else -(n : Int))

/-- The byte loop shared by `setint64` and `setuint64` (there with
`fNegative = false`): `i` iterations left, the shifted `n`, the flag
`fLeadingZeroes`, and the bytes written after `pch + 4` so far. -/
def setint64_loop (fNegative : Bool) : Nat → Nat → Bool → List Nat → List Nat
  | 0, _, _, out => out
  | i + 1, n, fLeadingZeroes, out =>
    let c := (n >>> 56) &&& 0xff
    let n' := (n <<< 8) % 2 ^ 64
    if fLeadingZeroes then
      if c = 0 then setint64_loop fNegative i n' true out
      else if c &&& 0x80 ≠ 0 then
        setint64_loop fNegative i n' false
          (out ++ [if fNegative then 0x80 else 0] ++ [c])
      else if fNegative then
        setint64_loop fNegative i n' false (out ++ [c ||| 0x80])
      else setint64_loop fNegative i n' false (out ++ [c])
    else setint64_loop fNegative i n' false (out ++ [c])

/-- `CBigNum::setint64` for `-2^63 ≤ sn < 2^63`. -/
def setint64 (self : CBigNum) (sn : Int) : CBigNum :=
  let fNegative := decide (sn < 0)
  let n : Nat := if sn < 0 then ((-(sn + 1)).toNat + 1) % 2 ^ 64 else sn.toNat
  let out := setint64_loop fNegative 8 n true []
  let nSize := out.length
  let pch := [(nSize >>> 24) &&& 0xff, (nSize >>> 16) &&& 0xff,
              (nSize >>> 8) &&& 0xff, nSize &&& 0xff] ++ out
  match BN_mpi2bn pch (toCInt pch.length) with
  | some r => r
  | none => self

/-- The constructor `CBigNum(int n)`. -/
def CBigNum_int (n : Int) : CBigNum :=
  if n ≥ 0 then setulong n.toNat else setint64 BN_zero n

/-- The constructors `CBigNum(unsigned int n)` and `CBigNum(unsigned long n)`. -/
def CBigNum_ulong (n : Nat) : CBigNum := setulong n

/-! ## `CBigNum`: byte vectors -/

/-- `CBigNum::setvch`. -/
def setvch (self : CBigNum) (vch : List Nat) : CBigNum :=
  let nSize := vch.length % 2 ^ 32
  let vch2 := [(nSize >>> 24) &&& 0xff, (nSize >>> 16) &&& 0xff,
               (nSize >>> 8) &&& 0xff, (nSize >>> 0) &&& 0xff] ++ vch.reverse
  match BN_mpi2bn vch2 (toCInt vch2.length) with
  | some r => r
  | none => self

/-- The constructor `CBigNum(const std::vector<unsigned char>&)`. -/
def CBigNum_vch (vch : List Nat) : CBigNum := setvch BN_zero vch

/-- `CBigNum::getvch`. -/
def getvch (self : CBigNum) : List Nat :=
  let nSize := BN_bn2mpi_size self
  if nSize ≤ 4 then []
  else ((BN_bn2mpi self).drop 4).reverse

/-! ## `CBigNum`: the compact format -/

/-- `CBigNum::SetCompact` on a 32-bit `nCompact`. -/
def SetCompact (nCompact : Nat) : CBigNum :=
  let nSize := nCompact >>> 24
  let fNegative := decide (nCompact &&& 0x00800000 ≠ 0)
  let nWord := nCompact &&& 0x007fffff
  let r :=
    if nSize ≤ 3 then BN_set_word (nWord >>> (8 * (3 - nSize)))
    else BN_lshift (BN_set_word nWord) (8 * (nSize - 3))
  BN_set_negative r fNegative

/-- `CBigNum::GetCompact`; `nSize` and `nCompact` are `unsigned int`. -/
def GetCompact (dm : DataModel) (self : CBigNum) : Nat :=
  let nSize := BN_num_bytes self
  let nCompact :=
    if nSize ≤ 3 then (BN_get_word dm self <<< (8 * (3 - nSize))) % 2 ^ 32
    else BN_get_word dm (BN_rshift self (8 * (nSize - 3))) % 2 ^ 32
  let shifted := decide (nCompact &&& 0x00800000 ≠ 0)
  let nCompact := if shifted then nCompact >>> 8 else nCompact
  let nSize := if shifted then nSize + 1 else nSize
  let nCompact := nCompact ||| ((nSize <<< 24) % 2 ^ 32)
  nCompact ||| (if BN_is_negative self then 0x00800000 else 0)

/-! ## `CBigNum`: shifts and the n-th root -/

/-- `operator<<=`. -/
def op_shl_assign (self : CBigNum) (shift : Nat) : CBigNum := BN_lshift self shift

/-- `operator>>=`: zero when `2^shift` is greater than the number (compared
by `BN_cmp`), `BN_rshift` otherwise. -/
def op_shr_assign (self : CBigNum) (shift : Nat) : CBigNum :=
  let a := op_shl_assign (CBigNum_int 1) shift
  if BN_cmp a self > 0 then CBigNum_int 0
  else BN_rshift self shift

/-- The loops `for (j = 0; j < count; j++) acc *= b` of `nthRoot`. -/
def mulLoop (b : CBigNum) : Nat → CBigNum → CBigNum
  | 0, acc => acc
  | j + 1, acc => mulLoop b j (BN_mul acc b)

/-- The statement through which `nthRoot` returns. -/
inductive NthRootExit where
  | zero
  | seed
  | deltaZero
  | afterUp
  | afterDown
  | exhausted
deriving DecidableEq, Repr

/-- The ways `nthRoot` fails: an `assert`, or a `bignum_error` thrown by a
division inside the loop. -/
inductive NthRootFailure where
  | assertion (text : String)
  | bignum_error (msg : String)
deriving DecidableEq, Repr

/-- The starting approximation of `nthRoot`: the loop
`for (i = nStartingBits - 1; i >= 0; i--)`, with `i + 1` iterations left. -/
def nthRoot_seed (n : Nat) (bnUpper : CBigNum) : Nat → CBigNum → CBigNum
  | 0, bnCur => bnCur
  | i + 1, bnCur =>
    let bnNext := BN_add bnCur (CBigNum_int ((1 <<< i : Nat) : Int))
    let bnPower := mulLoop bnNext n (CBigNum_int 1)
    nthRoot_seed n bnUpper i (if BN_cmp bnPower bnUpper ≤ 0 then bnNext else bnCur)

/-- The Newton loop of `nthRoot`, with the iterations left, `bnCur` and
`nTerminate`; the result carries the exit taken. -/
def nthRoot_newton (self : CBigNum) (n : Nat) (bnRoot : CBigNum) :
    Nat → CBigNum → Int → Except NthRootFailure (NthRootExit × CBigNum)
  | 0, bnCur, _ => Except.ok (NthRootExit.exhausted, bnCur)
  | it + 1, bnCur, nTerminate =>
    let bnDenominator := mulLoop bnCur (n - 1) (CBigNum_int 1)
    match op_div self bnDenominator with
    | Except.error e => Except.error (NthRootFailure.bignum_error e)
    | Except.ok q =>
      let bnDelta := op_sub q bnCur
      if BN_is_zero bnDelta then Except.ok (NthRootExit.deltaZero, bnCur)
      else if BN_is_negative bnDelta then
        if nTerminate = 1 then
          Except.ok (NthRootExit.afterUp, op_sub bnCur (CBigNum_int 1))
        else
          let bnDelta := BN_set_negative bnDelta false
          if BN_cmp bnDelta bnRoot ≤ 0 then
            nthRoot_newton self n bnRoot it (op_sub bnCur (CBigNum_int 1)) (-1)
          else
            let bnDelta := BN_set_negative bnDelta true
            match op_div bnDelta (CBigNum_int (n : Int)) with
            | Except.error e => Except.error (NthRootFailure.bignum_error e)
            | Except.ok d => nthRoot_newton self n bnRoot it (BN_add bnCur d) 0
      else
        if nTerminate = -1 then Except.ok (NthRootExit.afterDown, bnCur)
        else if BN_cmp bnDelta bnRoot ≤ 0 then
          nthRoot_newton self n bnRoot it (BN_add bnCur (CBigNum_int 1)) 1
        else
          match op_div bnDelta (CBigNum_int (n : Int)) with
          | Except.error e => Except.error (NthRootFailure.bignum_error e)
          | Except.ok d => nthRoot_newton self n bnRoot it (BN_add bnCur d) 0

/-- `CBigNum::nthRoot`, returning the exit taken together with the value. -/
def nthRoot_traced (self : CBigNum) (n : Int) :
    Except NthRootFailure (NthRootExit × CBigNum) :=
  if ¬ n > 1 then Except.error (NthRootFailure.assertion "n > 1")
  else if BN_is_zero self then Except.ok (NthRootExit.zero, CBigNum_int 0)
  else if BN_is_negative self then
    Except.error (NthRootFailure.assertion "!BN_is_negative(this)")
  else
    let k := n.toNat
    let nRootBits := (BN_num_bits self + k - 1) / k
    let nStartingBits := min 8 nRootBits
    let bnUpper := op_shr_assign self ((nRootBits - nStartingBits) * k)
    let bnCur := nthRoot_seed k bnUpper nStartingBits (CBigNum_int 0)
    if nRootBits = nStartingBits then Except.ok (NthRootExit.seed, bnCur)
    else
      let bnCur := op_shl_assign bnCur (nRootBits - nStartingBits)
      nthRoot_newton self k (CBigNum_int n) 20 bnCur 0

/-- `CBigNum::nthRoot`. -/
def nthRoot (self : CBigNum) (n : Int) : Except NthRootFailure CBigNum :=
  (nthRoot_traced self n).map Prod.snd

/-- The starting approximation on magnitudes: what `nthRoot_seed` computes on
non-negative numbers (see `nthRoot_seed_eq`). -/
def seedN (n U : Nat) : Nat → Nat → Nat
  | 0, cur => cur
  | i + 1, cur => seedN n U i (if (cur + 2 ^ i) ^ n ≤ U then cur + 2 ^ i else cur)

/-- The Newton loop on magnitudes: what `nthRoot_newton` computes while
`bnCur` is positive (see `nthRoot_newton_eq`). -/
def newtonN (x n : Nat) : Nat → Nat → Int → NthRootExit × Nat
  | 0, c, _ => (NthRootExit.exhausted, c)
  | it + 1, c, nTerminate =>
    let q := x / c ^ (n - 1)
    if q = c then (NthRootExit.deltaZero, c)
    else if q < c then
      if nTerminate = 1 then (NthRootExit.afterUp, c - 1)
      else if c - q ≤ n then newtonN x n it (c - 1) (-1)
      else newtonN x n it (c - (c - q) / n) 0
    else
      if nTerminate = -1 then (NthRootExit.afterDown, c)
      else if q - c ≤ n then newtonN x n it (c + 1) 1
      else newtonN x n it (c + (q - c) / n) 0

/-- The whole of `nthRoot` on a positive magnitude `x` and `n > 1`: the exit
taken and the magnitude returned (see `nthRoot_traced_eq`). -/
def rootN (x n : Nat) : NthRootExit × Nat :=
  let nRootBits := (BN_num_bits ⟨false, x⟩ + n - 1) / n
  let nStartingBits := min 8 nRootBits
  let cur := seedN n (x / 2 ^ ((nRootBits - nStartingBits) * n)) nStartingBits 0
  if nRootBits = nStartingBits then (NthRootExit.seed, cur)
  else newtonN x n 20 (cur * 2 ^ (nRootBits - nStartingBits)) 0

/-- The inputs on which the `int` arithmetic of `nthRoot` does not overflow:
`BN_num_bits(this) + n - 1` stays within `int`. -/
def nthRoot_int_range (self : CBigNum) (n : Int) : Prop :=
  (BN_num_bits self : Int) + n - 1 ≤ INT_MAX

instance instDecidableEqExcept {ε α : Type} [DecidableEq ε] [DecidableEq α] :
    DecidableEq (Except ε α) := fun a b =>
  match a, b with
  | Except.ok x, Except.ok y =>
    if h : x = y then isTrue (by rw [h]) else isFalse (fun h' => h (Except.ok.inj h'))
  | Except.error x, Except.error y =>
    if h : x = y then isTrue (by rw [h]) else isFalse (fun h' => h (Except.error.inj h'))
  | Except.ok _, Except.error _ => isFalse (fun h => Except.noConfusion h)
  | Except.error _, Except.ok _ => isFalse (fun h => Except.noConfusion h)

/-! ## `CBigNum`: 64-bit and 256-bit unsigned integers -/

/-- The byte loop of `setuint64`: `i` iterations left, the shifted `n`, the
flag `fLeadingZeroes`, and the bytes written after `pch + 4` so far. -/
def setuint64_loop : Nat → Nat → Bool → List Nat → List Nat
  | 0, _, _, out => out
  | i + 1, n, fLeadingZeroes, out =>
    let c := (n >>> 56) &&& 0xff
    let n' := (n <<< 8) % 2 ^ 64
    if fLeadingZeroes then
      if c = 0 then setuint64_loop i n' true out
      else if c &&& 0x80 ≠ 0 then setuint64_loop i n' false (out ++ [0] ++ [c])
      else setuint64_loop i n' false (out ++ [c])
    else setuint64_loop i n' false (out ++ [c])

/-- `CBigNum::setuint64` for `n < 2^64`. -/
def setuint64 (self : CBigNum) (n : Nat) : CBigNum :=
  let out := setuint64_loop 8 n true []
  let nSize := out.length
  let pch := [(nSize >>> 24) &&& 0xff, (nSize >>> 16) &&& 0xff,
              (nSize >>> 8) &&& 0xff, nSize &&& 0xff] ++ out
  match BN_mpi2bn pch (toCInt pch.length) with
  | some r => r
  | none => self

/-- Modelled from the spec: `uint256` (`uint256.h` is not under `src/`) is a
fixed-width 256-bit unsigned integer, a number below `2^256`; `setuint256` and
`getuint256` reach it through `unsigned char*`, as 32 bytes with the least
significant first.  This is the byte at index `i`. -/
def uint256_byte (n : Nat) (i : Nat) : Nat := n / 256 ^ i % 256

/-- The byte loop of `setuint256`, `while (psrc != pbegin)`: `i` bytes are
left below `psrc`, and `*(--psrc)` is the byte at index `i - 1`. -/
def setuint256_loop (n : Nat) : Nat → Bool → List Nat → List Nat
  | 0, _, out => out
  | i + 1, fLeadingZeroes, out =>
    let c := uint256_byte n i
    if fLeadingZeroes then
      if c = 0 then setuint256_loop n i true out
      else if c &&& 0x80 ≠ 0 then setuint256_loop n i false (out ++ [0] ++ [c])
      else setuint256_loop n i false (out ++ [c])
    else setuint256_loop n i false (out ++ [c])

/-- `CBigNum::setuint256` for `n < 2^256`. -/
def setuint256 (self : CBigNum) (n : Nat) : CBigNum :=
  let out := setuint256_loop n 32 true []
  let nSize := out.length
  let pch := [(nSize >>> 24) &&& 0xff, (nSize >>> 16) &&& 0xff,
              (nSize >>> 8) &&& 0xff, (nSize >>> 0) &&& 0xff] ++ out
  match BN_mpi2bn pch (toCInt pch.length) with
  | some r => r
  | none => self

/-- The constructor `CBigNum(uint256 n)`. -/
def CBigNum_uint256 (n : Nat) : CBigNum := setuint256 BN_zero n

/-- The copy loop of `getuint256`,
`for (i = 0, j = vch.size()-1; i < sizeof(n) && j >= 4; i++, j--)`: byte `i` of
the result, zero so far, becomes `vch[j]`.  The fuel bounds the iterations; 32
is enough. -/
def getuint256_loop (vch : List Nat) : Nat → Nat → Nat → Nat → Nat
  | 0, _, _, n => n
  | fuel + 1, i, j, n =>
    if i < 32 ∧ j ≥ 4 then
      getuint256_loop vch fuel (i + 1) (j - 1) (n + vch.getD j 0 * 256 ^ i)
    else n

/-- `CBigNum::getuint256`, the result as a number below `2^256`. -/
def getuint256 (self : CBigNum) : Nat :=
  let nSize := BN_bn2mpi_size self
  if nSize < 4 then 0
  else
    let vch := BN_bn2mpi self
    let vch := if vch.length > 4 then vch.set 4 (vch.getD 4 0 &&& 0x7f) else vch
    getuint256_loop vch 32 0 (vch.length - 1) 0

/-! ## `CBigNum`: the free shift operators -/

/-- `operator<<`. -/
def op_shl (a : CBigNum) (shift : Nat) : CBigNum := BN_lshift a shift

/-- `operator>>`: a copy of `a`, then `operator>>=`. -/
def op_shr (a : CBigNum) (shift : Nat) : CBigNum := op_shr_assign a shift

/-! ## The compact format: what the encoding drops -/

/-- The number of low bits `GetCompact` drops: `8*(size-3)` when the top
magnitude byte is below `0x80`, `8*(size-2)` otherwise, and none when that is
negative. -/
def compact_dropped_bits (x : CBigNum) : Nat :=
  if x.mag / 256 ^ (BN_num_bytes x - 1) < 0x80 then 8 * (BN_num_bytes x - 3)
  else 8 * (BN_num_bytes x - 2)

/-! ## Byte vectors read as numbers -/

/-- The number a byte vector stands for when its first byte is the least
significant one (little-endian). -/
def bytesLE_value (v : List Nat) : Nat := v.foldr (fun b acc => acc * 256 + b) 0

/-! ## `CBigNum`: compound assignment -/

/-- `operator+=`: `BN_add(this, this, &b)`. -/
def op_add_assign (self b : CBigNum) : CBigNum := BN_add self b

/-- `operator-=`: `*this = *this - b`. -/
def op_sub_assign (self b : CBigNum) : CBigNum := op_sub self b

/-- `operator*=`: `BN_mul(this, this, &b, pctx)`. -/
def op_mul_assign (self b : CBigNum) : CBigNum := BN_mul self b

/-- `operator/=`: `*this = *this / b`.  The pair is the error raised, if any,
and the receiver afterwards: an exception of `operator/` leaves before the
assignment takes place. -/
def op_div_assign (self b : CBigNum) : Option String × CBigNum :=
  match op_div self b with
  | Except.ok r => (none, r)
  | Except.error e => (some e, self)

/-- `operator%=`: `*this = *this % b`, as a pair like `op_div_assign`. -/
def op_mod_assign (self b : CBigNum) : Option String × CBigNum :=
  match op_mod self b with
  | Except.ok r => (none, r)
  | Except.error e => (some e, self)

/-! ## `CBigNum`: strings

A `std::string` is the list of its character codes; reading a C string past
its last character gives the terminating NUL. -/

/-- The character codes of a string literal. -/
def cstr (s : String) : List Nat := s.toList.map Char.toNat

/-- C `isspace` in the "C" locale: space, `\t`, `\n`, `\v`, `\f`, `\r`. -/
def isspace (c : Nat) : Bool := c == ' '.toNat || (9 ≤ c && c ≤ 13)

/-- C `tolower` in the "C" locale. -/
def tolower (c : Nat) : Nat :=
  if 'A'.toNat ≤ c ∧ c ≤ 'Z'.toNat then c + 32 else c

/-- Modelled from the spec: `HexDigit` (`util.cpp` is not under `src/`): the
value of a hex digit of either case, and `-1` for every other character, the
terminating NUL included. -/
def HexDigit (c : Nat) : Int :=
  if '0'.toNat ≤ c ∧ c ≤ '9'.toNat then (c : Int) - '0'.toNat
  else if 'a'.toNat ≤ c ∧ c ≤ 'f'.toNat then (c : Int) - 'a'.toNat + 10
  else if 'A'.toNat ≤ c ∧ c ≤ 'F'.toNat then (c : Int) - 'A'.toNat + 10
  else -1

/-- The character `*psz` of a C string. -/
def cstr_head (psz : List Nat) : Nat := psz.headD 0

/-- The loop `while (isspace(*psz)) psz++;`. -/
def skip_space : List Nat → List Nat
  | [] => []
  | c :: rest => if isspace c then skip_space rest else c :: rest

/-- The step `if (psz[0] == '0' && tolower(psz[1]) == 'x') psz += 2;`. -/
def skip_0x (psz : List Nat) : List Nat :=
  match psz with
  | c0 :: c1 :: rest => if c0 = '0'.toNat ∧ tolower c1 = 'x'.toNat then rest else psz
  | _ => psz

/-- The digit loop of `SetHex`:
`while ((n = HexDigit(*psz)) != -1) { *this <<= 4; *this += n; ++psz; }`. -/
def SetHex_loop : List Nat → CBigNum → CBigNum
  | [], self => self
  | c :: rest, self =>
    if HexDigit c ≠ -1 then
      SetHex_loop rest (op_add_assign (op_shl_assign self 4) (CBigNum_int (HexDigit c)))
    else self

/-- `CBigNum::SetHex`. -/
def SetHex (str : List Nat) : CBigNum :=
  let psz := skip_space str
  let fNegative := decide (cstr_head psz = '-'.toNat)
  let psz := if fNegative then psz.tail else psz
  let psz := skip_0x psz
  let psz := skip_space psz
  let r := SetHex_loop psz (CBigNum_int 0)
  if fNegative then op_sub (CBigNum_int 0) r else r

/-- The base-16 value of a run of hex digits. -/
def hex_value (D : List Nat) : Nat := D.foldl (fun a c => a * 16 + (HexDigit c).toNat) 0

/-- The string literal `"0123456789abcdef"` of `ToString`. -/
def ToString_digits : List Nat := cstr "0123456789abcdef"

/-- The character `"0123456789abcdef"[c]`; index 16 is the terminating NUL of
the literal. -/
def ToString_digit (c : Nat) : Nat := ToString_digits.getD c 0

/-- The loop of `ToString`, `while (BN_cmp(&bn, &bn0) > 0)`, run for at most
`fuel` iterations: `none` when the loop has not ended by then, an error when
`BN_div` fails, the collected digits otherwise. -/
def ToString_loop (dm : DataModel) (bnBase bn0 : CBigNum) :
    Nat → CBigNum → List Nat → Option (Except String (List Nat))
  | 0, bn, str => if BN_cmp bn bn0 > 0 then none else some (Except.ok str)
  | fuel + 1, bn, str =>
    if BN_cmp bn bn0 > 0 then
      match BN_div bn bnBase with
      | none => some (Except.error "CBigNum::ToString() : BN_div failed")
      | some (dv, rem) =>
        let c := getulong dm rem % 2 ^ 32
        ToString_loop dm bnBase bn0 fuel dv (str ++ [ToString_digit c])
    else some (Except.ok str)

/-- `CBigNum::ToString`.  The loop takes a digit off a positive number in each
iteration, so for a base of 2 or more it ends within `|x|` iterations; `none`
is a loop that does not end (base 1). -/
def ToString (dm : DataModel) (self : CBigNum) (nBase : Int) :
    Option (Except String (List Nat)) :=
  let bnBase := CBigNum_int nBase
  let bn0 := CBigNum_int 0
  let bn := BN_set_negative self false
  if BN_cmp bn bn0 == 0 then some (Except.ok (cstr "0"))
  else
    (ToString_loop dm bnBase bn0 bn.mag bn []).map (fun r =>
      r.map (fun str => (if BN_is_negative self then str ++ cstr "-" else str).reverse))

/-- `CBigNum::GetHex`. -/
def GetHex (dm : DataModel) (self : CBigNum) : Option (Except String (List Nat)) :=
  ToString dm self 16

end Bignum

namespace Rpcnet

/-! ## `rpcnet.cpp`: `addnode` -/

/-- How a call of `addnode` ends: it returns `json_spirit::Value::null`, throws
the usage text as `std::runtime_error`, or throws a `JSONRPCError` with one of
the two codes. -/
inductive AddnodeOutcome where
  | null
  | runtime_error
  | RPC_CLIENT_NODE_ALREADY_ADDED
  | RPC_CLIENT_NODE_NOT_ADDED
deriving DecidableEq, Repr

/-- The search loop of `addnode`,
`for(; it != vAddedNodes.end(); it++) if (strNode == *it) break;`: the position
at which `it` stops, the length of the list when it reaches `end()`. -/
def addnode_find (strNode : String) : List String → Nat
  | [] => 0
  | s :: rest => if strNode = s then 0 else addnode_find strNode rest + 1

/-- The RPC `addnode` on the global `vAddedNodes`, with the parameters as the
strings of the JSON array: the outcome and `vAddedNodes` afterwards.  The
connection attempt of `"onetry"` (`ConnectNode`) does not touch the list. -/
def addnode (vAddedNodes : List String) (params : List String) (fHelp : Bool) :
    AddnodeOutcome × List String :=
  let strCommand := if params.length = 2 then params.getD 1 "" else ""
  if fHelp ∨ params.length ≠ 2 ∨
      (strCommand ≠ "onetry" ∧ strCommand ≠ "add" ∧ strCommand ≠ "remove") then
    (AddnodeOutcome.runtime_error, vAddedNodes)
  else
    let strNode := params.getD 0 ""
    if strCommand = "onetry" then (AddnodeOutcome.null, vAddedNodes)
    else
      let it := addnode_find strNode vAddedNodes
      if strCommand = "add" then
        if it ≠ vAddedNodes.length then
          (AddnodeOutcome.RPC_CLIENT_NODE_ALREADY_ADDED, vAddedNodes)
        else (AddnodeOutcome.null, vAddedNodes ++ [strNode])
      else if strCommand = "remove" then
        if it = vAddedNodes.length then
          (AddnodeOutcome.RPC_CLIENT_NODE_NOT_ADDED, vAddedNodes)
        else (AddnodeOutcome.null, vAddedNodes.eraseIdx it)
      else (AddnodeOutcome.null, vAddedNodes)

end Rpcnet

namespace Bignum

/-! ## Basic facts about the primitives -/

theorem BN_cmp_self (a : BIGNUM) : BN_cmp a a = 0 := by
  simp [BN_cmp]

theorem BN_cmp_eq_zero_iff (a b : BIGNUM) : BN_cmp a b = 0 ↔ a = b := by
  constructor
  · intro h
    cases a with
    | mk an am =>
      cases b with
      | mk bn bm =>
        simp only [BN_cmp] at h
        cases an <;> cases bn <;> simp at h <;>
          (split_ifs at h <;> first | omega | (simp; omega))
  · rintro rfl
    exact BN_cmp_self a

theorem op_eq_iff (a b : CBigNum) : op_eq a b = true ↔ a = b := by
  simp [op_eq, BN_cmp_eq_zero_iff]

theorem toInt_BN_add (a b : BIGNUM) :
    (BN_add a b).toInt = a.toInt + b.toInt := by
  cases a with
  | mk an am =>
    cases b with
    | mk bn bm =>
      cases an <;> cases bn <;>
        simp only [BN_add, BN_ucmp, BIGNUM.toInt, BN_zero] <;>
        split_ifs <;> simp_all <;> omega

theorem toInt_BN_mul (a b : BIGNUM) :
    (BN_mul a b).toInt = a.toInt * b.toInt := by
  cases a with
  | mk an am =>
    cases b with
    | mk bn bm =>
      cases an <;> cases bn <;>
        simp only [BN_mul, BIGNUM.toInt, BN_zero] <;>
        split_ifs <;> simp_all

theorem canonical_BN_add (a b : BIGNUM) (ha : a.canonical) (hb : b.canonical) :
    (BN_add a b).canonical := by
  cases a with
  | mk an am =>
    cases b with
    | mk bn bm =>
      cases an <;> cases bn <;>
        simp only [BN_add, BN_ucmp, BIGNUM.canonical, BN_zero] at * <;>
        split_ifs <;> simp_all <;> omega

theorem canonical_BN_mul (a b : BIGNUM) : (BN_mul a b).canonical := by
  simp only [BN_mul, BIGNUM.canonical, BN_zero]
  split_ifs with h
  · simp
  · intro _
    simp only [not_or] at h
    exact Nat.mul_ne_zero h.1 h.2

theorem toInt_injective_of_canonical (a b : BIGNUM) (ha : a.canonical)
    (hb : b.canonical) (h : a.toInt = b.toInt) : a = b := by
  cases a with
  | mk an am =>
    cases b with
    | mk bn bm =>
      cases an <;> cases bn <;>
        simp only [BIGNUM.canonical, BIGNUM.toInt] at * <;>
        simp_all <;> omega

theorem toInt_norm_sign (s : Bool) (m : Nat) :
    (BIGNUM.mk (s && !(m == 0)) m).toInt = (BIGNUM.mk s m).toInt := by
  cases s <;> simp [BIGNUM.toInt]
  intro h
  simp [h]

theorem BN_div_spec (a b : BIGNUM) (hb : BN_is_zero b = false) :
    ∃ q r, BN_div a b = some (q, r) ∧ (a.canonical → r.canonical) ∧
      q.toInt * b.toInt + r.toInt = a.toInt ∧ q.mag = a.mag / b.mag ∧
      r.mag = a.mag % b.mag := by
  cases a with
  | mk an am =>
    cases b with
    | mk bn bm =>
      simp only [BN_is_zero, beq_eq_false_iff_ne, ne_eq] at hb
      have hdm : ((bm : Int) * ((am / bm : Nat) : Int)) + ((am % bm : Nat) : Int) = (am : Int) := by
        exact_mod_cast Nat.div_add_mod am bm
      by_cases hlt : am < bm
      · refine ⟨BN_zero, ⟨an, am⟩, ?_, fun h => h, ?_, ?_, ?_⟩
        · simp [BN_div, BN_is_zero, hb, BN_ucmp, hlt]
          omega
        · simp [BN_zero, BIGNUM.toInt]
        · simp [BN_zero, Nat.div_eq_of_lt hlt]
        · simp [Nat.mod_eq_of_lt hlt]
      · refine ⟨⟨xor an bn, am / bm⟩, ⟨an && !(am % bm == 0), am % bm⟩, ?_, ?_, ?_, rfl, rfl⟩
        · simp [BN_div, BN_is_zero, hb, BN_ucmp, hlt]
          omega
        · intro _
          simp [BIGNUM.canonical]
        · rw [toInt_norm_sign]
          push_cast at hdm
          cases an <;> cases bn <;> simp [BIGNUM.toInt] <;> linarith

/-- C2: for all `a` and every nonzero `b`, of any signs, `a / b` and `a % b`
return values and `(a / b) * b + (a % b) == a`. -/
theorem division_identity (a b : CBigNum) (ha : a.canonical)
    (hb : BN_is_zero b = false) :
    ∃ q r, op_div a b = Except.ok q ∧ op_mod a b = Except.ok r ∧
      op_eq (op_add (op_mul q b) r) a = true := by
  obtain ⟨q, r, hdiv, hcan, hval, -, -⟩ := BN_div_spec a b hb
  refine ⟨q, r, ?_, ?_, ?_⟩
  · simp [op_div, hdiv]
  · simp [op_mod, BN_mod, hdiv]
  · rw [op_eq_iff]
    apply toInt_injective_of_canonical _ _ _ ha
    · simp only [op_add, op_mul]
      rw [toInt_BN_add, toInt_BN_mul, hval]
    · exact canonical_BN_add _ _ (canonical_BN_mul _ _) (hcan ha)

theorem division_identity_witness :
    (BIGNUM.mk true 7).canonical ∧ BN_is_zero (BIGNUM.mk false 2) = false ∧
    ∃ q r, op_div (BIGNUM.mk true 7) (BIGNUM.mk false 2) = Except.ok q ∧
      op_mod (BIGNUM.mk true 7) (BIGNUM.mk false 2) = Except.ok r ∧
      op_eq (op_add (op_mul q (BIGNUM.mk false 2)) r) (BIGNUM.mk true 7) = true :=
  ⟨by decide, by decide,
    division_identity (BIGNUM.mk true 7) (BIGNUM.mk false 2) (by decide) (by decide)⟩

/-- C3: `a / b` and `a % b` throw `bignum_error` when the divisor is zero, and
return a value when it is not. -/
theorem division_throws_iff_zero_divisor (a b : CBigNum) :
    (BN_is_zero b = true →
      op_div a b = Except.error "CBigNum::operator/ : BN_div failed" ∧
      op_mod a b = Except.error "CBigNum::operator% : BN_div failed") ∧
    (BN_is_zero b = false →
      (∃ q, op_div a b = Except.ok q) ∧ ∃ r, op_mod a b = Except.ok r) := by
  constructor
  · intro hb
    simp [op_div, op_mod, BN_mod, BN_div, hb]
  · intro hb
    obtain ⟨q, r, hdiv, -⟩ := BN_div_spec a b hb
    exact ⟨⟨q, by simp [op_div, hdiv]⟩, ⟨r, by simp [op_mod, BN_mod, hdiv]⟩⟩

theorem division_throws_iff_zero_divisor_witness :
    (op_div (BIGNUM.mk false 5) BN_zero = Except.error "CBigNum::operator/ : BN_div failed" ∧
      op_mod (BIGNUM.mk false 5) BN_zero = Except.error "CBigNum::operator% : BN_div failed") ∧
    ((∃ q, op_div (BIGNUM.mk false 5) (BIGNUM.mk true 3) = Except.ok q) ∧
      ∃ r, op_mod (BIGNUM.mk false 5) (BIGNUM.mk true 3) = Except.ok r) :=
  ⟨(division_throws_iff_zero_divisor (BIGNUM.mk false 5) BN_zero).1 (by decide),
   (division_throws_iff_zero_divisor (BIGNUM.mk false 5) (BIGNUM.mk true 3)).2 (by decide)⟩


/-! ## Bit lengths and bytes -/

theorem numBitsAux_spec (fuel n : Nat) (h : n ≤ fuel) :
    n < 2 ^ numBitsAux fuel n ∧ (n ≠ 0 → 2 ^ (numBitsAux fuel n - 1) ≤ n) := by
  induction fuel generalizing n with
  | zero =>
    have : n = 0 := by omega
    subst this
    simp [numBitsAux]
  | succ f ih =>
    by_cases hn : n = 0
    · subst hn
      simp [numBitsAux]
    · have hhalf : n / 2 ≤ f := by omega
      obtain ⟨h1, h2⟩ := ih (n / 2) hhalf
      simp only [numBitsAux, hn, if_false, Nat.add_sub_cancel]
      constructor
      · rw [pow_succ]
        omega
      · intro _
        by_cases hz : n / 2 = 0
        · have hb : numBitsAux f (n / 2) = 0 := by
            rw [hz]
            cases f <;> simp [numBitsAux]
          rw [hb]
          simp
          omega
        · have h3 := h2 hz
          have hpos : 0 < numBitsAux f (n / 2) := by
            rcases Nat.eq_zero_or_pos (numBitsAux f (n / 2)) with h0 | h0
            · rw [h0] at h1
              simp at h1
              exact absurd h1 hz
            · exact h0
          obtain ⟨b, hb⟩ : ∃ b, numBitsAux f (n / 2) = b + 1 := ⟨_, (Nat.succ_pred_eq_of_pos hpos).symm⟩
          rw [hb] at h3 ⊢
          simp only [Nat.add_sub_cancel] at h3
          rw [pow_succ]
          omega

theorem BN_num_bits_zero (s : Bool) : BN_num_bits ⟨s, 0⟩ = 0 := by
  simp [BN_num_bits, numBitsAux]

theorem BN_num_bits_lt (a : BIGNUM) : a.mag < 2 ^ BN_num_bits a :=
  (numBitsAux_spec a.mag a.mag (le_refl _)).1

theorem BN_num_bits_le (a : BIGNUM) (h : a.mag ≠ 0) : 2 ^ (BN_num_bits a - 1) ≤ a.mag :=
  (numBitsAux_spec a.mag a.mag (le_refl _)).2 h

theorem BN_num_bits_pos (a : BIGNUM) (h : a.mag ≠ 0) : 0 < BN_num_bits a := by
  rcases Nat.eq_zero_or_pos (BN_num_bits a) with h0 | h0
  · have := BN_num_bits_lt a
    rw [h0] at this
    simp at this
    exact absurd this h
  · exact h0

theorem BN_num_bits_eq (a : BIGNUM) (k : Nat) (h1 : 2 ^ k ≤ a.mag) (h2 : a.mag < 2 ^ (k + 1)) :
    BN_num_bits a = k + 1 := by
  have hne : a.mag ≠ 0 := by
    have := Nat.pos_pow_of_pos k (show 0 < 2 by norm_num)
    omega
  have hlt := BN_num_bits_lt a
  have hle := BN_num_bits_le a hne
  have hpos := BN_num_bits_pos a hne
  have h3 : k < BN_num_bits a := by
    by_contra hcon
    have : 2 ^ BN_num_bits a ≤ 2 ^ k := Nat.pow_le_pow_right (by norm_num) (by omega)
    omega
  have h4 : BN_num_bits a - 1 < k + 1 := by
    by_contra hcon
    have : 2 ^ (k + 1) ≤ 2 ^ (BN_num_bits a - 1) := Nat.pow_le_pow_right (by norm_num) (by omega)
    omega
  omega

theorem foldl_bytesBE (k m acc : Nat) :
    (bytesBE k m).foldl (fun acc b => acc * 256 + b) acc = acc * 256 ^ k + m % 256 ^ k := by
  induction k generalizing acc with
  | zero => simp [bytesBE, Nat.mod_one]
  | succ k ih =>
    simp only [bytesBE, List.foldl_cons]
    rw [ih, Nat.mod_pow_succ, pow_succ]
    ring

theorem BN_bin2bn_bytesBE (k m : Nat) : BN_bin2bn (bytesBE k m) = m % 256 ^ k := by
  simp [BN_bin2bn, foldl_bytesBE]

theorem length_bytesBE (k m : Nat) : (bytesBE k m).length = k := by
  induction k with
  | zero => rfl
  | succ k ih => simp [bytesBE, ih]

theorem BN_bin2bn_cons (b : Nat) (k m : Nat) :
    BN_bin2bn (b :: bytesBE k m) = b * 256 ^ k + m % 256 ^ k := by
  simp [BN_bin2bn, foldl_bytesBE]

theorem BN_bin2bn_cons2 (b t : Nat) (k m : Nat) :
    BN_bin2bn (b :: t :: bytesBE k m) = (b * 256 + t) * 256 ^ k + m % 256 ^ k := by
  simp [BN_bin2bn, foldl_bytesBE]

theorem byte_and_0x80_eq_zero (t : Nat) (h : t < 128) : t &&& 0x80 = 0 := by
  interval_cases t <;> rfl

theorem byte_and_0x80_ne_zero (t : Nat) (h1 : 128 ≤ t) (h2 : t < 256) : t &&& 0x80 ≠ 0 := by
  interval_cases t <;> decide

theorem byte_or_0x80 (t : Nat) (h : t < 128) : t ||| 0x80 = t + 128 := by
  interval_cases t <;> rfl

theorem and_0xff (x : Nat) : x &&& 0xff = x % 256 :=
  Nat.and_pow_two_sub_one_eq_mod x 8

theorem length_prefix_decode (l : Nat) (h : l < 2 ^ 31) :
    ((l >>> 24) &&& 0xff) &&& 0x80 = 0 ∧
    ((((l >>> 24) &&& 0xff) <<< 24) ||| (((l >>> 16) &&& 0xff) <<< 16) |||
      (((l >>> 8) &&& 0xff) <<< 8) ||| (l &&& 0xff)) = l := by
  simp only [and_0xff, Nat.shiftRight_eq_div_pow, Nat.shiftLeft_eq]
  constructor
  · apply byte_and_0x80_eq_zero
    omega
  · have e1 : l / 2 ^ 24 % 256 * 2 ^ 24 ||| l / 2 ^ 16 % 256 * 2 ^ 16
        = 2 ^ 16 * (l / 2 ^ 24 % 256 * 2 ^ 8 + l / 2 ^ 16 % 256) := by
      have := Nat.mul_add_lt_is_or (i := 24) (b := l / 2 ^ 16 % 256 * 2 ^ 16) (by omega)
        (l / 2 ^ 24 % 256)
      rw [Nat.mul_comm (l / 2 ^ 24 % 256) (2 ^ 24), ← this]
      omega
    have e2 : 2 ^ 16 * (l / 2 ^ 24 % 256 * 2 ^ 8 + l / 2 ^ 16 % 256) ||| l / 2 ^ 8 % 256 * 2 ^ 8
        = 2 ^ 8 * ((l / 2 ^ 24 % 256 * 2 ^ 8 + l / 2 ^ 16 % 256) * 2 ^ 8 + l / 2 ^ 8 % 256) := by
      have := Nat.mul_add_lt_is_or (i := 16) (b := l / 2 ^ 8 % 256 * 2 ^ 8) (by omega)
        (l / 2 ^ 24 % 256 * 2 ^ 8 + l / 2 ^ 16 % 256)
      rw [← this]
      omega
    have e3 := Nat.mul_add_lt_is_or (i := 8) (b := l % 256) (by omega)
        ((l / 2 ^ 24 % 256 * 2 ^ 8 + l / 2 ^ 16 % 256) * 2 ^ 8 + l / 2 ^ 8 % 256)
    rw [e1, e2, ← e3]
    omega


theorem toCInt_of_lt (x : Nat) (h : x < 2 ^ 31) : toCInt x = (x : Int) := by
  have h1 : x % 2 ^ 32 = x := Nat.mod_eq_of_lt (by omega)
  simp [toCInt, h1]
  omega

/-- The header of an MPI buffer is read back: a buffer made of the 4-byte
length of `P` followed by `P` is decoded from its payload. -/
theorem BN_mpi2bn_header (P : List Nat) (h : P.length + 4 < 2 ^ 31) :
    BN_mpi2bn ([(P.length >>> 24) &&& 0xff, (P.length >>> 16) &&& 0xff,
        (P.length >>> 8) &&& 0xff, P.length &&& 0xff] ++ P) ((P.length : Int) + 4)
      = some (if P.length = 0 then ⟨false, 0⟩ else BN_mpi2bn_payload P) := by
  obtain ⟨h1, h2⟩ := length_prefix_decode P.length (by omega)
  simp only [BN_mpi2bn, List.cons_append, List.nil_append, h1, h2]
  simp
  split_ifs <;> simp_all

theorem clear_top_bit (m j : Nat) (h : m < 2 ^ j) :
    BN_clear_bit ⟨true, m + 2 ^ j⟩ (BN_num_bits ⟨true, m + 2 ^ j⟩ - 1)
      = ⟨true && !(m == 0), m⟩ := by
  have hb : BN_num_bits ⟨true, m + 2 ^ j⟩ = j + 1 := by
    apply BN_num_bits_eq
    · simp
    · simp only [pow_succ]
      omega
  rw [hb]
  have hdiv : (m + 2 ^ j) / 2 ^ j = 1 := by
    rw [Nat.add_div_right _ (Nat.pos_pow_of_pos j (by norm_num)), Nat.div_eq_of_lt h]
  simp [BN_clear_bit, hdiv]


theorem pow_256 (k : Nat) : (256 : Nat) ^ k = 2 ^ (8 * k) := by
  rw [show (256 : Nat) = 2 ^ 8 by norm_num, ← pow_mul]

/-- The top byte of a nonzero magnitude: `m = T * 256 ^ k + m % 256 ^ k` with
`0 < T < 256`, where `k + 1` is the byte length, and `T ≥ 128` exactly when
the bit length is a multiple of 8. -/
theorem top_byte (x : BIGNUM) (hm : x.mag ≠ 0) :
    ∃ k, (BN_num_bits x + 7) / 8 = k + 1 ∧ x.mag / 256 ^ k < 256 ∧
      0 < x.mag / 256 ^ k ∧ x.mag < 256 ^ (k + 1) ∧
      (BN_num_bits x % 8 = 0 ↔ 128 ≤ x.mag / 256 ^ k) := by
  have hpos := BN_num_bits_pos x hm
  have hlt := BN_num_bits_lt x
  have hle := BN_num_bits_le x hm
  obtain ⟨k, hk⟩ : ∃ k, (BN_num_bits x + 7) / 8 = k + 1 :=
    ⟨(BN_num_bits x + 7) / 8 - 1, by omega⟩
  have hq : (256 : Nat) ^ k = 2 ^ (8 * k) := pow_256 k
  have hqpos : 0 < (256 : Nat) ^ k := Nat.pos_pow_of_pos k (by norm_num)
  have hq1 : (256 : Nat) ^ (k + 1) = 256 ^ k * 256 := pow_succ _ _
  have hup : 2 ^ BN_num_bits x ≤ 256 ^ (k + 1) := by
    rw [pow_256]
    exact Nat.pow_le_pow_right (by norm_num) (by omega)
  have hlow : 256 ^ k ≤ 2 ^ (BN_num_bits x - 1) := by
    rw [pow_256]
    exact Nat.pow_le_pow_right (by norm_num) (by omega)
  refine ⟨k, hk, ?_, ?_, ?_, ?_⟩
  · rw [Nat.div_lt_iff_lt_mul hqpos]
    omega
  · exact Nat.div_pos (by omega) hqpos
  · omega
  · constructor
    · intro h8
      have hb : BN_num_bits x - 1 = 8 * k + 7 := by omega
      rw [Nat.le_div_iff_mul_le hqpos]
      have : 2 ^ (8 * k + 7) = 128 * 256 ^ k := by
        rw [pow_add, hq]
        ring
      rw [hb] at hle
      omega
    · intro hT
      by_contra h8
      have hb : BN_num_bits x ≤ 8 * k + 7 := by omega
      have h2 : 2 ^ BN_num_bits x ≤ 2 ^ (8 * k + 7) := Nat.pow_le_pow_right (by norm_num) hb
      have : 2 ^ (8 * k + 7) = 128 * 256 ^ k := by
        rw [pow_add, hq]
        ring
      rw [Nat.le_div_iff_mul_le hqpos] at hT
      omega

/-- What `BN_bn2mpi` writes after the length is read back by `BN_mpi2bn` as
the same number. -/
theorem BN_mpi2bn_payload_bn2mpi (x : BIGNUM) (hm : x.mag ≠ 0) :
    BN_mpi2bn_payload ((BN_bn2mpi x).drop 4) = x ∧
      ((BN_bn2mpi x).drop 4).length + 4 = BN_bn2mpi_size x ∧
      ((BN_bn2mpi x).take 4) =
        [(((BN_bn2mpi x).drop 4).length >>> 24) &&& 0xff,
         (((BN_bn2mpi x).drop 4).length >>> 16) &&& 0xff,
         (((BN_bn2mpi x).drop 4).length >>> 8) &&& 0xff,
         ((BN_bn2mpi x).drop 4).length &&& 0xff] := by
  obtain ⟨k, hk, hT1, hT0, hmlt, h8⟩ := top_byte x hm
  have hpos := BN_num_bits_pos x hm
  have hqpos : 0 < (256 : Nat) ^ k := Nat.pos_pow_of_pos k (by norm_num)
  have hsplit : x.mag / 256 ^ k * 256 ^ k + x.mag % 256 ^ k = x.mag := Nat.div_add_mod' _ _
  have hTmod : x.mag / 256 ^ k % 256 = x.mag / 256 ^ k := Nat.mod_eq_of_lt hT1
  cases x with
  | mk xn m =>
    simp only at hT1 hT0 hmlt h8 hsplit hTmod hm
    by_cases hext : BN_num_bits ⟨xn, m⟩ % 8 = 0
    · have hT : 128 ≤ m / 256 ^ k := h8.mp hext
      have hbin : BN_bn2bin ⟨xn, m⟩ = m / 256 ^ k :: bytesBE k m := by
        simp [BN_bn2bin, BN_num_bytes, hk, bytesBE, hTmod]
      have hval : BN_bin2bn (m / 256 ^ k :: bytesBE k m) = m := by
        rw [BN_bin2bn_cons]; exact hsplit
      cases xn
      · simp only [BN_bn2mpi, hk, hext, hpos, hbin, BN_bn2mpi_size]
        simp [length_bytesBE, BN_mpi2bn_payload]
        rw [BN_bin2bn_cons2]
        simpa using hsplit
      · simp only [BN_bn2mpi, hk, hext, hpos, hbin, BN_bn2mpi_size]
        simp [length_bytesBE, BN_mpi2bn_payload, setSignBit]
        have hv : BN_bin2bn (128 :: m / 256 ^ k :: bytesBE k m) = m + 2 ^ (8 * k + 15) := by
          rw [BN_bin2bn_cons2, pow_add, ← pow_256]
          have : (128 * 256 + m / 256 ^ k) * 256 ^ k
              = 256 ^ k * 2 ^ 15 + m / 256 ^ k * 256 ^ k := by ring
          omega
        rw [hv, clear_top_bit]
        · simp [hm]
        · rw [pow_add, ← pow_256]
          rw [pow_succ] at hmlt
          omega
    · have hT : m / 256 ^ k < 128 := by
        by_contra hcon
        exact hext (h8.mpr (by omega))
      have hbin : BN_bn2bin ⟨xn, m⟩ = m / 256 ^ k :: bytesBE k m := by
        simp [BN_bn2bin, BN_num_bytes, hk, bytesBE, hTmod]
      have hval : BN_bin2bn (m / 256 ^ k :: bytesBE k m) = m := by
        rw [BN_bin2bn_cons]; exact hsplit
      cases xn
      · simp only [BN_bn2mpi, hk, hext, hpos, hbin, BN_bn2mpi_size]
        simp [length_bytesBE, BN_mpi2bn_payload, byte_and_0x80_eq_zero _ hT, hval]
      · simp only [BN_bn2mpi, hk, hext, hpos, hbin, BN_bn2mpi_size]
        have hor : m / 256 ^ k ||| 128 = m / 256 ^ k + 128 := byte_or_0x80 _ hT
        have hand : (m / 256 ^ k + 128) &&& 128 ≠ 0 :=
          byte_and_0x80_ne_zero _ (by omega) (by omega)
        simp [length_bytesBE, BN_mpi2bn_payload, setSignBit, hor, hand]
        have hv : BN_bin2bn ((m / 256 ^ k + 128) :: bytesBE k m) = m + 2 ^ (8 * k + 7) := by
          rw [BN_bin2bn_cons, pow_add, ← pow_256]
          have : (m / 256 ^ k + 128) * 256 ^ k
              = 256 ^ k * 2 ^ 7 + m / 256 ^ k * 256 ^ k := by ring
          omega
        rw [hv, clear_top_bit]
        · simp [hm]
        · rw [pow_add, ← pow_256]
          have : m / 256 ^ k * 256 ^ k ≤ 127 * 256 ^ k := Nat.mul_le_mul_right _ (by omega)
          have := Nat.mod_lt m hqpos
          omega


theorem setvch_reverse (self : CBigNum) (P : List Nat) (h : P.length + 4 < 2 ^ 31) :
    setvch self P.reverse = if P.length = 0 then ⟨false, 0⟩ else BN_mpi2bn_payload P := by
  have h1 : P.length % 2 ^ 32 = P.length := Nat.mod_eq_of_lt (by omega)
  have h2 := BN_mpi2bn_header P h
  have h3 : toCInt (P.length + 4) = (P.length : Int) + 4 := by
    rw [toCInt_of_lt _ h]
    push_cast
    rfl
  simp only [setvch, List.length_reverse, List.reverse_reverse, h1, Nat.shiftRight_zero,
    List.length_append, List.length_cons, List.length_nil]
  rw [show 0 + 1 + 1 + 1 + 1 + P.length = P.length + 4 by omega, h3, h2]

/-- C1: for every canonical `x` (positive, negative or zero) whose MPI encoding
fits the `int` lengths of the OpenSSL interface, `setvch` on `x.getvch()`
gives back `x`, whatever the receiver held before; in particular the result
compares equal to `x`. -/
theorem setvch_getvch (self x : CBigNum) (hc : x.canonical)
    (hsz : BN_bn2mpi_size x < 2 ^ 31) :
    setvch self (getvch x) = x ∧ op_eq (setvch self (getvch x)) x = true := by
  have key : setvch self (getvch x) = x := by
    by_cases hm : x.mag = 0
    · cases x with
      | mk xn m =>
        simp only at hm
        subst hm
        have hn : xn = false := by
          cases xn
          · rfl
          · exact absurd rfl (hc rfl)
        subst hn
        have hg : getvch (BIGNUM.mk false 0) = ([] : List Nat).reverse := by decide
        rw [hg, setvch_reverse self [] (by decide)]
        rfl
    · obtain ⟨h1, h2, -⟩ := BN_mpi2bn_payload_bn2mpi x hm
      have hpos := BN_num_bits_pos x hm
      have hgt : ¬ BN_bn2mpi_size x ≤ 4 := by
        simp only [BN_bn2mpi_size]
        omega
      simp only [getvch, hgt, if_false]
      rw [setvch_reverse self _ (by omega)]
      have hlen : ((BN_bn2mpi x).drop 4).length ≠ 0 := by omega
      simp only [hlen, if_false]
      exact h1
  exact ⟨key, by rw [key, op_eq_iff]⟩

theorem setvch_getvch_witness :
    (BIGNUM.mk true 0x8000).canonical ∧ BN_bn2mpi_size (BIGNUM.mk true 0x8000) < 2 ^ 31 ∧
    setvch BN_zero (getvch (BIGNUM.mk true 0x8000)) = BIGNUM.mk true 0x8000 ∧
    op_eq (setvch BN_zero (getvch (BIGNUM.mk true 0x8000))) (BIGNUM.mk true 0x8000) = true :=
  ⟨by decide, by decide, setvch_getvch BN_zero (BIGNUM.mk true 0x8000) (by decide) (by decide)⟩


/-! ## The compact format in arithmetic form -/

theorem and_two_pow_eq (x k : Nat) :
    x &&& 2 ^ k = if x / 2 ^ k % 2 = 1 then 2 ^ k else 0 := by
  apply Nat.eq_of_testBit_eq
  intro i
  rw [Nat.testBit_and, Nat.testBit_two_pow]
  by_cases hki : k = i
  · subst hki
    by_cases hb : x / 2 ^ k % 2 = 1
    · simp [hb, Nat.testBit_to_div_mod, Nat.testBit_two_pow_self]
    · simp [hb, Nat.testBit_to_div_mod]
  · split_ifs <;> simp [hki, Nat.testBit_two_pow_of_ne hki]

theorem and_0x00800000 (x : Nat) :
    x &&& 0x00800000 = if x / 2 ^ 23 % 2 = 1 then 2 ^ 23 else 0 :=
  and_two_pow_eq x 23

theorem and_0x007fffff (x : Nat) : x &&& 0x007fffff = x % 2 ^ 23 :=
  Nat.and_pow_two_sub_one_eq_mod x 23

theorem or_eq_add_of_dvd (a b k : Nat) (ha : a < 2 ^ k) (hb : 2 ^ k ∣ b) : a ||| b = a + b := by
  obtain ⟨c, rfl⟩ := hb
  rw [Nat.or_comm, ← Nat.mul_add_lt_is_or ha c]
  omega

theorem SetCompact_eq (c : Nat) :
    SetCompact c = BN_set_negative
      ⟨false, if c / 2 ^ 24 ≤ 3 then c % 2 ^ 23 / 2 ^ (8 * (3 - c / 2 ^ 24))
              else c % 2 ^ 23 * 2 ^ (8 * (c / 2 ^ 24 - 3))⟩
      (decide (c / 2 ^ 23 % 2 = 1)) := by
  simp only [SetCompact, and_0x00800000, and_0x007fffff, Nat.shiftRight_eq_div_pow,
    BN_set_word, BN_lshift]
  have hdec : decide ((if c / 2 ^ 23 % 2 = 1 then 2 ^ 23 else 0) ≠ 0) = decide (c / 2 ^ 23 % 2 = 1) := by
    split_ifs with h <;> simp <;> omega
  rw [hdec]
  split_ifs <;> rfl


theorem mag_lt_pow_num_bytes (x : BIGNUM) : x.mag < 2 ^ (8 * BN_num_bytes x) := by
  have h := BN_num_bits_lt x
  have : 2 ^ BN_num_bits x ≤ 2 ^ (8 * BN_num_bytes x) :=
    Nat.pow_le_pow_right (by norm_num) (by simp only [BN_num_bytes]; omega)
  omega

theorem or3_eq_add (mant S sgn : Nat) (h1 : mant < 2 ^ 23) (h2 : 2 ^ 24 ∣ S)
    (h3 : sgn = 0 ∨ sgn = 2 ^ 23) : (mant ||| S) ||| sgn = mant + S + sgn := by
  rcases h3 with h3 | h3
  · subst h3
    rw [Nat.or_zero, or_eq_add_of_dvd mant S 24 (by omega) h2]
    rfl
  · subst h3
    rw [Nat.or_assoc, Nat.or_comm S, ← Nat.or_assoc,
      or_eq_add_of_dvd mant (2 ^ 23) 23 h1 (dvd_refl _),
      or_eq_add_of_dvd (mant + 2 ^ 23) S 24 (by omega) h2]
    omega

theorem GetCompact_eq (dm : DataModel) (hdm : 24 ≤ dm.BN_BITS2) (x : BIGNUM)
    (base : Nat)
    (hbase : base = if BN_num_bytes x ≤ 3 then x.mag * 2 ^ (8 * (3 - BN_num_bytes x))
                    else x.mag / 2 ^ (8 * (BN_num_bytes x - 3))) :
    base < 2 ^ 24 ∧
    GetCompact dm x =
      (if base < 2 ^ 23 then base + BN_num_bytes x * 2 ^ 24 % 2 ^ 32
       else base / 256 + (BN_num_bytes x + 1) * 2 ^ 24 % 2 ^ 32)
      + (if x.neg then 2 ^ 23 else 0) := by
  have hm := mag_lt_pow_num_bytes x
  have hW : (2 : Nat) ^ 24 ≤ 2 ^ dm.BN_BITS2 := Nat.pow_le_pow_right (by norm_num) hdm
  have hlt : base < 2 ^ 24 := by
    rw [hbase]
    split_ifs with hn
    · have : (2 : Nat) ^ (8 * BN_num_bytes x) * 2 ^ (8 * (3 - BN_num_bytes x)) = 2 ^ 24 := by
        rw [← pow_add]
        congr 1
        omega
      have hp : 0 < (2 : Nat) ^ (8 * (3 - BN_num_bytes x)) := Nat.pos_pow_of_pos _ (by norm_num)
      calc x.mag * 2 ^ (8 * (3 - BN_num_bytes x))
          < 2 ^ (8 * BN_num_bytes x) * 2 ^ (8 * (3 - BN_num_bytes x)) :=
            Nat.mul_lt_mul_of_pos_right hm hp
        _ = 2 ^ 24 := this
    · rw [Nat.div_lt_iff_lt_mul (Nat.pos_pow_of_pos _ (by norm_num)), ← pow_add]
      have : 24 + 8 * (BN_num_bytes x - 3) = 8 * BN_num_bytes x := by omega
      rw [this]
      exact hm
  refine ⟨hlt, ?_⟩
  have hword : (if BN_num_bytes x ≤ 3 then
        (BN_get_word dm x <<< (8 * (3 - BN_num_bytes x))) % 2 ^ 32
      else BN_get_word dm (BN_rshift x (8 * (BN_num_bytes x - 3))) % 2 ^ 32) = base := by
    rw [hbase]
    rw [hbase] at hlt
    split_ifs with hn
    · simp only [if_pos hn] at hlt
      have hmlt : x.mag < 2 ^ dm.BN_BITS2 := by
        have : 2 ^ (8 * BN_num_bytes x) ≤ (2 : Nat) ^ 24 :=
          Nat.pow_le_pow_right (by norm_num) (by omega)
        omega
      simp only [BN_get_word, hmlt, if_true, Nat.shiftLeft_eq]
      exact Nat.mod_eq_of_lt (by omega)
    · simp only [if_neg hn] at hlt
      have hmlt : x.mag / 2 ^ (8 * (BN_num_bytes x - 3)) < 2 ^ dm.BN_BITS2 := by omega
      simp only [BN_get_word, BN_rshift, hmlt, if_true]
      exact Nat.mod_eq_of_lt (by omega)
  simp only [GetCompact, hword]
  simp only [and_0x00800000, BN_is_negative, Nat.shiftLeft_eq, Nat.shiftRight_eq_div_pow]
  have hS : ∀ n : Nat, 2 ^ 24 ∣ n * 2 ^ 24 % 2 ^ 32 := fun n =>
    (Nat.dvd_mod_iff (by norm_num : (2 : Nat) ^ 24 ∣ 2 ^ 32)).mpr (Nat.dvd_mul_left _ _)
  have hsgn : (if x.neg = true then 8388608 else 0) = 0 ∨
      (if x.neg = true then 8388608 else 0) = 2 ^ 23 := by
    cases x.neg <;> simp
  by_cases hb : base < 2 ^ 23
  · have hb' : ¬ (base / 2 ^ 23 % 2 = 1) := by omega
    simp only [hb', if_false, ne_eq, not_true_eq_false, decide_False, hb, if_true,
      Bool.false_eq_true]
    rw [or3_eq_add _ _ _ hb (hS _) hsgn]
    norm_num
  · have hb' : base / 2 ^ 23 % 2 = 1 := by omega
    simp only [hb', if_true, ne_eq, decide_True, hb, if_false]
    simp only [show ¬ ((2 : Nat) ^ 23 = 0) by norm_num, not_false_eq_true, decide_True, if_true]
    rw [or3_eq_add _ _ _ (by omega) (hS _) hsgn]
    norm_num


theorem BN_num_bytes_eq (x : BIGNUM) (k : Nat) (h1 : 256 ^ k ≤ x.mag)
    (h2 : x.mag < 256 ^ (k + 1)) : BN_num_bytes x = k + 1 := by
  have hne : x.mag ≠ 0 := by
    have := Nat.pos_pow_of_pos k (show 0 < 256 by norm_num)
    omega
  have hlt := BN_num_bits_lt x
  have hle := BN_num_bits_le x hne
  have hpos := BN_num_bits_pos x hne
  rw [pow_256] at h1 h2
  have h3 : 8 * k < BN_num_bits x := by
    by_contra hcon
    have : 2 ^ BN_num_bits x ≤ 2 ^ (8 * k) := Nat.pow_le_pow_right (by norm_num) (by omega)
    omega
  have h4 : BN_num_bits x - 1 < 8 * (k + 1) := by
    by_contra hcon
    have : 2 ^ (8 * (k + 1)) ≤ 2 ^ (BN_num_bits x - 1) :=
      Nat.pow_le_pow_right (by norm_num) (by omega)
    omega
  simp only [BN_num_bytes]
  omega

/-- C4: for every 32-bit compact value `c` whose size byte is at least 3 and
whose 23-bit mantissa is at least `0x008000`, the sign flag set or clear,
`GetCompact(SetCompact(c)) == c`. -/
theorem GetCompact_SetCompact (dm : DataModel) (hdm : 24 ≤ dm.BN_BITS2) (c : Nat)
    (hc : c < 2 ^ 32) (hsize : 3 ≤ c >>> 24) (hmant : 0x008000 ≤ c &&& 0x007fffff) :
    GetCompact dm (SetCompact c) = c := by
  rw [and_0x007fffff] at hmant
  rw [Nat.shiftRight_eq_div_pow] at hsize
  obtain ⟨t, ht⟩ : ∃ t, c / 2 ^ 24 = t + 3 := ⟨c / 2 ^ 24 - 3, by omega⟩
  have hP : 0 < 2 ^ (8 * t) := Nat.pos_pow_of_pos _ (by norm_num)
  have hM : (if c / 2 ^ 24 ≤ 3 then c % 2 ^ 23 / 2 ^ (8 * (3 - c / 2 ^ 24))
              else c % 2 ^ 23 * 2 ^ (8 * (c / 2 ^ 24 - 3))) = c % 2 ^ 23 * 2 ^ (8 * t) := by
    rw [ht]
    split_ifs with h
    · have : t = 0 := by omega
      subst this
      simp
    · simp
  have hx : SetCompact c = ⟨decide (c / 2 ^ 23 % 2 = 1), c % 2 ^ 23 * 2 ^ (8 * t)⟩ := by
    rw [SetCompact_eq, hM]
    have hne : c % 2 ^ 23 * 2 ^ (8 * t) ≠ 0 := Nat.mul_ne_zero (by omega) (by omega)
    simp [BN_set_negative, BN_is_zero, hne]
    intro _
    omega
  rw [hx]
  have h256 : (256 : Nat) ^ t = 2 ^ (8 * t) := pow_256 t
  by_cases hw : 2 ^ 16 ≤ c % 2 ^ 23
  · -- the mantissa has three significant bytes
    have hn : BN_num_bytes ⟨decide (c / 2 ^ 23 % 2 = 1), c % 2 ^ 23 * 2 ^ (8 * t)⟩ = t + 3 := by
      have e1 : (256 : Nat) ^ (t + 2) = 2 ^ 16 * 2 ^ (8 * t) := by
        rw [pow_add, h256]; ring
      have e2 : (256 : Nat) ^ (t + 2 + 1) = 2 ^ 24 * 2 ^ (8 * t) := by
        rw [pow_succ, e1]; ring
      apply BN_num_bytes_eq
      · rw [e1]
        exact Nat.mul_le_mul_right (2 ^ (8 * t)) hw
      · rw [e2]
        exact Nat.mul_lt_mul_of_pos_right (show c % 2 ^ 23 < 2 ^ 24 by omega) hP
    obtain ⟨-, hG⟩ := GetCompact_eq dm hdm ⟨decide (c / 2 ^ 23 % 2 = 1), c % 2 ^ 23 * 2 ^ (8 * t)⟩
      (c % 2 ^ 23) (by
        rw [hn]
        split_ifs with h
        · have : t = 0 := by omega
          subst this
          simp
        · simp only [Nat.add_sub_cancel]
          exact (Nat.mul_div_cancel _ hP).symm)
    rw [hG, hn]
    have hlt : c % 2 ^ 23 < 2 ^ 23 := by omega
    simp only [hlt, if_true, decide_eq_true_eq]
    split_ifs <;> omega
  · -- the mantissa has two significant bytes
    have hn : BN_num_bytes ⟨decide (c / 2 ^ 23 % 2 = 1), c % 2 ^ 23 * 2 ^ (8 * t)⟩ = t + 2 := by
      have e1 : (256 : Nat) ^ (t + 1) = 2 ^ 8 * 2 ^ (8 * t) := by
        rw [pow_add, h256]; ring
      have e2 : (256 : Nat) ^ (t + 1 + 1) = 2 ^ 16 * 2 ^ (8 * t) := by
        rw [pow_succ, e1]; ring
      apply BN_num_bytes_eq
      · rw [e1]
        exact Nat.mul_le_mul_right (2 ^ (8 * t)) (by omega)
      · rw [e2]
        exact Nat.mul_lt_mul_of_pos_right (show c % 2 ^ 23 < 2 ^ 16 by omega) hP
    obtain ⟨-, hG⟩ := GetCompact_eq dm hdm ⟨decide (c / 2 ^ 23 % 2 = 1), c % 2 ^ 23 * 2 ^ (8 * t)⟩
      (c % 2 ^ 23 * 256) (by
        rw [hn]
        split_ifs with h
        · have ht01 : t = 0 ∨ t = 1 := by omega
          rcases ht01 with h0 | h0 <;> subst h0 <;> simp
        · obtain ⟨u, hu⟩ : ∃ u, t = u + 2 := ⟨t - 2, by omega⟩
          subst hu
          have e1 : 8 * (u + 2 + 2 - 3) = 8 * u + 8 := by omega
          have e2 : 8 * (u + 2) = 8 + (8 * u + 8) := by omega
          simp only [e1, e2]
          rw [pow_add 2 8, ← Nat.mul_assoc,
            Nat.mul_div_cancel _ (Nat.pos_pow_of_pos _ (by norm_num))]
          norm_num)
    rw [hG, hn]
    have hge : ¬ c % 2 ^ 23 * 256 < 2 ^ 23 := by omega
    simp only [hge, if_false, decide_eq_true_eq]
    rw [Nat.mul_div_cancel _ (by norm_num : 0 < 256)]
    split_ifs <;> omega


theorem GetCompact_SetCompact_witness :
    24 ≤ LP64.BN_BITS2 ∧ (0x1b0404cb : Nat) < 2 ^ 32 ∧ 3 ≤ (0x1b0404cb : Nat) >>> 24 ∧
    0x008000 ≤ (0x1b0404cb : Nat) &&& 0x007fffff ∧
    GetCompact LP64 (SetCompact 0x1b0404cb) = 0x1b0404cb :=
  ⟨by decide, by decide, by decide, by decide,
    GetCompact_SetCompact LP64 (by decide) 0x1b0404cb (by decide) (by decide) (by decide)⟩

theorem SetCompact_of_parts (s w : Nat) (f : Bool) (hw : w < 2 ^ 23) :
    SetCompact (w + s * 2 ^ 24 + (if f then 2 ^ 23 else 0)) =
      BN_set_negative
        ⟨false, if s ≤ 3 then w / 2 ^ (8 * (3 - s)) else w * 2 ^ (8 * (s - 3))⟩ f := by
  rw [SetCompact_eq]
  have h1 : (w + s * 2 ^ 24 + (if f then 2 ^ 23 else 0)) / 2 ^ 24 = s := by
    cases f <;> simp <;> omega
  have h2 : (w + s * 2 ^ 24 + (if f then 2 ^ 23 else 0)) % 2 ^ 23 = w := by
    cases f <;> simp <;> omega
  have h3 : decide ((w + s * 2 ^ 24 + (if f then 2 ^ 23 else 0)) / 2 ^ 23 % 2 = 1) = f := by
    cases f <;> simp <;> omega
  rw [h1, h2, h3]

/-- The compact form of a value, in arithmetic: the mantissa `w`, the size
byte `s` and the sign, for a size that fits one byte. -/
theorem GetCompact_parts (dm : DataModel) (hdm : 24 ≤ dm.BN_BITS2) (x : BIGNUM)
    (k : Nat) (hk : BN_num_bytes x = k + 1) (hsz : k + 1 ≤ 255) :
    (x.mag / 256 ^ k < 128 →
      GetCompact dm x = (if k ≤ 2 then x.mag * 256 ^ (2 - k) else x.mag / 256 ^ (k - 2))
        + (k + 1) * 2 ^ 24 + (if x.neg then 2 ^ 23 else 0) ∧
      (if k ≤ 2 then x.mag * 256 ^ (2 - k) else x.mag / 256 ^ (k - 2)) < 2 ^ 23) ∧
    (128 ≤ x.mag / 256 ^ k → k + 2 ≤ 255 →
      GetCompact dm x = (if k ≤ 1 then x.mag * 256 ^ (1 - k) else x.mag / 256 ^ (k - 1))
        + (k + 2) * 2 ^ 24 + (if x.neg then 2 ^ 23 else 0) ∧
      (if k ≤ 1 then x.mag * 256 ^ (1 - k) else x.mag / 256 ^ (k - 1)) < 2 ^ 23) := by
  have hqpos : 0 < (256 : Nat) ^ k := Nat.pos_pow_of_pos k (by norm_num)
  have hsplit : x.mag / 256 ^ k * 256 ^ k + x.mag % 256 ^ k = x.mag := Nat.div_add_mod' _ _
  have hr := Nat.mod_lt x.mag hqpos
  obtain ⟨hb24, hG⟩ := GetCompact_eq dm hdm x _ rfl
  rw [hk] at hG hb24
  have hbase : (if k + 1 ≤ 3 then x.mag * 2 ^ (8 * (3 - (k + 1)))
      else x.mag / 2 ^ (8 * (k + 1 - 3)))
      = if k ≤ 2 then x.mag * 256 ^ (2 - k) else x.mag / 256 ^ (k - 2) := by
    by_cases h : k ≤ 2
    · rw [if_pos (by omega), if_pos h, pow_256]
      congr 2
      omega
    · rw [if_neg (by omega), if_neg h, pow_256]
      congr 2
  rw [hbase] at hG hb24
  have hs1 : (k + 1) * 2 ^ 24 % 2 ^ 32 = (k + 1) * 2 ^ 24 := Nat.mod_eq_of_lt (by omega)
  rw [hs1] at hG
  constructor
  · intro hT
    have hmlt : x.mag < 128 * 256 ^ k := by
      have : x.mag / 256 ^ k * 256 ^ k ≤ 127 * 256 ^ k := Nat.mul_le_mul_right _ (by omega)
      omega
    have hlt : (if k ≤ 2 then x.mag * 256 ^ (2 - k) else x.mag / 256 ^ (k - 2)) < 2 ^ 23 := by
      by_cases h : k ≤ 2
      · rw [if_pos h]
        interval_cases k <;> simp at hmlt ⊢ <;> omega
      · rw [if_neg h, Nat.div_lt_iff_lt_mul (Nat.pos_pow_of_pos _ (by norm_num))]
        have : (256 : Nat) ^ k = 256 ^ (k - 2) * 256 ^ 2 := by
          rw [← pow_add]
          congr 1
          omega
        omega
    rw [if_pos hlt] at hG
    exact ⟨hG, hlt⟩
  · intro hT hsz2
    have hs2 : (k + 1 + 1) * 2 ^ 24 % 2 ^ 32 = (k + 2) * 2 ^ 24 := Nat.mod_eq_of_lt (by omega)
    rw [hs2] at hG
    have hmge : 128 * 256 ^ k ≤ x.mag := by
      have : 128 * 256 ^ k ≤ x.mag / 256 ^ k * 256 ^ k := Nat.mul_le_mul_right _ hT
      omega
    have hge : ¬ (if k ≤ 2 then x.mag * 256 ^ (2 - k) else x.mag / 256 ^ (k - 2)) < 2 ^ 23 := by
      by_cases h : k ≤ 2
      · rw [if_pos h]
        interval_cases k <;> simp at hmge ⊢ <;> omega
      · rw [if_neg h, not_lt, Nat.le_div_iff_mul_le (Nat.pos_pow_of_pos _ (by norm_num))]
        have : (256 : Nat) ^ k = 256 ^ (k - 2) * 256 ^ 2 := by
          rw [← pow_add]
          congr 1
          omega
        omega
    rw [if_neg hge] at hG
    have hmant : (if k ≤ 2 then x.mag * 256 ^ (2 - k) else x.mag / 256 ^ (k - 2)) / 256
        = if k ≤ 1 then x.mag * 256 ^ (1 - k) else x.mag / 256 ^ (k - 1) := by
      by_cases h : k ≤ 2
      · rw [if_pos h]
        interval_cases k <;> simp
        omega
      · rw [if_neg h, if_neg (by omega), Nat.div_div_eq_div_mul]
        congr 1
        rw [← pow_succ]
        congr 1
        omega
    rw [hmant] at hG
    refine ⟨hG, ?_⟩
    rw [← hmant]
    omega


theorem BN_set_negative_mk (x : BIGNUM) (hc : x.canonical) :
    BN_set_negative ⟨false, x.mag⟩ x.neg = x := by
  cases x with
  | mk xn m =>
    cases xn
    · simp [BN_set_negative]
    · have : m ≠ 0 := hc rfl
      simp [BN_set_negative, BN_is_zero, this]

/-- C5, amended: for every canonical `x` whose size byte fits (at most 255)
and whose magnitude has only zero bytes below its 3 most significant bytes
when the most significant byte is below `0x80`, or below its 2 most significant
bytes when that byte is `0x80` or more, `SetCompact(GetCompact(x)) == x`. -/
theorem SetCompact_GetCompact (dm : DataModel) (hdm : 24 ≤ dm.BN_BITS2) (x : CBigNum)
    (hc : x.canonical)
    (hsz : (if 128 ≤ x.mag / 256 ^ (BN_num_bytes x - 1) then BN_num_bytes x + 1
            else BN_num_bytes x) ≤ 255)
    (hlow : x.mag % 256 ^ ((if 128 ≤ x.mag / 256 ^ (BN_num_bytes x - 1)
              then BN_num_bytes x + 1 else BN_num_bytes x) - 3) = 0) :
    SetCompact (GetCompact dm x) = x ∧ op_eq (SetCompact (GetCompact dm x)) x = true := by
  have key : SetCompact (GetCompact dm x) = x := by
    by_cases hm : x.mag = 0
    · cases x with
      | mk xn m =>
        simp only at hm
        subst hm
        have hn : xn = false := by
          cases xn
          · rfl
          · exact absurd rfl (hc rfl)
        subst hn
        have h0 : BN_num_bytes ⟨false, 0⟩ = 0 := by decide
        obtain ⟨-, hG⟩ := GetCompact_eq dm hdm ⟨false, 0⟩ _ rfl
        rw [h0] at hG
        simp at hG
        rw [hG]
        decide
    · obtain ⟨k, hk, -, -, -, -⟩ := top_byte x hm
      have hk' : BN_num_bytes x = k + 1 := hk
      rw [hk'] at hsz hlow
      simp only [Nat.add_sub_cancel] at hsz hlow
      obtain ⟨hlo, hhi⟩ := GetCompact_parts dm hdm x k hk' (by split_ifs at hsz <;> omega)
      by_cases hT : 128 ≤ x.mag / 256 ^ k
      · obtain ⟨hG, hw⟩ := hhi hT (by rw [if_pos hT] at hsz; omega)
        rw [if_pos hT] at hlow
        rw [hG, SetCompact_of_parts _ _ _ hw]
        have hM : (if k + 2 ≤ 3 then
              (if k ≤ 1 then x.mag * 256 ^ (1 - k) else x.mag / 256 ^ (k - 1))
                / 2 ^ (8 * (3 - (k + 2)))
            else (if k ≤ 1 then x.mag * 256 ^ (1 - k) else x.mag / 256 ^ (k - 1))
                * 2 ^ (8 * (k + 2 - 3))) = x.mag := by
          by_cases h1 : k ≤ 1
          · interval_cases k <;> simp
          · rw [if_neg (by omega), if_neg h1, ← pow_256]
            have e : k + 2 - 3 = k - 1 := by omega
            rw [e] at hlow ⊢
            exact Nat.div_mul_cancel (Nat.dvd_of_mod_eq_zero hlow)
        rw [hM]
        exact BN_set_negative_mk x hc
      · obtain ⟨hG, hw⟩ := hlo (by omega)
        rw [if_neg hT] at hlow
        rw [hG, SetCompact_of_parts _ _ _ hw]
        have hM : (if k + 1 ≤ 3 then
              (if k ≤ 2 then x.mag * 256 ^ (2 - k) else x.mag / 256 ^ (k - 2))
                / 2 ^ (8 * (3 - (k + 1)))
            else (if k ≤ 2 then x.mag * 256 ^ (2 - k) else x.mag / 256 ^ (k - 2))
                * 2 ^ (8 * (k + 1 - 3))) = x.mag := by
          by_cases h2 : k ≤ 2
          · interval_cases k <;> simp
          · rw [if_neg (by omega), if_neg h2, ← pow_256]
            have e : k + 1 - 3 = k - 2 := by omega
            rw [e] at hlow ⊢
            exact Nat.div_mul_cancel (Nat.dvd_of_mod_eq_zero hlow)
        rw [hM]
        exact BN_set_negative_mk x hc
  exact ⟨key, by rw [key, op_eq_iff]⟩

theorem SetCompact_GetCompact_witness :
    24 ≤ LP64.BN_BITS2 ∧ (BIGNUM.mk true 0x80ff00).canonical ∧
    SetCompact (GetCompact LP64 (BIGNUM.mk true 0x80ff00)) = BIGNUM.mk true 0x80ff00 ∧
    op_eq (SetCompact (GetCompact LP64 (BIGNUM.mk true 0x80ff00))) (BIGNUM.mk true 0x80ff00)
      = true :=
  ⟨by decide, by decide,
    SetCompact_GetCompact LP64 (by decide) (BIGNUM.mk true 0x80ff00) (by decide)
      (by decide) (by decide)⟩

/-- C5 as stated fails: `0x800001` occupies 3 bytes, so no byte lies below its 3
most significant bytes, yet the compact round trip returns `0x800000`. -/
theorem compact_round_trip_three_bytes_counterexample :
    (BIGNUM.mk false 0x800001).canonical ∧ BN_num_bytes (BIGNUM.mk false 0x800001) = 3 ∧
    GetCompact LP64 (BIGNUM.mk false 0x800001) = 0x04008000 ∧
    SetCompact (GetCompact LP64 (BIGNUM.mk false 0x800001)) = BIGNUM.mk false 0x800000 ∧
    op_eq (SetCompact (GetCompact LP64 (BIGNUM.mk false 0x800001))) (BIGNUM.mk false 0x800001)
      = false := by
  decide


/-- A magnitude of 256 bytes no longer fits the size byte: `nSize << 24` wraps
to zero and the round trip loses the value. -/
theorem compact_size_byte_overflow :
    BN_num_bytes (BIGNUM.mk false (2 ^ 2040)) = 256 ∧
    GetCompact LP64 (BIGNUM.mk false (2 ^ 2040)) = 0x00010000 ∧
    SetCompact (GetCompact LP64 (BIGNUM.mk false (2 ^ 2040))) = BN_zero := by
  decide!


/-! ## Native integers -/

theorem div_pow_mod_of_mod (r i j : Nat) (hij : i < j) :
    r % 256 ^ j / 256 ^ i % 256 = r / 256 ^ i % 256 := by
  obtain ⟨d, rfl⟩ : ∃ d, j = i + (d + 1) := ⟨j - i - 1, by omega⟩
  rw [pow_add, Nat.mod_mul_right_div_self, Nat.mod_mod_of_dvd]
  exact Dvd.intro_left _ (pow_succ _ _).symm

theorem bytesBE_mod (i j r : Nat) (hij : i ≤ j) : bytesBE i (r % 256 ^ j) = bytesBE i r := by
  induction i with
  | zero => rfl
  | succ i ih =>
    simp only [bytesBE]
    rw [div_pow_mod_of_mod r i j (by omega), ih (by omega)]

/-- Once a nonzero byte has been written, the loop copies the remaining
bytes unchanged. -/
theorem setint64_loop_copy (f : Bool) (i r : Nat) (hi : i ≤ 8) (hr : r < 256 ^ i)
    (out : List Nat) :
    setint64_loop f i (r * 256 ^ (8 - i)) false out = out ++ bytesBE i r := by
  induction i generalizing r out with
  | zero => simp [setint64_loop, bytesBE]
  | succ i ih =>
    have hp : 0 < (256 : Nat) ^ i := Nat.pos_pow_of_pos _ (by norm_num)
    have hp2 : 0 < (256 : Nat) ^ (7 - i) := Nat.pos_pow_of_pos _ (by norm_num)
    have e7 : (256 : Nat) ^ 7 = 256 ^ (7 - i) * 256 ^ i := by
      rw [← pow_add]; congr 1; omega
    have e8 : (256 : Nat) ^ (8 - i) = 256 ^ (7 - i) * 256 := by
      rw [← pow_succ]; congr 1; omega
    have e88 : (256 : Nat) ^ 8 = 256 ^ (8 - i) * 256 ^ i := by
      rw [← pow_add]; congr 1; omega
    have hc : (r * 256 ^ (8 - (i + 1))) >>> 56 &&& 0xff = r / 256 ^ i % 256 := by
      rw [and_0xff, Nat.shiftRight_eq_div_pow, show (2 : Nat) ^ 56 = 256 ^ 7 by norm_num, e7,
        show 8 - (i + 1) = 7 - i by omega, ← Nat.div_div_eq_div_mul,
        Nat.mul_div_cancel _ hp2]
    have hn : (r * 256 ^ (8 - (i + 1))) <<< 8 % 2 ^ 64 = r % 256 ^ i * 256 ^ (8 - i) := by
      rw [Nat.shiftLeft_eq, show 8 - (i + 1) = 7 - i by omega,
        show (2 : Nat) ^ 64 = 256 ^ 8 by norm_num, show (2 : Nat) ^ 8 = 256 by norm_num,
        Nat.mul_assoc, ← e8, e88, Nat.mul_comm (256 ^ (8 - i)) (256 ^ i),
        Nat.mul_mod_mul_right]
    simp only [setint64_loop, hc, hn, Bool.false_eq_true, if_false]
    rw [ih (r % 256 ^ i) (by omega) (Nat.mod_lt _ hp), bytesBE_mod i i r (le_refl _)]
    simp [bytesBE]


/-- The payload `BN_bn2mpi` writes for a magnitude of `k + 1` bytes, by its
top byte. -/
theorem BN_bn2mpi_payload (x : BIGNUM) (k : Nat) (h1 : 256 ^ k ≤ x.mag)
    (h2 : x.mag < 256 ^ (k + 1)) :
    (BN_bn2mpi x).drop 4 =
      if 128 ≤ x.mag / 256 ^ k then
        (if x.neg then 0x80 else 0) :: x.mag / 256 ^ k :: bytesBE k x.mag
      else
        (if x.neg then x.mag / 256 ^ k ||| 0x80 else x.mag / 256 ^ k) :: bytesBE k x.mag := by
  have hqpos : 0 < (256 : Nat) ^ k := Nat.pos_pow_of_pos k (by norm_num)
  have hm : x.mag ≠ 0 := by omega
  have hn : BN_num_bytes x = k + 1 := BN_num_bytes_eq x k h1 h2
  obtain ⟨k', hk', hT1, -, -, h8⟩ := top_byte x hm
  have hkk : k' = k := by
    have : BN_num_bytes x = k' + 1 := hk'
    omega
  subst hkk
  have hpos := BN_num_bits_pos x hm
  have hTmod : x.mag / 256 ^ k' % 256 = x.mag / 256 ^ k' := Nat.mod_eq_of_lt hT1
  have hbin : BN_bn2bin x = x.mag / 256 ^ k' :: bytesBE k' x.mag := by
    simp [BN_bn2bin, hn, bytesBE, hTmod]
  by_cases hT : 128 ≤ x.mag / 256 ^ k'
  · have hext : BN_num_bits x % 8 = 0 := h8.mpr hT
    simp only [BN_bn2mpi, hext, hpos, hbin, if_pos hT]
    cases x.neg <;> simp [setSignBit]
  · have hext : ¬ BN_num_bits x % 8 = 0 := fun h => hT (h8.mp h)
    simp only [BN_bn2mpi, hext, hpos, hbin, if_neg hT]
    cases x.neg <;> simp [setSignBit]

theorem setint64_loop_leading (f : Bool) (i r : Nat) (hi : i ≤ 8) (hr : r < 256 ^ i) :
    setint64_loop f i (r * 256 ^ (8 - i)) true [] =
      if r = 0 then [] else (BN_bn2mpi ⟨f, r⟩).drop 4 := by
  induction i generalizing r with
  | zero =>
    have : r = 0 := by simpa using hr
    simp [setint64_loop, this]
  | succ i ih =>
    have hp : 0 < (256 : Nat) ^ i := Nat.pos_pow_of_pos _ (by norm_num)
    have hp2 : 0 < (256 : Nat) ^ (7 - i) := Nat.pos_pow_of_pos _ (by norm_num)
    have e7 : (256 : Nat) ^ 7 = 256 ^ (7 - i) * 256 ^ i := by
      rw [← pow_add]; congr 1; omega
    have e8 : (256 : Nat) ^ (8 - i) = 256 ^ (7 - i) * 256 := by
      rw [← pow_succ]; congr 1; omega
    have e88 : (256 : Nat) ^ 8 = 256 ^ (8 - i) * 256 ^ i := by
      rw [← pow_add]; congr 1; omega
    have hT1 : r / 256 ^ i < 256 := by
      rw [Nat.div_lt_iff_lt_mul hp, Nat.mul_comm, ← pow_succ]
      exact hr
    have hc : (r * 256 ^ (8 - (i + 1))) >>> 56 &&& 0xff = r / 256 ^ i := by
      rw [and_0xff, Nat.shiftRight_eq_div_pow, show (2 : Nat) ^ 56 = 256 ^ 7 by norm_num, e7,
        show 8 - (i + 1) = 7 - i by omega, ← Nat.div_div_eq_div_mul,
        Nat.mul_div_cancel _ hp2, Nat.mod_eq_of_lt hT1]
    have hn : (r * 256 ^ (8 - (i + 1))) <<< 8 % 2 ^ 64 = r % 256 ^ i * 256 ^ (8 - i) := by
      rw [Nat.shiftLeft_eq, show 8 - (i + 1) = 7 - i by omega,
        show (2 : Nat) ^ 64 = 256 ^ 8 by norm_num, show (2 : Nat) ^ 8 = 256 by norm_num,
        Nat.mul_assoc, ← e8, e88, Nat.mul_comm (256 ^ (8 - i)) (256 ^ i),
        Nat.mul_mod_mul_right]
    simp only [setint64_loop, hc, hn, if_true]
    by_cases hT0 : r / 256 ^ i = 0
    · have hlt : r < 256 ^ i := by
        rcases Nat.div_eq_zero_iff hp |>.mp hT0 with h
        exact h
      rw [if_pos hT0, Nat.mod_eq_of_lt hlt]
      exact ih r (by omega) hlt
    · have hge : 256 ^ i ≤ r := by
        by_contra hcon
        exact hT0 (Nat.div_eq_of_lt (by omega))
      have hr0 : r ≠ 0 := by omega
      rw [if_neg hT0, if_neg hr0, BN_bn2mpi_payload ⟨f, r⟩ i hge hr]
      simp only [setint64_loop_copy f i (r % 256 ^ i) (by omega) (Nat.mod_lt _ hp),
        bytesBE_mod i i r (le_refl _)]
      by_cases hT : 128 ≤ r / 256 ^ i
      · have hand := byte_and_0x80_ne_zero _ hT hT1
        simp [hand, hT]
      · have hand := byte_and_0x80_eq_zero _ (by omega : r / 256 ^ i < 128)
        simp [hand, hT]
        cases f <;> simp


theorem BN_num_bits_le_of_lt (x : BIGNUM) (j : Nat) (h : x.mag < 2 ^ j) : BN_num_bits x ≤ j := by
  by_cases hm : x.mag = 0
  · cases x with
    | mk xn m =>
      simp only at hm
      subst hm
      rw [BN_num_bits_zero]
      omega
  · have hle := BN_num_bits_le x hm
    by_contra hcon
    have : 2 ^ j ≤ 2 ^ (BN_num_bits x - 1) := Nat.pow_le_pow_right (by norm_num) (by omega)
    omega

/-- The buffer a caller builds by hand from a payload equal to the one of
`BN_bn2mpi` is decoded to the number itself. -/
theorem BN_mpi2bn_of_payload (f : Bool) (n : Nat) (hn : n < 2 ^ 64) (P : List Nat)
    (hP : P = if n = 0 then [] else (BN_bn2mpi ⟨f, n⟩).drop 4) :
    BN_mpi2bn ([(P.length >>> 24) &&& 0xff, (P.length >>> 16) &&& 0xff,
        (P.length >>> 8) &&& 0xff, P.length &&& 0xff] ++ P)
      (toCInt ([(P.length >>> 24) &&& 0xff, (P.length >>> 16) &&& 0xff,
        (P.length >>> 8) &&& 0xff, P.length &&& 0xff] ++ P).length)
      = some ⟨f && !(n == 0), n⟩ := by
  have hlen : P.length + 4 < 2 ^ 31 := by
    by_cases h0 : n = 0
    · rw [hP, if_pos h0]
      simp
    · obtain ⟨-, h2, -⟩ := BN_mpi2bn_payload_bn2mpi ⟨f, n⟩ h0
      have hb := BN_num_bits_le_of_lt ⟨f, n⟩ 64 hn
      rw [hP, if_neg h0, h2]
      simp only [BN_bn2mpi_size]
      split_ifs <;> omega
  have hC : toCInt ([(P.length >>> 24) &&& 0xff, (P.length >>> 16) &&& 0xff,
        (P.length >>> 8) &&& 0xff, P.length &&& 0xff] ++ P).length = (P.length : Int) + 4 := by
    simp only [List.length_append, List.length_cons, List.length_nil]
    rw [show 0 + 1 + 1 + 1 + 1 + P.length = P.length + 4 by omega, toCInt_of_lt _ hlen]
    push_cast
    rfl
  rw [hC, BN_mpi2bn_header P hlen]
  by_cases h0 : n = 0
  · subst h0
    rw [hP]
    simp
  · obtain ⟨h1, h2, -⟩ := BN_mpi2bn_payload_bn2mpi ⟨f, n⟩ h0
    have hl : P.length ≠ 0 := by
      rw [hP, if_neg h0]
      have : 4 < BN_bn2mpi_size ⟨f, n⟩ := by
        have := BN_num_bits_pos ⟨f, n⟩ h0
        simp only [BN_bn2mpi_size]
        omega
      omega
    rw [if_neg hl, hP, if_neg h0, h1]
    simp [h0]

theorem setint64_eq (self : CBigNum) (sn : Int) (h1 : -2 ^ 63 ≤ sn) (h2 : sn < 2 ^ 63) :
    setint64 self sn = ⟨decide (sn < 0), sn.natAbs⟩ := by
  have hn : (if sn < 0 then ((-(sn + 1)).toNat + 1) % 2 ^ 64 else sn.toNat) = sn.natAbs := by
    split_ifs <;> omega
  have hlt : sn.natAbs < 2 ^ 64 := by omega
  have hloop := setint64_loop_leading (decide (sn < 0)) 8 sn.natAbs (le_refl _)
    (by norm_num; omega)
  simp only [Nat.sub_self, pow_zero, Nat.mul_one] at hloop
  unfold setint64
  simp only [hn]
  rw [BN_mpi2bn_of_payload (decide (sn < 0)) sn.natAbs hlt _ hloop]
  simp
  intro _
  omega


/-- C9: for every 32-bit signed `n`, from `INT_MIN` to `INT_MAX` inclusive,
`CBigNum(n).getint() == n`, on every build whose `BN_ULONG` and
`unsigned long` have at least 32 bits. -/
theorem getint_CBigNum_int (dm : DataModel) (hW : 32 ≤ dm.BN_BITS2) (hL : 32 ≤ dm.ULONG_BITS)
    (n : Int) (hlo : INT_MIN ≤ n) (hhi : n ≤ INT_MAX) :
    getint dm (CBigNum_int n) = n := by
  simp only [INT_MIN, INT_MAX] at hlo hhi
  have hW' : (2 : Nat) ^ 32 ≤ 2 ^ dm.BN_BITS2 := Nat.pow_le_pow_right (by norm_num) hW
  have hL' : (2 : Nat) ^ 32 ≤ 2 ^ dm.ULONG_BITS := Nat.pow_le_pow_right (by norm_num) hL
  have hx : CBigNum_int n = ⟨decide (n < 0), n.natAbs⟩ := by
    unfold CBigNum_int
    split_ifs with h
    · have e : n.toNat = n.natAbs := by omega
      simp [setulong, BN_set_word, e]
      omega
    · exact setint64_eq BN_zero n (by omega) (by omega)
  have hword : BN_get_word dm ⟨decide (n < 0), n.natAbs⟩ % 2 ^ dm.ULONG_BITS = n.natAbs := by
    have h1 : n.natAbs < 2 ^ dm.BN_BITS2 := by omega
    simp only [BN_get_word, h1, if_true]
    exact Nat.mod_eq_of_lt (by omega)
  rw [hx]
  simp only [getint, hword, BN_is_negative, INT_MAX, INT_MIN]
  by_cases hneg : n < 0
  · simp only [hneg, decide_True, Bool.not_true, Bool.false_eq_true, if_false]
    split_ifs <;> omega
  · simp only [hneg, decide_False, Bool.not_false, if_true]
    split_ifs <;> omega

theorem getint_CBigNum_int_witness :
    32 ≤ LP64.BN_BITS2 ∧ 32 ≤ LP64.ULONG_BITS ∧ INT_MIN ≤ INT_MIN ∧ INT_MIN ≤ INT_MAX ∧
    getint LP64 (CBigNum_int INT_MIN) = INT_MIN :=
  ⟨by decide, by decide, by decide, by decide,
    getint_CBigNum_int LP64 (by decide) (by decide) INT_MIN (by decide) (by decide)⟩

/-- C10: for every 32-bit unsigned `n`, `CBigNum(n).getuint() == n`, and for
every `unsigned long` `n`, `CBigNum(n).getulong() == n`, on every build where
`unsigned long` has at least 32 bits and `BN_ULONG` is at least as wide. -/
theorem getuint_getulong_CBigNum (dm : DataModel) (hL : 32 ≤ dm.ULONG_BITS)
    (hW : dm.ULONG_BITS ≤ dm.BN_BITS2) :
    (∀ n : Nat, n < 2 ^ 32 → getuint dm (CBigNum_ulong n) = n) ∧
    (∀ n : Nat, n < 2 ^ dm.ULONG_BITS → getulong dm (CBigNum_ulong n) = n) := by
  have hL' : (2 : Nat) ^ 32 ≤ 2 ^ dm.ULONG_BITS := Nat.pow_le_pow_right (by norm_num) hL
  have hW' : (2 : Nat) ^ dm.ULONG_BITS ≤ 2 ^ dm.BN_BITS2 :=
    Nat.pow_le_pow_right (by norm_num) hW
  constructor
  · intro n hn
    have h1 : n < 2 ^ dm.BN_BITS2 := by omega
    simp only [getuint, CBigNum_ulong, setulong, BN_set_word, BN_get_word, h1, if_true]
    exact Nat.mod_eq_of_lt hn
  · intro n hn
    have h1 : n < 2 ^ dm.BN_BITS2 := by omega
    simp only [getulong, CBigNum_ulong, setulong, BN_set_word, BN_get_word, h1, if_true]
    exact Nat.mod_eq_of_lt hn

theorem getuint_getulong_CBigNum_witness :
    32 ≤ LP64.ULONG_BITS ∧ LP64.ULONG_BITS ≤ LP64.BN_BITS2 ∧
    (4294967295 : Nat) < 2 ^ 32 ∧ getuint LP64 (CBigNum_ulong 4294967295) = 4294967295 ∧
    (18446744073709551615 : Nat) < 2 ^ LP64.ULONG_BITS ∧
    getulong LP64 (CBigNum_ulong 18446744073709551615) = 18446744073709551615 :=
  ⟨by decide, by decide, by decide,
    (getuint_getulong_CBigNum LP64 (by decide) (by decide)).1 4294967295 (by decide),
    by decide,
    (getuint_getulong_CBigNum LP64 (by decide) (by decide)).2 18446744073709551615 (by decide)⟩

/-! ## The n-th root on magnitudes -/

theorem CBigNum_int_of_nonneg (n : Nat) : CBigNum_int (n : Int) = ⟨false, n⟩ := by
  simp [CBigNum_int, setulong, BN_set_word]

theorem BN_add_pos (a b : Nat) : BN_add ⟨false, a⟩ ⟨false, b⟩ = ⟨false, a + b⟩ := by
  simp [BN_add]

theorem BN_mul_pos (a b : Nat) : BN_mul ⟨false, a⟩ ⟨false, b⟩ = ⟨false, a * b⟩ := by
  simp only [BN_mul, BN_zero]
  split_ifs with h
  · rcases h with h | h <;> simp [h]
  · simp

theorem mulLoop_pos (c j a : Nat) : mulLoop ⟨false, c⟩ j ⟨false, a⟩ = ⟨false, a * c ^ j⟩ := by
  induction j generalizing a with
  | zero => simp [mulLoop]
  | succ j ih =>
    simp only [mulLoop, BN_mul_pos, ih, pow_succ]
    congr 1
    ring

theorem BN_cmp_pos_le (a b : Nat) : BN_cmp ⟨false, a⟩ ⟨false, b⟩ ≤ 0 ↔ a ≤ b := by
  simp only [BN_cmp]
  split_ifs <;> simp_all

theorem BN_cmp_pos_gt (a b : Nat) : BN_cmp ⟨false, a⟩ ⟨false, b⟩ > 0 ↔ b < a := by
  have := BN_cmp_pos_le a b
  constructor
  · intro h
    by_contra hcon
    have := this.mpr (by omega)
    omega
  · intro h
    by_contra hcon
    have := this.mp (by omega)
    omega

theorem op_shr_assign_pos (x sh : Nat) : op_shr_assign ⟨false, x⟩ sh = ⟨false, x / 2 ^ sh⟩ := by
  have h1 : CBigNum_int 1 = ⟨false, 1⟩ := CBigNum_int_of_nonneg 1
  have h0 : CBigNum_int 0 = ⟨false, 0⟩ := CBigNum_int_of_nonneg 0
  simp only [op_shr_assign, op_shl_assign, BN_lshift, h1, h0, BN_rshift, BN_cmp_pos_gt,
    Nat.one_mul]
  by_cases h : x < 2 ^ sh
  · have hd : x / 2 ^ sh = 0 := Nat.div_eq_of_lt h
    simp [h, hd]
  · simp [h]

theorem nthRoot_seed_eq (n U i cur : Nat) :
    nthRoot_seed n ⟨false, U⟩ i ⟨false, cur⟩ = ⟨false, seedN n U i cur⟩ := by
  induction i generalizing cur with
  | zero => rfl
  | succ i ih =>
    have h1 : CBigNum_int 1 = ⟨false, 1⟩ := CBigNum_int_of_nonneg 1
    have h2 : CBigNum_int ((1 <<< i : Nat) : Int) = ⟨false, 2 ^ i⟩ := by
      rw [CBigNum_int_of_nonneg, Nat.shiftLeft_eq, Nat.one_mul]
    simp only [nthRoot_seed, seedN, h1, h2, BN_add_pos, mulLoop_pos, BN_cmp_pos_le, Nat.one_mul]
    split_ifs
    · exact ih _
    · exact ih _


theorem BN_ucmp_lt_zero (a b : BIGNUM) : BN_ucmp a b < 0 ↔ a.mag < b.mag := by
  simp only [BN_ucmp]
  split_ifs <;> simp <;> omega

theorem op_div_pos (a d : Nat) (hd : d ≠ 0) :
    op_div ⟨false, a⟩ ⟨false, d⟩ = Except.ok ⟨false, a / d⟩ := by
  simp only [op_div, BN_div, BN_is_zero, BN_ucmp_lt_zero, BN_zero]
  by_cases h : a < d
  · simp [hd, h, Nat.div_eq_of_lt h]
  · simp [hd, h]

theorem op_div_neg_pos (a d : Nat) (hd : d ≠ 0) (h : d ≤ a) :
    op_div ⟨true, a⟩ ⟨false, d⟩ = Except.ok ⟨true, a / d⟩ := by
  simp only [op_div, BN_div, BN_is_zero, BN_ucmp_lt_zero, BN_zero]
  have h1 : ¬ a < d := by omega
  simp [hd, h1]

theorem op_sub_pos (q c : Nat) :
    op_sub ⟨false, q⟩ ⟨false, c⟩ =
      if q = c then ⟨false, 0⟩ else if q < c then ⟨true, c - q⟩ else ⟨false, q - c⟩ := by
  simp only [op_sub, BN_sub, BN_ucmp, BN_zero]
  by_cases h1 : q = c
  · subst h1
    simp
  · by_cases h2 : q < c
    · have : ¬ q > c := by omega
      simp [h1, h2, this]
    · have : q > c := by omega
      simp [h1, h2, this]

theorem BN_add_pos_neg (c e : Nat) (h : e < c) :
    BN_add ⟨false, c⟩ ⟨true, e⟩ = ⟨false, c - e⟩ := by
  simp [BN_add, BN_ucmp, h]

theorem nthRoot_newton_eq (x n : Nat) (hx : 1 ≤ x) (hn : 2 ≤ n) (fuel c : Nat) (nT : Int)
    (hc : 1 ≤ c) :
    nthRoot_newton ⟨false, x⟩ n ⟨false, n⟩ fuel ⟨false, c⟩ nT =
      Except.ok ((newtonN x n fuel c nT).1, ⟨false, (newtonN x n fuel c nT).2⟩) := by
  induction fuel generalizing c nT with
  | zero => rfl
  | succ it ih =>
    have h1 : CBigNum_int 1 = ⟨false, 1⟩ := CBigNum_int_of_nonneg 1
    have hd : c ^ (n - 1) ≠ 0 := by
      have := Nat.pos_pow_of_pos (n - 1) hc
      omega
    have hn0 : n ≠ 0 := by omega
    simp only [nthRoot_newton, newtonN, h1, mulLoop_pos, Nat.one_mul, op_div_pos _ _ hd,
      CBigNum_int_of_nonneg, op_sub_pos]
    by_cases hq : x / c ^ (n - 1) = c
    · simp [hq, BN_is_zero]
    · by_cases hlt : x / c ^ (n - 1) < c
      · have hc2 : 2 ≤ c := by
          by_contra hcon
          have hc1 : c = 1 := by omega
          subst hc1
          simp at hlt
          omega
        have hne : c - x / c ^ (n - 1) ≠ 0 := by omega
        simp only [hq, hlt, if_true, if_false, BN_is_zero, BN_is_negative, BN_set_negative,
          BN_cmp_pos_le]
        simp only [hne, beq_iff_eq, Bool.false_eq_true, if_false, if_true, Bool.false_and,
          Bool.not_false, Bool.and_true, Bool.true_and, bne_iff_ne, ne_eq, not_false_eq_true,
          decide_True, decide_False, Bool.not_eq_true']
        have hsub : (if c = 1 then (⟨false, 0⟩ : BIGNUM)
            else if c < 1 then ⟨true, 1 - c⟩ else ⟨false, c - 1⟩) = ⟨false, c - 1⟩ := by
          rw [if_neg (by omega), if_neg (by omega)]
        have hb : (!(c - x / c ^ (n - 1) == 0)) = true := by simp [hne]
        rw [hsub, hb]
        simp only [BN_cmp_pos_le]
        by_cases hT : nT = 1
        · simp [hT]
        · simp only [hT, if_false]
          by_cases hle : c - x / c ^ (n - 1) ≤ n
          · simp only [hle, if_true]
            exact ih (c - 1) (-1) (by omega)
          · simp only [hle, if_false]
            rw [op_div_neg_pos _ _ hn0 (by omega)]
            have hdiv : (c - x / c ^ (n - 1)) / n ≤ c / 2 := by
              calc (c - x / c ^ (n - 1)) / n ≤ c / n := Nat.div_le_div_right (Nat.sub_le _ _)
                _ ≤ c / 2 := Nat.div_le_div_left hn (by norm_num)
            simp only []
            rw [BN_add_pos_neg _ _ (by omega)]
            exact ih _ 0 (by omega)
      · have hgt : c < x / c ^ (n - 1) := by omega
        have hne : x / c ^ (n - 1) - c ≠ 0 := by omega
        simp only [hq, hlt, if_false, BN_is_zero, BN_is_negative, BN_cmp_pos_le, BN_add_pos]
        simp only [hne, beq_iff_eq, Bool.false_eq_true, if_false]
        by_cases hT : nT = -1
        · simp [hT]
        · simp only [hT, if_false]
          by_cases hle : x / c ^ (n - 1) - c ≤ n
          · simp only [hle, if_true]
            exact ih (c + 1) 1 (by omega)
          · simp only [hle, if_false]
            rw [op_div_pos _ _ hn0]
            simp only [BN_add_pos]
            exact ih _ 0 (le_trans hc (Nat.le_add_right _ _))


/-- The bit search returns the floor of the n-th root of `U` whenever `U` lies
below `(cur + 2 ^ i) ^ n` at its start. -/
theorem seedN_spec (n U i cur : Nat) (h1 : cur ^ n ≤ U) (h2 : U < (cur + 2 ^ i) ^ n) :
    seedN n U i cur ^ n ≤ U ∧ U < (seedN n U i cur + 1) ^ n := by
  induction i generalizing cur with
  | zero => simpa [seedN] using ⟨h1, h2⟩
  | succ i ih =>
    simp only [seedN]
    split_ifs with h
    · apply ih _ h
      have : cur + 2 ^ i + 2 ^ i = cur + 2 ^ (i + 1) := by rw [pow_succ]; omega
      rw [this]
      exact h2
    · exact ih _ h1 (by omega)

/-- The quantities `nthRoot` derives from the bit length of a positive `x`. -/
theorem nthRoot_bits (x n : Nat) (hx : 1 ≤ x) (hn : 1 ≤ n) (R S : Nat)
    (hR : R = (BN_num_bits ⟨false, x⟩ + n - 1) / n) (hS : S = min 8 R) :
    1 ≤ R ∧ x < 2 ^ (S * n + (R - S) * n) ∧ 2 ^ ((S - 1) * n + (R - S) * n) ≤ x := by
  have hm : (BIGNUM.mk false x).mag ≠ 0 := by simp; omega
  have hlt := BN_num_bits_lt ⟨false, x⟩
  have hle := BN_num_bits_le ⟨false, x⟩ hm
  have hpos := BN_num_bits_pos ⟨false, x⟩ hm
  simp only at hlt hle
  have hRn : R * n ≤ BN_num_bits ⟨false, x⟩ + n - 1 := by
    rw [hR]; exact Nat.div_mul_le_self _ _
  have hRn2 : BN_num_bits ⟨false, x⟩ + n - 1 < (R + 1) * n := by
    rw [hR, Nat.add_mul, Nat.one_mul]
    exact Nat.lt_div_mul_add hn
  have hR1 : 1 ≤ R := by
    rw [hR]
    exact (Nat.le_div_iff_mul_le hn).mpr (by omega)
  have hSR : S ≤ R := by rw [hS]; exact Nat.min_le_right _ _
  have hS1 : 1 ≤ S := by rw [hS]; simp; omega
  have e1 : S * n + (R - S) * n = R * n := by
    rw [← Nat.add_mul]; congr 1; omega
  have e2 : (S - 1) * n + (R - S) * n = R * n - n := by
    rw [← Nat.add_mul, show S - 1 + (R - S) = R - 1 by omega, Nat.sub_mul, Nat.one_mul]
  refine ⟨hR1, ?_, ?_⟩
  · rw [e1]
    have : 2 ^ BN_num_bits ⟨false, x⟩ ≤ 2 ^ (R * n) :=
      Nat.pow_le_pow_right (by norm_num) (by
        rw [Nat.add_mul, Nat.one_mul] at hRn2
        omega)
    omega
  · rw [e2]
    have : 2 ^ (R * n - n) ≤ 2 ^ (BN_num_bits ⟨false, x⟩ - 1) :=
      Nat.pow_le_pow_right (by norm_num) (by omega)
    omega


/-- The starting approximation: the floor of the n-th root of the top part
`U` of `x`, a number of exactly `S` bits. -/
theorem nthRoot_seed_bounds (x n : Nat) (hx : 1 ≤ x) (hn : 1 ≤ n) (R S U s : Nat)
    (hR : R = (BN_num_bits ⟨false, x⟩ + n - 1) / n) (hS : S = min 8 R)
    (hU : U = x / 2 ^ ((R - S) * n)) (hs : s = seedN n U S 0) :
    s ^ n ≤ U ∧ U < (s + 1) ^ n ∧ 2 ^ (S - 1) ≤ s ∧ s < 2 ^ S := by
  obtain ⟨-, hxlt, hxle⟩ := nthRoot_bits x n hx hn R S hR hS
  have hp : 0 < 2 ^ ((R - S) * n) := Nat.pos_pow_of_pos _ (by norm_num)
  have hUlt : U < (2 ^ S) ^ n := by
    rw [hU, Nat.div_lt_iff_lt_mul hp, ← pow_mul, ← pow_add]
    exact hxlt
  have hUle : (2 ^ (S - 1)) ^ n ≤ U := by
    rw [hU, Nat.le_div_iff_mul_le hp, ← pow_mul, ← pow_add]
    exact hxle
  have hspec := seedN_spec n U S 0 (by simp [Nat.zero_pow (by omega : 0 < n)])
    (by simpa using hUlt)
  rw [← hs] at hspec
  refine ⟨hspec.1, hspec.2, ?_, ?_⟩
  · by_contra hcon
    have : (s + 1) ^ n ≤ (2 ^ (S - 1)) ^ n := Nat.pow_le_pow_left (by omega) n
    omega
  · by_contra hcon
    have : (2 ^ S) ^ n ≤ s ^ n := Nat.pow_le_pow_left (by omega) n
    omega

/-- On a positive number and `n > 1`, `nthRoot` neither asserts nor throws,
and computes `rootN` on the magnitudes. -/
theorem nthRoot_traced_eq (x n : Nat) (hx : 1 ≤ x) (hn : 2 ≤ n) :
    nthRoot_traced ⟨false, x⟩ (n : Int) =
      Except.ok ((rootN x n).1, ⟨false, (rootN x n).2⟩) := by
  have hn1 : ((n : Int) > 1) := by omega
  have hx0 : x ≠ 0 := by omega
  obtain ⟨-, -, hs1, -⟩ := nthRoot_seed_bounds x n hx (by omega) _ _ _ _ rfl rfl rfl rfl
  have hspos : 1 ≤ seedN n (x / 2 ^ (((BN_num_bits ⟨false, x⟩ + n - 1) / n -
      min 8 ((BN_num_bits ⟨false, x⟩ + n - 1) / n)) * n))
      (min 8 ((BN_num_bits ⟨false, x⟩ + n - 1) / n)) 0 :=
    le_trans (Nat.one_le_two_pow) hs1
  simp only [nthRoot_traced, rootN, hn1, not_true_eq_false, if_false, BN_is_zero, BN_is_negative,
    Int.toNat_ofNat, op_shr_assign_pos, CBigNum_int_of_nonneg, nthRoot_seed_eq, op_shl_assign,
    BN_lshift]
  simp only [hx0, beq_iff_eq, Bool.false_eq_true, if_false]
  have h0 : CBigNum_int 0 = ⟨false, 0⟩ := CBigNum_int_of_nonneg 0
  rw [h0]
  simp only [nthRoot_seed_eq]
  split_ifs with h
  · rfl
  · exact nthRoot_newton_eq x n hx hn 20 _ 0
      (Nat.mul_pos hspos (Nat.pos_pow_of_pos _ (by norm_num)))


theorem pow_pred_mul (c n : Nat) (hn : 1 ≤ n) : c ^ (n - 1) * c = c ^ n := by
  obtain ⟨m, rfl⟩ : ∃ m, n = m + 1 := ⟨n - 1, by omega⟩
  simp [pow_succ]

/-- Every exit of the Newton loop other than running out of iterations returns
the floor of the n-th root, provided the loop is entered the way `nthRoot`
enters and continues it. -/
theorem newtonN_exact (x n : Nat) (hx : 1 ≤ x) (hn : 2 ≤ n) (fuel c : Nat) (nT : Int)
    (hc : 1 ≤ c) (hup : nT = 1 → (c - 1) ^ n ≤ x) (hdown : nT = -1 → x < (c + 1) ^ n)
    (hne : (newtonN x n fuel c nT).1 ≠ NthRootExit.exhausted) :
    (newtonN x n fuel c nT).2 ^ n ≤ x ∧ x < ((newtonN x n fuel c nT).2 + 1) ^ n := by
  induction fuel generalizing c nT with
  | zero => exact absurd rfl hne
  | succ it ih =>
    have hd : 0 < c ^ (n - 1) := Nat.pos_pow_of_pos (n - 1) hc
    have hcn : c ^ (n - 1) * c = c ^ n := pow_pred_mul c n (by omega)
    have hc1n : (c + 1) * c ^ (n - 1) ≤ (c + 1) ^ n := by
      rw [← pow_pred_mul (c + 1) n (by omega), Nat.mul_comm]
      exact Nat.mul_le_mul_right _ (Nat.pow_le_pow_left (by omega) _)
    have hq1 : x / c ^ (n - 1) * c ^ (n - 1) ≤ x := Nat.div_mul_le_self _ _
    have hq2 : x < (x / c ^ (n - 1) + 1) * c ^ (n - 1) := by
      rw [Nat.add_mul, Nat.one_mul]
      exact Nat.lt_div_mul_add hd
    simp only [newtonN] at hne ⊢
    by_cases hq : x / c ^ (n - 1) = c
    · simp only [hq, if_true]
      rw [hq] at hq1 hq2
      constructor
      · rw [← hcn, Nat.mul_comm]; exact hq1
      · exact lt_of_lt_of_le hq2 hc1n
    · by_cases hlt : x / c ^ (n - 1) < c
      · have hxlt : x < c ^ n := by
          rw [← hcn, Nat.mul_comm]
          exact (Nat.div_lt_iff_lt_mul hd).mp hlt
        have hc2 : 2 ≤ c := by
          by_contra hcon
          have hc1 : c = 1 := by omega
          subst hc1
          simp at hlt
          omega
        simp only [hq, hlt, if_true, if_false] at hne ⊢
        by_cases hT : nT = 1
        · simp only [hT, if_true]
          refine ⟨hup hT, ?_⟩
          rw [Nat.sub_add_cancel hc]
          exact hxlt
        · simp only [hT, if_false] at hne ⊢
          by_cases hle : c - x / c ^ (n - 1) ≤ n
          · simp only [hle, if_true] at hne ⊢
            apply ih (c - 1) (-1) (by omega) (by intro h; omega) _ hne
            intro _
            rw [Nat.sub_add_cancel hc]
            exact hxlt
          · simp only [hle, if_false] at hne ⊢
            have hdiv : (c - x / c ^ (n - 1)) / n ≤ c / 2 := by
              calc (c - x / c ^ (n - 1)) / n ≤ c / n := Nat.div_le_div_right (Nat.sub_le _ _)
                _ ≤ c / 2 := Nat.div_le_div_left hn (by norm_num)
            exact ih _ 0 (by omega) (by intro h; omega) (by intro h; omega) hne
      · have hgt : c + 1 ≤ x / c ^ (n - 1) := by omega
        have hxge : c ^ n ≤ x := by
          have : (c + 1) * c ^ (n - 1) ≤ x :=
            le_trans (Nat.mul_le_mul_right _ hgt) hq1
          rw [← hcn, Nat.mul_comm]
          exact le_trans (Nat.mul_le_mul_right _ (by omega)) this
        simp only [hq, hlt, if_false] at hne ⊢
        by_cases hT : nT = -1
        · simp only [hT, if_true]
          exact ⟨hxge, hdown hT⟩
        · simp only [hT, if_false] at hne ⊢
          by_cases hle : x / c ^ (n - 1) - c ≤ n
          · simp only [hle, if_true] at hne ⊢
            apply ih (c + 1) 1 (by omega) _ (by intro h; omega) hne
            intro _
            rw [Nat.add_sub_cancel]
            exact hxge
          · simp only [hle, if_false] at hne ⊢
            exact ih _ 0 (le_trans hc (Nat.le_add_right _ _)) (by intro h; omega)
              (by intro h; omega) hne

/-- Unless the Newton loop runs out of iterations, `rootN` is the floor of the
n-th root. -/
theorem rootN_exact (x n : Nat) (hx : 1 ≤ x) (hn : 2 ≤ n)
    (hne : (rootN x n).1 ≠ NthRootExit.exhausted) :
    (rootN x n).2 ^ n ≤ x ∧ x < ((rootN x n).2 + 1) ^ n := by
  obtain ⟨h1, h2, hs1, -⟩ := nthRoot_seed_bounds x n hx (by omega) _ _ _ _ rfl rfl rfl rfl
  simp only [rootN] at hne ⊢
  split_ifs at hne ⊢ with h
  · have hU : x / 2 ^ (((BN_num_bits ⟨false, x⟩ + n - 1) / n -
        min 8 ((BN_num_bits ⟨false, x⟩ + n - 1) / n)) * n) = x := by
      rw [← h]
      simp
    simp only [hU] at h1 h2 ⊢
    exact ⟨h1, h2⟩
  · exact newtonN_exact x n hx hn 20 _ 0
      (Nat.mul_pos (le_trans Nat.one_le_two_pow hs1) (Nat.pos_pow_of_pos _ (by norm_num)))
      (by intro h; omega) (by intro h; omega) hne


theorem newtonN_pos (x n : Nat) (hx : 1 ≤ x) (hn : 2 ≤ n) (fuel c : Nat) (nT : Int)
    (hc : 1 ≤ c) (hup : nT = 1 → 2 ≤ c) : 1 ≤ (newtonN x n fuel c nT).2 := by
  induction fuel generalizing c nT with
  | zero => exact hc
  | succ it ih =>
    simp only [newtonN]
    by_cases hq : x / c ^ (n - 1) = c
    · simpa [hq] using hc
    · by_cases hlt : x / c ^ (n - 1) < c
      · have hc2 : 2 ≤ c := by
          by_contra hcon
          have hc1 : c = 1 := by omega
          subst hc1
          simp at hlt
          omega
        simp only [hq, hlt, if_true, if_false]
        by_cases hT : nT = 1
        · simp only [hT, if_true]
          omega
        · simp only [hT, if_false]
          by_cases hle : c - x / c ^ (n - 1) ≤ n
          · simp only [hle, if_true]
            exact ih (c - 1) (-1) (by omega) (by intro h; omega)
          · simp only [hle, if_false]
            have hdiv : (c - x / c ^ (n - 1)) / n ≤ c / 2 := by
              calc (c - x / c ^ (n - 1)) / n ≤ c / n := Nat.div_le_div_right (Nat.sub_le _ _)
                _ ≤ c / 2 := Nat.div_le_div_left hn (by norm_num)
            exact ih _ 0 (by omega) (by intro h; omega)
      · simp only [hq, hlt, if_false]
        by_cases hT : nT = -1
        · simpa [hT] using hc
        · simp only [hT, if_false]
          by_cases hle : x / c ^ (n - 1) - c ≤ n
          · simp only [hle, if_true]
            exact ih (c + 1) 1 (by omega) (by intro _; omega)
          · simp only [hle, if_false]
            exact ih _ 0 (le_trans hc (Nat.le_add_right _ _)) (by intro h; omega)

theorem rootN_pos (x n : Nat) (hx : 1 ≤ x) (hn : 2 ≤ n) : 1 ≤ (rootN x n).2 := by
  obtain ⟨-, -, hs1, -⟩ := nthRoot_seed_bounds x n hx (by omega) _ _ _ _ rfl rfl rfl rfl
  have hs : 1 ≤ seedN n (x / 2 ^ (((BN_num_bits ⟨false, x⟩ + n - 1) / n -
      min 8 ((BN_num_bits ⟨false, x⟩ + n - 1) / n)) * n))
      (min 8 ((BN_num_bits ⟨false, x⟩ + n - 1) / n)) 0 :=
    le_trans (Nat.one_le_two_pow) hs1
  simp only [rootN]
  split_ifs with h
  · exact hs
  · exact newtonN_pos x n hx hn 20 _ 0
      (Nat.mul_pos hs (Nat.pos_pow_of_pos _ (by norm_num))) (by intro h; omega)

/-- C6, amended: for every `x ≥ 0` and `n > 1`, `nthRoot` returns a value
`r ≥ 0`, and whenever it returns otherwise than by running out of its 20 Newton
iterations, `r` is the largest integer with `r^n ≤ x`: `r^n ≤ x < (r+1)^n`. -/
theorem nthRoot_floor_unless_exhausted (x : CBigNum) (n : Int)
    (hx : BN_is_negative x = false) (hn : n > 1) (_hov : nthRoot_int_range x n) :
    ∃ e r, nthRoot_traced x n = Except.ok (e, r) ∧ nthRoot x n = Except.ok r ∧
      BN_is_negative r = false ∧
      (e ≠ NthRootExit.exhausted →
        r.mag ^ n.toNat ≤ x.mag ∧ x.mag < (r.mag + 1) ^ n.toNat) := by
  obtain ⟨k, rfl⟩ : ∃ k : Nat, n = (k : Int) := ⟨n.toNat, by omega⟩
  have hk : 2 ≤ k := by omega
  cases x with
  | mk xn m =>
    simp only [BN_is_negative] at hx
    subst hx
    by_cases hm : m = 0
    · subst hm
      refine ⟨NthRootExit.zero, ⟨false, 0⟩, ?_, ?_, rfl, ?_⟩
      · simp [nthRoot_traced, hn, BN_is_zero, CBigNum_int, setulong, BN_set_word]
      · simp [nthRoot, nthRoot_traced, hn, BN_is_zero, CBigNum_int, setulong, BN_set_word,
          Except.map]
      · intro _
        simp
        omega
    · have hm1 : 1 ≤ m := by omega
      refine ⟨(rootN m k).1, ⟨false, (rootN m k).2⟩, nthRoot_traced_eq m k hm1 hk, ?_, rfl, ?_⟩
      · simp [nthRoot, nthRoot_traced_eq m k hm1 hk, Except.map]
      · intro hne
        simpa using rootN_exact m k hm1 hk hne

theorem nthRoot_floor_unless_exhausted_witness :
    BN_is_negative (BIGNUM.mk false 1000001) = false ∧ (2 : Int) > 1 ∧
    nthRoot_int_range (BIGNUM.mk false 1000001) 2 ∧
    ∃ e r, nthRoot_traced (BIGNUM.mk false 1000001) 2 = Except.ok (e, r) ∧
      nthRoot (BIGNUM.mk false 1000001) 2 = Except.ok r ∧ BN_is_negative r = false ∧
      (e ≠ NthRootExit.exhausted →
        r.mag ^ (2 : Int).toNat ≤ (BIGNUM.mk false 1000001).mag ∧
        (BIGNUM.mk false 1000001).mag < (r.mag + 1) ^ (2 : Int).toNat) :=
  ⟨by decide, by decide, by simp [nthRoot_int_range, INT_MAX]; decide,
    nthRoot_floor_unless_exhausted (BIGNUM.mk false 1000001) 2 (by decide) (by decide)
      (by simp [nthRoot_int_range, INT_MAX]; decide)⟩

set_option maxRecDepth 100000 in
/-- C6 as stated fails: for `x = 516^369 - 1` and `n = 369` the Newton loop uses
up its 20 iterations and `nthRoot` returns 516, although `516^369 > x` (the
floor of the root is 515). -/
theorem nthRoot_not_floor_counterexample :
    nthRoot_traced (BIGNUM.mk false (516 ^ 369 - 1)) 369
      = Except.ok (NthRootExit.exhausted, BIGNUM.mk false 516) ∧
    nthRoot (BIGNUM.mk false (516 ^ 369 - 1)) 369 = Except.ok (BIGNUM.mk false 516) ∧
    ¬ (516 ^ 369 ≤ (BIGNUM.mk false (516 ^ 369 - 1)).mag) ∧
    515 ^ 369 ≤ (BIGNUM.mk false (516 ^ 369 - 1)).mag := by
  have hroot : rootN (516 ^ 369 - 1) 369 = (NthRootExit.exhausted, 516) := by decide!
  have ht := nthRoot_traced_eq (516 ^ 369 - 1) 369 (by decide!) (by decide)
  rw [hroot] at ht
  refine ⟨ht, ?_, by decide!, by decide!⟩
  unfold nthRoot
  rw [show (369 : Int) = ((369 : Nat) : Int) from rfl, ht]
  rfl


/-- C8: `nthRoot` fails, by an assertion, exactly when `n ≤ 1` or `x < 0`; for
`n > 1` the root of zero is zero; and for `x > 0` and `n > 1` the call returns
a strictly positive value, no division inside the loop failing on a zero
divisor. -/
theorem nthRoot_fails_iff_precondition (x : CBigNum) (n : Int)
    (_hov : nthRoot_int_range x n) :
    ((∃ f, nthRoot x n = Except.error f) ↔
        (n ≤ 1 ∨ (BN_is_negative x = true ∧ BN_is_zero x = false))) ∧
    (∀ f, nthRoot x n = Except.error f → ∃ t, f = NthRootFailure.assertion t) ∧
    (n > 1 → BN_is_zero x = true → nthRoot x n = Except.ok (BIGNUM.mk false 0)) ∧
    (n > 1 → BN_is_negative x = false → BN_is_zero x = false →
      ∃ r, nthRoot x n = Except.ok r ∧ BN_is_negative r = false ∧ 1 ≤ r.mag) := by
  have h0 : CBigNum_int 0 = ⟨false, 0⟩ := CBigNum_int_of_nonneg 0
  by_cases hn : n > 1
  · obtain ⟨k, rfl⟩ : ∃ k : Nat, n = (k : Int) := ⟨n.toNat, by omega⟩
    have hk : 2 ≤ k := by omega
    cases x with
    | mk xn m =>
      by_cases hm : m = 0
      · subst hm
        have hval : nthRoot ⟨xn, 0⟩ (k : Int) = Except.ok ⟨false, 0⟩ := by
          simp [nthRoot, nthRoot_traced, hn, BN_is_zero, h0, Except.map]
        refine ⟨?_, ?_, fun _ _ => hval, ?_⟩
        · rw [hval]
          simp [BN_is_zero]
          omega
        · intro f hf
          rw [hval] at hf
          cases hf
        · intro _ _ hz
          simp [BN_is_zero] at hz
      · cases xn
        · have hm1 : 1 ≤ m := by omega
          have hval : nthRoot ⟨false, m⟩ (k : Int) = Except.ok ⟨false, (rootN m k).2⟩ := by
            simp [nthRoot, nthRoot_traced_eq m k hm1 hk, Except.map]
          refine ⟨?_, ?_, ?_, ?_⟩
          · rw [hval]
            simp [BN_is_negative]
            omega
          · intro f hf
            rw [hval] at hf
            cases hf
          · intro _ hz
            simp [BN_is_zero, hm] at hz
          · intro _ _ _
            exact ⟨_, hval, rfl, rootN_pos m k hm1 hk⟩
        · have hval : nthRoot ⟨true, m⟩ (k : Int)
              = Except.error (NthRootFailure.assertion "!BN_is_negative(this)") := by
            simp [nthRoot, nthRoot_traced, hn, BN_is_zero, BN_is_negative, hm, Except.map]
          refine ⟨?_, ?_, ?_, ?_⟩
          · rw [hval]
            simp [BN_is_negative, BN_is_zero, hm]
          · intro f hf
            rw [hval] at hf
            cases hf
            exact ⟨_, rfl⟩
          · intro _ hz
            simp [BN_is_zero, hm] at hz
          · intro _ hneg
            simp [BN_is_negative] at hneg
  · have hval : nthRoot x n = Except.error (NthRootFailure.assertion "n > 1") := by
      simp [nthRoot, nthRoot_traced, hn, Except.map]
    refine ⟨?_, ?_, fun h => absurd h hn, fun h => absurd h hn⟩
    · rw [hval]
      simp
      left
      omega
    · intro f hf
      rw [hval] at hf
      cases hf
      exact ⟨_, rfl⟩

theorem nthRoot_fails_iff_precondition_witness :
    nthRoot_int_range (BIGNUM.mk false 1000000) 2 ∧
    ((∃ f, nthRoot (BIGNUM.mk false 1000000) 2 = Except.error f) ↔
        ((2 : Int) ≤ 1 ∨ (BN_is_negative (BIGNUM.mk false 1000000) = true ∧
          BN_is_zero (BIGNUM.mk false 1000000) = false))) ∧
    ∃ r, nthRoot (BIGNUM.mk false 1000000) 2 = Except.ok r ∧ BN_is_negative r = false ∧
      1 ≤ r.mag :=
  ⟨by simp [nthRoot_int_range, INT_MAX]; decide,
   (nthRoot_fails_iff_precondition (BIGNUM.mk false 1000000) 2
      (by simp [nthRoot_int_range, INT_MAX]; decide)).1,
   (nthRoot_fails_iff_precondition (BIGNUM.mk false 1000000) 2
      (by simp [nthRoot_int_range, INT_MAX]; decide)).2.2.2 (by decide) (by decide) (by decide)⟩


/-! ## Square roots: convergence within the 20 iterations -/

theorem newtonN_two_succ (x f c : Nat) (nT : Int) :
    newtonN x 2 (f + 1) c nT =
      if x / c = c then (NthRootExit.deltaZero, c)
      else if x / c < c then
        if nT = 1 then (NthRootExit.afterUp, c - 1)
        else if c - x / c ≤ 2 then newtonN x 2 f (c - 1) (-1)
        else newtonN x 2 f (c - (c - x / c) / 2) 0
      else
        if nT = -1 then (NthRootExit.afterDown, c)
        else if x / c - c ≤ 2 then newtonN x 2 f (c + 1) 1
        else newtonN x 2 f (c + (x / c - c) / 2) 0 := by
  simp [newtonN]

theorem newtonN_succ (x n f c : Nat) (nT : Int) :
    newtonN x n (f + 1) c nT =
      if x / c ^ (n - 1) = c then (NthRootExit.deltaZero, c)
      else if x / c ^ (n - 1) < c then
        if nT = 1 then (NthRootExit.afterUp, c - 1)
        else if c - x / c ^ (n - 1) ≤ n then newtonN x n f (c - 1) (-1)
        else newtonN x n f (c - (c - x / c ^ (n - 1)) / n) 0
      else
        if nT = -1 then (NthRootExit.afterDown, c)
        else if x / c ^ (n - 1) - c ≤ n then newtonN x n f (c + 1) 1
        else newtonN x n f (c + (x / c ^ (n - 1) - c) / n) 0 := by
  simp [newtonN]

/-- More iterations do not change a run that has already left the loop. -/
theorem newtonN_fuel_succ (x n f c : Nat) (nT : Int)
    (h : (newtonN x n f c nT).1 ≠ NthRootExit.exhausted) :
    newtonN x n (f + 1) c nT = newtonN x n f c nT := by
  induction f generalizing c nT with
  | zero => exact absurd rfl h
  | succ f ih =>
    have e2 := newtonN_succ x n f c nT
    rw [newtonN_succ x n (f + 1) c nT, e2]
    rw [e2] at h
    split_ifs at h ⊢ <;> first | rfl | exact ih _ _ h

theorem newtonN_fuel_le (x n f g c : Nat) (nT : Int) (hfg : f ≤ g)
    (h : (newtonN x n f c nT).1 ≠ NthRootExit.exhausted) :
    (newtonN x n g c nT).1 ≠ NthRootExit.exhausted := by
  induction g with
  | zero =>
    have : f = 0 := by omega
    subst this
    exact h
  | succ g ih =>
    by_cases hfg' : f ≤ g
    · have h' := ih hfg'
      rw [newtonN_fuel_succ x n g c nT h']
      exact h'
    · have : f = g + 1 := by omega
      subst this
      exact h


theorem div_lt_of_above (x r c : Nat) (hr2 : x < (r + 1) * (r + 1)) (hc : r < c) :
    x / c < c := by
  rw [Nat.div_lt_iff_lt_mul (by omega)]
  calc x < (r + 1) * (r + 1) := hr2
    _ ≤ c * c := Nat.mul_le_mul hc hc

theorem le_div_of_below (x r c : Nat) (hr1 : r * r ≤ x) (hc0 : 1 ≤ c) (hc : c ≤ r) :
    c ≤ x / c := by
  rw [Nat.le_div_iff_mul_le (by omega)]
  calc c * c ≤ r * r := Nat.mul_le_mul hc hc
    _ ≤ x := hr1

/-- The arithmetic-geometric mean inequality behind the Newton step:
`c + x / c ≥ 2 r`. -/
theorem two_root_le (x r c : Nat) (hr1 : r * r ≤ x) (hc0 : 1 ≤ c) : 2 * r ≤ c + x / c := by
  by_cases h : 2 * r ≤ c
  · exact le_trans h (Nat.le_add_right _ _)
  · have h1 : 2 * r - c ≤ x / c := by
      rw [Nat.le_div_iff_mul_le (by omega)]
      have : (2 * r - c) * c ≤ r * r := by
        obtain ⟨d, hd⟩ : ∃ d, 2 * r = c + d := ⟨2 * r - c, by omega⟩
        have e : 2 * r - c = d := by omega
        rw [e]
        zify at hd ⊢
        nlinarith [sq_nonneg ((r : Int) - c)]
      exact le_trans this hr1
    omega

/-- At the root itself the loop leaves within two iterations. -/
theorem newtonN_two_at_root (x r f : Nat) (nT : Int) (hr0 : 1 ≤ r) (hr1 : r * r ≤ x)
    (hr2 : x < (r + 1) * (r + 1)) (hf : 2 ≤ f) :
    (newtonN x 2 f r nT).1 ≠ NthRootExit.exhausted := by
  obtain ⟨f, rfl⟩ : ∃ g, f = g + 2 := ⟨f - 2, by omega⟩
  have hq : r ≤ x / r := le_div_of_below x r r hr1 hr0 (le_refl _)
  have hq2 : x / r ≤ r + 2 := by
    have : x / r < r + 3 := by
      rw [Nat.div_lt_iff_lt_mul (by omega)]
      nlinarith
    omega
  have hq3 : x / (r + 1) < r + 1 := div_lt_of_above x r (r + 1) hr2 (by omega)
  rw [newtonN_two_succ]
  by_cases h1 : x / r = r
  · simp [h1]
  · have h2 : ¬ x / r < r := by omega
    simp only [h1, h2, if_false]
    by_cases hT : nT = -1
    · simp [hT]
    · have h3 : x / r - r ≤ 2 := by omega
      simp only [hT, h3, if_true, if_false]
      rw [newtonN_two_succ]
      have h4 : ¬ x / (r + 1) = r + 1 := by omega
      simp [h4, hq3]

/-- Above the root, right after a step up, the loop leaves at once. -/
theorem newtonN_two_after_up (x r f c : Nat) (hr2 : x < (r + 1) * (r + 1)) (hc : r < c)
    (hf : 1 ≤ f) : (newtonN x 2 f c 1).1 ≠ NthRootExit.exhausted := by
  obtain ⟨f, rfl⟩ : ∃ g, f = g + 1 := ⟨f - 1, by omega⟩
  have hq := div_lt_of_above x r c hr2 hc
  have h1 : ¬ x / c = c := by omega
  rw [newtonN_two_succ]
  simp [h1, hq]

/-- One iteration above the root: the loop goes on from some `c'` with
`r ≤ c' < c`, not marked as a step up, and `2 c' c ≤ c² + c + x`. -/
theorem newtonN_two_step_above (x r f c : Nat) (nT : Int) (hr1 : r * r ≤ x)
    (hr2 : x < (r + 1) * (r + 1)) (hc : r < c) (hT : nT ≠ 1) :
    ∃ c' nT', newtonN x 2 (f + 1) c nT = newtonN x 2 f c' nT' ∧ nT' ≠ 1 ∧ r ≤ c' ∧
      c' < c ∧ 2 * c' * c ≤ c * c + c + x := by
  have hq := div_lt_of_above x r c hr2 hc
  have h1 : ¬ x / c = c := by omega
  have hmean := two_root_le x r c hr1 (by omega)
  have hqc : x / c * c ≤ x := Nat.div_mul_le_self _ _
  rw [newtonN_two_succ]
  simp only [h1, hq, hT, if_true, if_false]
  by_cases hle : c - x / c ≤ 2
  · refine ⟨c - 1, -1, by simp [hle], by omega, by omega, by omega, ?_⟩
    have h2 : 2 * (c - 1) ≤ c + x / c := by omega
    calc 2 * (c - 1) * c ≤ (c + x / c) * c := Nat.mul_le_mul_right _ h2
      _ = c * c + x / c * c := by ring
      _ ≤ c * c + c + x := by omega
  · refine ⟨c - (c - x / c) / 2, 0, by simp [hle], by omega, by omega, by omega, ?_⟩
    have h2 : 2 * (c - (c - x / c) / 2) ≤ c + x / c + 1 := by omega
    calc 2 * (c - (c - x / c) / 2) * c ≤ (c + x / c + 1) * c := Nat.mul_le_mul_right _ h2
      _ = c * c + c + x / c * c := by ring
      _ ≤ c * c + c + x := by omega


/-- From `r ≤ c ≤ r + E` the loop leaves within `E + 2` iterations. -/
theorem newtonN_two_linear (x r : Nat) (hr0 : 1 ≤ r) (hr1 : r * r ≤ x)
    (hr2 : x < (r + 1) * (r + 1)) (f c : Nat) (nT : Int) (hc : r ≤ c) (hT : nT ≠ 1)
    (hf : c - r + 2 ≤ f) : (newtonN x 2 f c nT).1 ≠ NthRootExit.exhausted := by
  induction f generalizing c nT with
  | zero => omega
  | succ f ih =>
    by_cases hcr : c = r
    · subst hcr
      exact newtonN_two_at_root x c (f + 1) nT hr0 hr1 hr2 (by omega)
    · obtain ⟨c', nT', heq, hT', hc', hlt, -⟩ :=
        newtonN_two_step_above x r f c nT hr1 hr2 (by omega) hT
      rw [heq]
      exact ih c' nT' hc' hT' (by omega)

theorem quad_arith (r E E' A : Int) (hr : 12 ≤ r) (hA : 12 ≤ A) (hE0 : 0 ≤ E) (hE'0 : 0 ≤ E')
    (h1 : 2 * E' * r + 2 * E' * E ≤ E * E + E + 3 * r) (hE : E * A ≤ r + 2 * A) :
    E' * (2 * A * A) ≤ r + 2 * (2 * A * A) := by
  have h2 : 2 * E' * r ≤ E * E + E + 3 * r := by nlinarith [mul_nonneg hE'0 hE0]
  have hEA0 : 0 ≤ E * A := mul_nonneg hE0 (by linarith)
  have h3 : (E * A) * (E * A) ≤ (r + 2 * A) * (r + 2 * A) := mul_self_le_mul_self hEA0 hE
  have h4 : (E * A) * A ≤ (r + 2 * A) * A := mul_le_mul_of_nonneg_right hE (by linarith)
  have h5 : 2 * E' * r * (A * A) ≤ (E * E + E + 3 * r) * (A * A) :=
    mul_le_mul_of_nonneg_right h2 (mul_nonneg (by linarith) (by linarith))
  have h6 : 5 * r + 6 * A ≤ r * A := by
    nlinarith [mul_nonneg (sub_nonneg.2 hr) (sub_nonneg.2 hA)]
  have h6' : (5 * r + 6 * A) * A ≤ r * A * A := mul_le_mul_of_nonneg_right h6 (by linarith)
  have h7 : r * (E' * (2 * A * A)) ≤ r * (r + 2 * (2 * A * A)) := by nlinarith
  exact le_of_mul_le_mul_left h7 (by linarith)

/-- The quadratic step: an error of at most `r / A + 2` becomes an error of at
most `r / (2 A²) + 2`. -/
theorem quad_bound (x r c c' A : Nat) (hr2 : x < (r + 1) * (r + 1)) (hc : r ≤ c)
    (hc' : r ≤ c') (hstep : 2 * c' * c ≤ c * c + c + x) (hA : 12 ≤ A) (hr12 : 12 ≤ r)
    (hE : (c - r) * A ≤ r + 2 * A) :
    (c' - r) * (2 * A * A) ≤ r + 2 * (2 * A * A) := by
  obtain ⟨E, rfl⟩ : ∃ E, c = r + E := ⟨c - r, by omega⟩
  obtain ⟨E', rfl⟩ : ∃ E', c' = r + E' := ⟨c' - r, by omega⟩
  simp only [Nat.add_sub_cancel_left] at hE ⊢
  have := quad_arith (r : Int) E E' A (by exact_mod_cast hr12) (by exact_mod_cast hA)
    (by positivity) (by positivity)
    (by
      have h1 : ((2 * (r + E') * (r + E) : Nat) : Int) ≤ ((r + E) * (r + E) + (r + E) + x : Nat) := by
        exact_mod_cast hstep
      have h2 : ((x : Nat) : Int) < ((r + 1) * (r + 1) : Nat) := by exact_mod_cast hr2
      push_cast at h1 h2
      nlinarith)
    (by exact_mod_cast hE)
  exact_mod_cast this


theorem newtonN_two_descend (x r : Nat) (hr0 : 1 ≤ r) (hr1 : r * r ≤ x)
    (hr2 : x < (r + 1) * (r + 1)) (hr12 : 12 ≤ r) (A : Nat) (hA : 12 ≤ A) (K : Nat)
    (hnext : ∀ (c : Nat) (nT : Int), r ≤ c → nT ≠ 1 →
      (c - r) * (2 * A * A) ≤ r + 2 * (2 * A * A) →
      (newtonN x 2 K c nT).1 ≠ NthRootExit.exhausted)
    (c : Nat) (nT : Int) (hc : r ≤ c) (hT : nT ≠ 1) (hE : (c - r) * A ≤ r + 2 * A) :
    (newtonN x 2 (K + 1) c nT).1 ≠ NthRootExit.exhausted := by
  by_cases hcr : c = r
  · subst hcr
    exact newtonN_fuel_le x 2 K (K + 1) c nT (by omega)
      (hnext c nT (le_refl _) hT (by simp))
  · obtain ⟨c', nT', heq, hT', hc', -, hstep⟩ :=
      newtonN_two_step_above x r K c nT hr1 hr2 (by omega) hT
    rw [heq]
    exact hnext c' nT' hc' hT' (quad_bound x r c c' A hr2 hc hc' hstep hA hr12 hE)

/-- Once the error is at most `r / 2^15 + 2`, a root below `2^128` is reached
and left within 8 iterations. -/
theorem newtonN_two_stages (x r : Nat) (hr1 : r * r ≤ x) (hr2 : x < (r + 1) * (r + 1))
    (hr12 : 12 ≤ r) (hr128 : r < 2 ^ 128) (c : Nat) (nT : Int) (hc : r ≤ c) (hT : nT ≠ 1)
    (hE : (c - r) * 2 ^ 15 ≤ r + 2 * 2 ^ 15) :
    (newtonN x 2 8 c nT).1 ≠ NthRootExit.exhausted := by
  have hr0 : 1 ≤ r := by omega
  have s3 : ∀ (c : Nat) (nT : Int), r ≤ c → nT ≠ 1 →
      (c - r) * (2 * 2 ^ 63 * 2 ^ 63) ≤ r + 2 * (2 * 2 ^ 63 * 2 ^ 63) →
      (newtonN x 2 5 c nT).1 ≠ NthRootExit.exhausted := by
    intro c nT hc hT hE
    exact newtonN_two_linear x r hr0 hr1 hr2 5 c nT hc hT (by norm_num at hE hr128; omega)
  have s2 : ∀ (c : Nat) (nT : Int), r ≤ c → nT ≠ 1 →
      (c - r) * (2 * 2 ^ 31 * 2 ^ 31) ≤ r + 2 * (2 * 2 ^ 31 * 2 ^ 31) →
      (newtonN x 2 6 c nT).1 ≠ NthRootExit.exhausted := by
    intro c nT hc hT hE
    exact newtonN_two_descend x r hr0 hr1 hr2 hr12 (2 ^ 63) (by norm_num) 5 s3 c nT hc hT
      (by norm_num at hE ⊢; exact hE)
  have s1 : ∀ (c : Nat) (nT : Int), r ≤ c → nT ≠ 1 →
      (c - r) * (2 * 2 ^ 15 * 2 ^ 15) ≤ r + 2 * (2 * 2 ^ 15 * 2 ^ 15) →
      (newtonN x 2 7 c nT).1 ≠ NthRootExit.exhausted := by
    intro c nT hc hT hE
    exact newtonN_two_descend x r hr0 hr1 hr2 hr12 (2 ^ 31) (by norm_num) 6 s2 c nT hc hT
      (by norm_num at hE ⊢; exact hE)
  exact newtonN_two_descend x r hr0 hr1 hr2 hr12 (2 ^ 15) (by norm_num) 7 s1 c nT hc hT hE


/-- The error after the first Newton step from the 8-bit seed `s * 2^k`. -/
theorem first_step_bound (x r s P c1 : Nat) (hr2 : x < (r + 1) * (r + 1)) (hs1 : 128 ≤ s)
    (hs2 : s ≤ 255) (hP : 1 ≤ P) (hlow : s * P ≤ r) (hhigh : r < s * P + P) (hc1 : r ≤ c1)
    (hstep : 2 * c1 * (s * P) ≤ s * P * (s * P) + x) :
    (c1 - r) * 2 ^ 15 ≤ r + 2 * 2 ^ 15 := by
  obtain ⟨D, rfl⟩ : ∃ D, r = s * P + D := ⟨r - s * P, by omega⟩
  obtain ⟨E, rfl⟩ : ∃ E, c1 = s * P + D + E := ⟨c1 - (s * P + D), by omega⟩
  have hD : D + 1 ≤ P := by omega
  simp only [Nat.add_sub_cancel_left]
  have h1 : 2 * E * (s * P) ≤ D * D + 2 * (s * P) + 2 * D := by nlinarith
  have h2 : D * D + 2 * D + 1 ≤ P * P := by nlinarith
  have h3 : 2 * E * s * P ≤ (P + 2 * s) * P := by nlinarith
  have h4 : 2 * E * s ≤ P + 2 * s := Nat.le_of_mul_le_mul_right h3 (by omega)
  have h5 : E * 256 ≤ 2 * E * s := by nlinarith
  have h6 : 128 * P ≤ s * P := Nat.mul_le_mul_right _ hs1
  omega

/-- Started from the seed of `nthRoot`, the Newton loop for square roots
below `2^128` leaves through a converged exit within its 20 iterations. -/
theorem newtonN_two_converges (x r s k : Nat) (hr1 : r * r ≤ x) (hr2 : x < (r + 1) * (r + 1))
    (hr128 : r < 2 ^ 128) (hs1 : 128 ≤ s) (hs2 : s ≤ 255) (hk : 1 ≤ k)
    (hlow : s * 2 ^ k ≤ r) (hhigh : r < s * 2 ^ k + 2 ^ k) :
    (newtonN x 2 20 (s * 2 ^ k) 0).1 ≠ NthRootExit.exhausted := by
  have hP : 2 ≤ 2 ^ k := by
    calc 2 = 2 ^ 1 := by norm_num
      _ ≤ 2 ^ k := Nat.pow_le_pow_right (by norm_num) hk
  have hc0 : 256 ≤ s * 2 ^ k := by nlinarith
  have hr12 : 12 ≤ r := by omega
  have hq : s * 2 ^ k ≤ x / (s * 2 ^ k) := le_div_of_below x r _ hr1 (by omega) hlow
  have hqc : x / (s * 2 ^ k) * (s * 2 ^ k) ≤ x := Nat.div_mul_le_self _ _
  have hmean := two_root_le x r (s * 2 ^ k) hr1 (by omega)
  rw [show (20 : Nat) = 19 + 1 from rfl, newtonN_two_succ]
  by_cases h1 : x / (s * 2 ^ k) = s * 2 ^ k
  · simp [h1]
  · have h2 : ¬ x / (s * 2 ^ k) < s * 2 ^ k := by omega
    simp only [h1, h2, if_false]
    simp only [show ¬ ((0 : Int) = -1) by decide, if_false]
    by_cases hle : x / (s * 2 ^ k) - s * 2 ^ k ≤ 2
    · simp only [hle, if_true]
      have hr : r ≤ s * 2 ^ k + 1 := by
        by_contra hcon
        have h3 : s * 2 ^ k + 2 ≤ r := by omega
        have h4 : (s * 2 ^ k + 2) * (s * 2 ^ k + 2) ≤ x :=
          le_trans (Nat.mul_le_mul h3 h3) hr1
        have h5 : x < (x / (s * 2 ^ k) + 1) * (s * 2 ^ k) := by
          rw [Nat.add_mul, Nat.one_mul]
          exact Nat.lt_div_mul_add (by omega)
        have h6 : (x / (s * 2 ^ k) + 1) * (s * 2 ^ k) ≤ (s * 2 ^ k + 3) * (s * 2 ^ k) :=
          Nat.mul_le_mul_right _ (by omega)
        nlinarith
      by_cases hrc : r = s * 2 ^ k
      · exact newtonN_two_after_up x r 19 _ hr2 (by omega) (by norm_num)
      · have : s * 2 ^ k + 1 = r := by omega
        rw [this]
        exact newtonN_two_at_root x r 19 1 (by omega) hr1 hr2 (by norm_num)
    · simp only [hle, if_false]
      have hc1 : r ≤ s * 2 ^ k + (x / (s * 2 ^ k) - s * 2 ^ k) / 2 := by omega
      have hstep : 2 * (s * 2 ^ k + (x / (s * 2 ^ k) - s * 2 ^ k) / 2) * (s * 2 ^ k)
          ≤ s * 2 ^ k * (s * 2 ^ k) + x := by
        have h3 : 2 * (s * 2 ^ k + (x / (s * 2 ^ k) - s * 2 ^ k) / 2)
            ≤ s * 2 ^ k + x / (s * 2 ^ k) := by omega
        calc 2 * (s * 2 ^ k + (x / (s * 2 ^ k) - s * 2 ^ k) / 2) * (s * 2 ^ k)
            ≤ (s * 2 ^ k + x / (s * 2 ^ k)) * (s * 2 ^ k) := Nat.mul_le_mul_right _ h3
          _ = s * 2 ^ k * (s * 2 ^ k) + x / (s * 2 ^ k) * (s * 2 ^ k) := by ring
          _ ≤ s * 2 ^ k * (s * 2 ^ k) + x := by omega
      have hE := first_step_bound x r s (2 ^ k) _ hr2 hs1 hs2 (by omega) hlow hhigh hc1 hstep
      exact newtonN_fuel_le x 2 8 19 _ 0 (by norm_num)
        (newtonN_two_stages x r hr1 hr2 hr12 hr128 _ 0 hc1 (by decide) hE)


theorem rootN_two_converges (x : Nat) (hx : 1 ≤ x) (hlt : x < 2 ^ 256) :
    (rootN x 2).1 ≠ NthRootExit.exhausted := by
  obtain ⟨hsq1, hsq2, hs1, hs2⟩ :=
    nthRoot_seed_bounds x 2 hx (by norm_num) _ _ _ _ rfl rfl rfl rfl
  simp only [rootN]
  split_ifs with h
  · simp
  · generalize hRdef : (BN_num_bits ⟨false, x⟩ + 2 - 1) / 2 = R at h hsq1 hsq2 hs1 hs2 ⊢
    have hR8 : 8 < R := by
      by_contra hcon
      exact h (by rw [Nat.min_eq_right (by omega)])
    have hS : min 8 R = 8 := Nat.min_eq_left (by omega)
    rw [hS] at hsq1 hsq2 hs1 hs2 ⊢
    generalize hsdef : seedN 2 (x / 2 ^ ((R - 8) * 2)) 8 0 = s at hsq1 hsq2 hs1 hs2 ⊢
    have hp : 0 < 2 ^ ((R - 8) * 2) := Nat.pos_pow_of_pos _ (by norm_num)
    have hpp : 2 ^ ((R - 8) * 2) = 2 ^ (R - 8) * 2 ^ (R - 8) := by
      rw [← pow_add]; congr 1; omega
    have hU1 : x / 2 ^ ((R - 8) * 2) * 2 ^ ((R - 8) * 2) ≤ x := Nat.div_mul_le_self _ _
    have hU2 : x < (x / 2 ^ ((R - 8) * 2) + 1) * 2 ^ ((R - 8) * 2) := by
      rw [Nat.add_mul, Nat.one_mul]
      exact Nat.lt_div_mul_add hp
    apply newtonN_two_converges x (Nat.sqrt x) s (R - 8) (Nat.sqrt_le x) (Nat.lt_succ_sqrt x)
    · rw [Nat.sqrt_lt]
      calc x < 2 ^ 256 := hlt
        _ = 2 ^ 128 * 2 ^ 128 := by norm_num
    · simpa using hs1
    · have : s < 2 ^ 8 := hs2
      omega
    · omega
    · rw [Nat.le_sqrt]
      calc s * 2 ^ (R - 8) * (s * 2 ^ (R - 8)) = s ^ 2 * 2 ^ ((R - 8) * 2) := by
            rw [hpp]; ring
        _ ≤ x / 2 ^ ((R - 8) * 2) * 2 ^ ((R - 8) * 2) := Nat.mul_le_mul_right _ hsq1
        _ ≤ x := hU1
    · rw [Nat.sqrt_lt]
      calc x < (x / 2 ^ ((R - 8) * 2) + 1) * 2 ^ ((R - 8) * 2) := hU2
        _ ≤ (s + 1) ^ 2 * 2 ^ ((R - 8) * 2) := Nat.mul_le_mul_right _ hsq2
        _ = (s * 2 ^ (R - 8) + 2 ^ (R - 8)) * (s * 2 ^ (R - 8) + 2 ^ (R - 8)) := by
            rw [hpp]; ring

/-- C7: for `n = 2` and every `x` with `0 ≤ x < 2^256`, `nthRoot` returns the
floor of the square root, and it returns it through a converged exit, never by
running out of its 20 iterations. -/
theorem nthRoot_two_converges (x : CBigNum) (hx : BN_is_negative x = false)
    (hlt : x.mag < 2 ^ 256) :
    ∃ e r, nthRoot_traced x 2 = Except.ok (e, r) ∧ e ≠ NthRootExit.exhausted ∧
      nthRoot x 2 = Except.ok r ∧ BN_is_negative r = false ∧
      r.mag ^ 2 ≤ x.mag ∧ x.mag < (r.mag + 1) ^ 2 := by
  cases x with
  | mk xn m =>
    simp only [BN_is_negative] at hx
    simp only at hlt
    subst hx
    by_cases hm : m = 0
    · subst hm
      exact ⟨NthRootExit.zero, ⟨false, 0⟩, by decide, by decide, by decide, rfl, by decide,
        by decide⟩
    · have hm1 : 1 ≤ m := by omega
      have ht := nthRoot_traced_eq m 2 hm1 (le_refl _)
      have hconv := rootN_two_converges m hm1 hlt
      have hex := rootN_exact m 2 hm1 (le_refl _) hconv
      refine ⟨(rootN m 2).1, ⟨false, (rootN m 2).2⟩, ht, hconv, ?_, rfl, hex.1, hex.2⟩
      unfold nthRoot
      rw [show (2 : Int) = ((2 : Nat) : Int) from rfl, ht]
      rfl

set_option maxRecDepth 100000 in
theorem nthRoot_two_converges_witness :
    BN_is_negative (BIGNUM.mk false 1000001) = false ∧
    (BIGNUM.mk false 1000001).mag < 2 ^ 256 ∧
    nthRoot (BIGNUM.mk false 1000000) 2 = Except.ok (BIGNUM.mk false 1000) ∧
    nthRoot (BIGNUM.mk false 1000001) 2 = Except.ok (BIGNUM.mk false 1000) ∧
    ∃ e r, nthRoot_traced (BIGNUM.mk false 1000001) 2 = Except.ok (e, r) ∧
      e ≠ NthRootExit.exhausted ∧
      nthRoot (BIGNUM.mk false 1000001) 2 = Except.ok r ∧ BN_is_negative r = false ∧
      r.mag ^ 2 ≤ (BIGNUM.mk false 1000001).mag ∧
      (BIGNUM.mk false 1000001).mag < (r.mag + 1) ^ 2 :=
  ⟨by decide, by decide, by decide, by decide,
    nthRoot_two_converges (BIGNUM.mk false 1000001) (by decide) (by decide)⟩

/-! ## Construction from 64-bit integers -/

theorem setuint64_loop_eq (i n : Nat) (lz : Bool) (out : List Nat) :
    setuint64_loop i n lz out = setint64_loop false i n lz out := by
  induction i generalizing n lz out with
  | zero => rfl
  | succ i ih =>
    simp only [setuint64_loop, setint64_loop, ih]
    simp

theorem setuint64_eq (self : CBigNum) (n : Nat) (hn : n < 2 ^ 64) :
    setuint64 self n = ⟨false, n⟩ := by
  have hloop := setint64_loop_leading false 8 n (le_refl _) (by norm_num; omega)
  simp only [Nat.sub_self, pow_zero, Nat.mul_one] at hloop
  rw [← setuint64_loop_eq] at hloop
  unfold setuint64
  simp only []
  rw [BN_mpi2bn_of_payload false n hn _ hloop]
  simp

/-- C11: for every signed 64-bit `sn`, `INT64_MIN` included, `setint64(sn)`
leaves the number with integer value exactly `sn`, and for every unsigned
64-bit `n`, `setuint64(n)` leaves it with value exactly `n`; both results are
canonical, whatever the receiver held before. -/
theorem setint64_setuint64_exact (self : CBigNum) :
    (∀ sn : Int, -2 ^ 63 ≤ sn → sn < 2 ^ 63 →
      (setint64 self sn).toInt = sn ∧ (setint64 self sn).canonical) ∧
    (∀ n : Nat, n < 2 ^ 64 →
      (setuint64 self n).toInt = (n : Int) ∧ (setuint64 self n).canonical) := by
  constructor
  · intro sn h1 h2
    rw [setint64_eq self sn h1 h2]
    constructor
    · simp only [BIGNUM.toInt]
      split_ifs with h
      · simp at h
        omega
      · simp at h
        omega
    · intro h
      simp at h ⊢
      omega
  · intro n hn
    rw [setuint64_eq self n hn]
    exact ⟨by simp [BIGNUM.toInt], by simp [BIGNUM.canonical]⟩

theorem setint64_setuint64_exact_witness :
    (-2 ^ 63 ≤ (-9223372036854775808 : Int) ∧ (-9223372036854775808 : Int) < 2 ^ 63 ∧
      (setint64 BN_zero (-9223372036854775808)).toInt = -9223372036854775808 ∧
      (setint64 BN_zero (-9223372036854775808)).canonical) ∧
    ((18446744073709551615 : Nat) < 2 ^ 64 ∧
      (setuint64 BN_zero 18446744073709551615).toInt = ((18446744073709551615 : Nat) : Int) ∧
      (setuint64 BN_zero 18446744073709551615).canonical) :=
  ⟨⟨by decide, by decide,
      (setint64_setuint64_exact BN_zero).1 (-9223372036854775808) (by decide) (by decide)⟩,
   ⟨by decide,
      (setint64_setuint64_exact BN_zero).2 18446744073709551615 (by decide)⟩⟩

/-! ## Conversion to 32-bit integers -/

/-- C12: `getint` saturates: for every `x`, `getint(x)` is `x` clamped to
`INT_MIN .. INT_MAX`, magnitudes wider than one machine word included, on every
build where `unsigned long` holds a whole `BN_ULONG` of at least 32 bits. -/
theorem getint_saturates (dm : DataModel) (hW : 32 ≤ dm.BN_BITS2)
    (hL : dm.BN_BITS2 ≤ dm.ULONG_BITS) (x : CBigNum) :
    getint dm x = max INT_MIN (min INT_MAX x.toInt) := by
  have hW' : (2 : Nat) ^ 32 ≤ 2 ^ dm.BN_BITS2 := Nat.pow_le_pow_right (by norm_num) hW
  have hL' : (2 : Nat) ^ dm.BN_BITS2 ≤ 2 ^ dm.ULONG_BITS :=
    Nat.pow_le_pow_right (by norm_num) hL
  have hword : BN_get_word dm x % 2 ^ dm.ULONG_BITS = BN_get_word dm x := by
    apply Nat.mod_eq_of_lt
    simp only [BN_get_word]
    split_ifs <;> omega
  cases x with
  | mk xn m =>
    simp only [getint, hword, BN_is_negative, INT_MAX, INT_MIN, BIGNUM.toInt]
    simp only [BN_get_word]
    cases xn <;> simp only [Bool.not_true, Bool.not_false, Bool.false_eq_true, if_true, if_false]
    · by_cases hm : m < 2 ^ dm.BN_BITS2
      · simp only [hm, if_true]
        split_ifs <;> omega
      · simp only [hm, if_false]
        split_ifs <;> omega
    · by_cases hm : m < 2 ^ dm.BN_BITS2
      · simp only [hm, if_true]
        split_ifs <;> omega
      · simp only [hm, if_false]
        split_ifs <;> omega

theorem getint_saturates_witness :
    32 ≤ LP64.BN_BITS2 ∧ LP64.BN_BITS2 ≤ LP64.ULONG_BITS ∧
    getint LP64 (BIGNUM.mk true (2 ^ 70)) = INT_MIN ∧
    getint LP64 (BIGNUM.mk true (2 ^ 70))
      = max INT_MIN (min INT_MAX (BIGNUM.mk true (2 ^ 70)).toInt) :=
  ⟨by decide, by decide, by decide,
    getint_saturates LP64 (by decide) (by decide) (BIGNUM.mk true (2 ^ 70))⟩

/-- Where `unsigned long` is narrower than `BN_ULONG` (64-bit words with a
32-bit `unsigned long`), the word is cut before `getint` compares it. -/
theorem getint_narrow_ulong :
    getint (DataModel.mk 64 32) (BIGNUM.mk false (2 ^ 32)) = 0 := by
  decide

/-- C13: on a build with 64-bit words `getuint` does not saturate: `2^32` is
greater than `2^32 - 1`, and `getuint` returns its low 32 bits, `0`. -/
theorem getuint_wraps_on_64_bit_words :
    (BIGNUM.mk false 4294967296).toInt > 2 ^ 32 - 1 ∧
    BN_get_word LP64 (BIGNUM.mk false 4294967296) = 4294967296 ∧
    getuint LP64 (BIGNUM.mk false 4294967296) = 0 ∧
    getint LP64 (BIGNUM.mk false 4294967296) = INT_MAX := by
  decide

/-- With 32-bit words `BN_get_word` itself saturates, and so does `getuint`. -/
theorem getuint_saturates_32_bit_words (dm : DataModel) (hW : dm.BN_BITS2 = 32)
    (x : CBigNum) (hx : 2 ^ 32 ≤ x.mag) : getuint dm x = 2 ^ 32 - 1 := by
  have h : ¬ x.mag < 2 ^ 32 := by omega
  simp only [getuint, BN_get_word, hW, h, if_false]
  norm_num

/-! ## The 256-bit unsigned integer -/

theorem setuint256_loop_copy (n i : Nat) (out : List Nat) :
    setuint256_loop n i false out = out ++ bytesBE i n := by
  induction i generalizing out with
  | zero => simp [setuint256_loop, bytesBE]
  | succ i ih =>
    simp only [setuint256_loop, Bool.false_eq_true, if_false, ih, bytesBE, uint256_byte]
    simp

theorem setuint256_loop_leading (n i : Nat) (hn : n < 256 ^ i) :
    setuint256_loop n i true [] =
      if n = 0 then [] else (BN_bn2mpi ⟨false, n⟩).drop 4 := by
  induction i with
  | zero =>
    have : n = 0 := by simpa using hn
    simp [setuint256_loop, this]
  | succ i ih =>
    have hp : 0 < (256 : Nat) ^ i := Nat.pos_pow_of_pos _ (by norm_num)
    have hT1 : n / 256 ^ i < 256 := by
      rw [Nat.div_lt_iff_lt_mul hp, Nat.mul_comm, ← pow_succ]
      exact hn
    have hc : uint256_byte n i = n / 256 ^ i := Nat.mod_eq_of_lt hT1
    simp only [setuint256_loop, hc, if_true]
    by_cases hT0 : n / 256 ^ i = 0
    · have hlt : n < 256 ^ i := (Nat.div_eq_zero_iff hp).mp hT0
      rw [if_pos hT0]
      exact ih hlt
    · have hge : 256 ^ i ≤ n := by
        by_contra hcon
        exact hT0 (Nat.div_eq_of_lt (by omega))
      have hn0 : n ≠ 0 := by omega
      rw [if_neg hT0, if_neg hn0, BN_bn2mpi_payload ⟨false, n⟩ i hge hn]
      simp only [setuint256_loop_copy]
      by_cases hT : 128 ≤ n / 256 ^ i
      · have hand := byte_and_0x80_ne_zero _ hT hT1
        simp [hand, hT]
      · have hand := byte_and_0x80_eq_zero _ (by omega : n / 256 ^ i < 128)
        simp [hand, hT]

/-- A buffer built by hand from the payload of `BN_bn2mpi` is decoded to the
number itself, for any number whose encoding fits the `int` length. -/
theorem BN_mpi2bn_of_bn2mpi_payload (f : Bool) (n : Nat)
    (hsz : BN_bn2mpi_size ⟨f, n⟩ < 2 ^ 31) (P : List Nat)
    (hP : P = if n = 0 then [] else (BN_bn2mpi ⟨f, n⟩).drop 4) :
    BN_mpi2bn ([(P.length >>> 24) &&& 0xff, (P.length >>> 16) &&& 0xff,
        (P.length >>> 8) &&& 0xff, P.length &&& 0xff] ++ P)
      (toCInt ([(P.length >>> 24) &&& 0xff, (P.length >>> 16) &&& 0xff,
        (P.length >>> 8) &&& 0xff, P.length &&& 0xff] ++ P).length)
      = some ⟨f && !(n == 0), n⟩ := by
  have hlen : P.length + 4 < 2 ^ 31 := by
    by_cases h0 : n = 0
    · rw [hP, if_pos h0]
      simp
    · obtain ⟨-, h2, -⟩ := BN_mpi2bn_payload_bn2mpi ⟨f, n⟩ h0
      rw [hP, if_neg h0, h2]
      exact hsz
  have hC : toCInt ([(P.length >>> 24) &&& 0xff, (P.length >>> 16) &&& 0xff,
        (P.length >>> 8) &&& 0xff, P.length &&& 0xff] ++ P).length = (P.length : Int) + 4 := by
    simp only [List.length_append, List.length_cons, List.length_nil]
    rw [show 0 + 1 + 1 + 1 + 1 + P.length = P.length + 4 by omega, toCInt_of_lt _ hlen]
    push_cast
    rfl
  rw [hC, BN_mpi2bn_header P hlen]
  by_cases h0 : n = 0
  · subst h0
    rw [hP]
    simp
  · obtain ⟨h1, h2, -⟩ := BN_mpi2bn_payload_bn2mpi ⟨f, n⟩ h0
    have hl : P.length ≠ 0 := by
      rw [hP, if_neg h0]
      have : 4 < BN_bn2mpi_size ⟨f, n⟩ := by
        have := BN_num_bits_pos ⟨f, n⟩ h0
        simp only [BN_bn2mpi_size]
        omega
      omega
    rw [if_neg hl, hP, if_neg h0, h1]
    simp [h0]

theorem setuint256_eq (self : CBigNum) (n : Nat) (hn : n < 2 ^ 256) :
    setuint256 self n = ⟨false, n⟩ := by
  have hloop := setuint256_loop_leading n 32 (by norm_num; omega)
  have hb := BN_num_bits_le_of_lt ⟨false, n⟩ 256 hn
  have hsz : BN_bn2mpi_size ⟨false, n⟩ < 2 ^ 31 := by
    simp only [BN_bn2mpi_size]
    split_ifs <;> omega
  unfold setuint256
  simp only [Nat.shiftRight_zero]
  rw [BN_mpi2bn_of_bn2mpi_payload false n hsz _ hloop]
  simp

theorem BN_bin2bn_append_singleton (X : List Nat) (q : Nat) :
    BN_bin2bn (X ++ [q]) = BN_bin2bn X * 256 + q := by
  simp [BN_bin2bn, List.foldl_append]

/-- The copy loop of `getuint256` reads the payload backwards, at most 32
bytes of it. -/
theorem getuint256_loop_eq (Q front tail : List Nat) (fuel i n : Nat)
    (hfront : front.length = 4) (hfuel : 32 ≤ fuel + i) :
    getuint256_loop (front ++ Q.reverse ++ tail) fuel i (3 + Q.length) n =
      n + BN_bin2bn ((Q.take (32 - i)).reverse) * 256 ^ i := by
  induction Q generalizing tail fuel i n with
  | nil =>
    cases fuel with
    | zero => simp [getuint256_loop, BN_bin2bn]
    | succ fuel => simp [getuint256_loop, BN_bin2bn]
  | cons q Q ih =>
    cases fuel with
    | zero =>
      have : 32 - i = 0 := by omega
      simp [getuint256_loop, BN_bin2bn, this]
    | succ fuel =>
      by_cases hi : i < 32
      · have hj : 3 + (q :: Q).length ≥ 4 := by simp; omega
        have hv : front ++ (q :: Q).reverse ++ tail = front ++ Q.reverse ++ ([q] ++ tail) := by
          simp
        have hget : (front ++ Q.reverse ++ ([q] ++ tail)).getD (3 + (q :: Q).length) 0 = q := by
          rw [List.getD_append_right _ _ _ _ (by simp [hfront]; omega)]
          simp [hfront]
          have : 3 + (Q.length + 1) - (4 + Q.length) = 0 := by omega
          rw [this]
          simp
        rw [hv]
        simp only [getuint256_loop, hi, hj, and_self, if_true, hget]
        have hj' : 3 + (q :: Q).length - 1 = 3 + Q.length := by simp
        rw [hj', ih ([q] ++ tail) fuel (i + 1) _ (by omega)]
        obtain ⟨t, ht⟩ : ∃ t, 32 - i = t + 1 := ⟨31 - i, by omega⟩
        have ht' : 32 - (i + 1) = t := by omega
        rw [ht, ht', List.take_succ_cons, List.reverse_cons, BN_bin2bn_append_singleton,
          pow_succ]
        ring
      · have h0 : 32 - i = 0 := by omega
        simp [getuint256_loop, hi, h0, BN_bin2bn]

theorem bytesBE_drop (N j m : Nat) (hj : j ≤ N) :
    (bytesBE N m).drop (N - j) = bytesBE j m := by
  induction N with
  | zero =>
    have : j = 0 := by omega
    subst this
    rfl
  | succ N ih =>
    by_cases h : j = N + 1
    · subst h
      simp
    · have : N + 1 - j = (N - j) + 1 := by omega
      rw [this]
      simp only [bytesBE, List.drop_succ_cons]
      exact ih (by omega)

theorem byte_mask_0x7f (t : Nat) (h : t < 128) :
    t &&& 0x7f = t ∧ (t ||| 0x80) &&& 0x7f = t := by
  interval_cases t <;> exact ⟨rfl, rfl⟩

/-- The low 32 bytes of a big-endian byte string of the magnitude. -/
theorem BN_bin2bn_low32 (N m : Nat) (hm : m < 256 ^ N) :
    BN_bin2bn (((bytesBE N m).reverse.take 32).reverse) = m % 2 ^ 256 := by
  rw [List.take_reverse, List.reverse_reverse, length_bytesBE]
  by_cases hN : 32 ≤ N
  · rw [bytesBE_drop N 32 m hN, BN_bin2bn_bytesBE]
    norm_num
  · have h0 : N - 32 = 0 := by omega
    rw [h0, List.drop_zero, BN_bin2bn_bytesBE, Nat.mod_eq_of_lt hm]
    have : (256 : Nat) ^ N ≤ 256 ^ 32 := Nat.pow_le_pow_right (by norm_num) (by omega)
    rw [Nat.mod_eq_of_lt]
    have e : (2 : Nat) ^ 256 = 256 ^ 32 := by norm_num
    omega

/-- `getuint256` drops the sign and keeps the low 256 bits of the magnitude. -/
theorem getuint256_eq (x : CBigNum) : getuint256 x = x.mag % 2 ^ 256 := by
  by_cases hm : x.mag = 0
  · cases x with
    | mk xn m =>
      simp only at hm
      subst hm
      cases xn <;> decide
  · obtain ⟨k, hk, hT1, hT0, hmlt, -⟩ := top_byte x hm
    have hqpos : 0 < (256 : Nat) ^ k := Nat.pos_pow_of_pos k (by norm_num)
    have hge : 256 ^ k ≤ x.mag := by
      by_contra hcon
      have := Nat.div_eq_of_lt (show x.mag < 256 ^ k by omega)
      omega
    have hpay := BN_bn2mpi_payload x k hge hmlt
    obtain ⟨-, hlen, htake⟩ := BN_mpi2bn_payload_bn2mpi x hm
    have hsplit : BN_bn2mpi x = (BN_bn2mpi x).take 4 ++ (BN_bn2mpi x).drop 4 :=
      (List.take_append_drop 4 _).symm
    have hsize : ¬ BN_bn2mpi_size x < 4 := by
      simp only [BN_bn2mpi_size]
      omega
    have hTmod : x.mag / 256 ^ k % 256 = x.mag / 256 ^ k := Nat.mod_eq_of_lt hT1
    have hhi : x.mag / 256 ^ (k + 1) % 256 = 0 := by
      rw [Nat.div_eq_of_lt hmlt]
    obtain ⟨a, b, c, d, hhead⟩ : ∃ a b c d, (BN_bn2mpi x).take 4 = [a, b, c, d] :=
      ⟨_, _, _, _, htake⟩
    have hv : BN_bn2mpi x = [a, b, c, d] ++
        (if 128 ≤ x.mag / 256 ^ k then
          (if x.neg then 0x80 else 0) :: x.mag / 256 ^ k :: bytesBE k x.mag
        else
          (if x.neg then x.mag / 256 ^ k ||| 0x80 else x.mag / 256 ^ k) :: bytesBE k x.mag) := by
      calc BN_bn2mpi x = (BN_bn2mpi x).take 4 ++ (BN_bn2mpi x).drop 4 := hsplit
        _ = _ := by rw [hhead, hpay]
    -- the vector after `vch[4] &= 0x7f`, as a header followed by plain bytes
    have hmasked : ∃ (front : List Nat) (N : Nat), front.length = 4 ∧ x.mag < 256 ^ N ∧
        (if (BN_bn2mpi x).length > 4 then
          (BN_bn2mpi x).set 4 ((BN_bn2mpi x).getD 4 0 &&& 0x7f) else BN_bn2mpi x)
          = front ++ bytesBE N x.mag := by
      rw [hv]
      by_cases hT : 128 ≤ x.mag / 256 ^ k
      · refine ⟨[a, b, c, d], k + 2, rfl, ?_, ?_⟩
        · rw [pow_succ]
          omega
        · simp only [if_pos hT]
          have e128 : (128 : Nat) &&& 127 = 0 := by decide
          cases x.neg <;> simp [bytesBE, hTmod, hhi, e128]
      · have hT' : x.mag / 256 ^ k < 128 := by omega
        obtain ⟨m1, m2⟩ := byte_mask_0x7f _ hT'
        refine ⟨[a, b, c, d], k + 1, rfl, hmlt, ?_⟩
        simp only [if_neg hT]
        cases x.neg <;> simp [bytesBE, hTmod, m1, m2]
    obtain ⟨front, N, hfront, hN, hvch⟩ := hmasked
    simp only [getuint256, hsize, if_false]
    rw [hvch]
    have hloop := getuint256_loop_eq (bytesBE N x.mag).reverse front [] 32 0 0 hfront (by omega)
    simp only [List.reverse_reverse, List.append_nil, List.length_reverse, length_bytesBE,
      Nat.sub_zero, pow_zero, Nat.mul_one, Nat.zero_add] at hloop
    have hj : (front ++ bytesBE N x.mag).length - 1 = 3 + N := by
      simp [hfront, length_bytesBE]
    rw [hj, hloop]
    exact BN_bin2bn_low32 N x.mag hN

/-- C14: for every unsigned 256-bit `u`, `CBigNum(u)` has integer value `u`,
and `CBigNum(u).getuint256() == u`. -/
theorem uint256_round_trip (u : Nat) (hu : u < 2 ^ 256) :
    (CBigNum_uint256 u).toInt = (u : Int) ∧ (CBigNum_uint256 u).canonical ∧
    getuint256 (CBigNum_uint256 u) = u := by
  have h : CBigNum_uint256 u = ⟨false, u⟩ := setuint256_eq BN_zero u hu
  rw [h, getuint256_eq]
  exact ⟨by simp [BIGNUM.toInt], by simp [BIGNUM.canonical], Nat.mod_eq_of_lt hu⟩

theorem uint256_round_trip_witness :
    (2 ^ 256 - 1 : Nat) < 2 ^ 256 ∧
    (CBigNum_uint256 (2 ^ 256 - 1)).toInt = ((2 ^ 256 - 1 : Nat) : Int) ∧
    (CBigNum_uint256 (2 ^ 256 - 1)).canonical ∧
    getuint256 (CBigNum_uint256 (2 ^ 256 - 1)) = 2 ^ 256 - 1 :=
  ⟨by decide, uint256_round_trip (2 ^ 256 - 1) (by decide)⟩

/-! ## The free shift operators -/

theorem toInt_pos (m : Nat) : (BIGNUM.mk false m).toInt = (m : Int) := by
  simp [BIGNUM.toInt]

/-- C15: for every `x >= 0` and every shift `s` (within `int`, as `BN_lshift`
and `BN_rshift` take it) with `2^s > x`, both `x >> s` and `x >>= s` yield
exactly zero. -/
theorem right_shift_zero_clamp (x : CBigNum) (s : Nat) (hx : BN_is_negative x = false)
    (hs : s < 2 ^ 31) (h : x.toInt < 2 ^ s) :
    op_shr x s = CBigNum_int 0 ∧ op_shr_assign x s = CBigNum_int 0 ∧
      (op_shr x s).toInt = 0 ∧ (op_shr_assign x s).toInt = 0 := by
  cases x with
  | mk xn xm =>
    simp only [BN_is_negative] at hx
    subst hx
    rw [toInt_pos] at h
    have hlt : xm < 2 ^ s := by exact_mod_cast h
    have h0 : CBigNum_int 0 = ⟨false, 0⟩ := CBigNum_int_of_nonneg 0
    have hr : op_shr_assign ⟨false, xm⟩ s = ⟨false, 0⟩ := by
      rw [op_shr_assign_pos, Nat.div_eq_of_lt hlt]
    simp only [op_shr, hr, h0, toInt_pos]
    simp

theorem right_shift_zero_clamp_witness :
    (op_shr (CBigNum_int 1000) 10 = CBigNum_int 0 ∧
      op_shr_assign (CBigNum_int 1000) 10 = CBigNum_int 0 ∧
      (op_shr (CBigNum_int 1000) 10).toInt = 0 ∧
      (op_shr_assign (CBigNum_int 1000) 10).toInt = 0) :=
  right_shift_zero_clamp (CBigNum_int 1000) 10 (by decide) (by decide) (by decide)

/-! ## Division and remainder -/

theorem natAbs_toInt (a : BIGNUM) : a.toInt.natAbs = a.mag := by
  cases a with
  | mk s m => cases s <;> simp [BIGNUM.toInt]

theorem toInt_neg_iff (a : BIGNUM) : a.toInt < 0 ↔ a.neg = true ∧ a.mag ≠ 0 := by
  cases a with
  | mk s m =>
    cases s <;> simp [BIGNUM.toInt]
    omega

theorem toInt_pos_iff (a : BIGNUM) : 0 < a.toInt ↔ a.neg = false ∧ a.mag ≠ 0 := by
  cases a with
  | mk s m =>
    cases s <;> simp [BIGNUM.toInt]
    omega

theorem toInt_eq_zero_iff (a : BIGNUM) : a.toInt = 0 ↔ a.mag = 0 := by
  cases a with
  | mk s m => cases s <;> simp [BIGNUM.toInt]

/-- The signs and magnitudes `BN_div` produces: a nonzero quotient is negative
exactly for operands of opposite signs, a nonzero remainder takes the sign of
the dividend. -/
theorem BN_div_signs (a b : BIGNUM) (hb : BN_is_zero b = false) :
    ∃ q r, BN_div a b = some (q, r) ∧ q.mag = a.mag / b.mag ∧ r.mag = a.mag % b.mag ∧
      q.neg = (xor a.neg b.neg && !(q.mag == 0)) ∧ (r.mag ≠ 0 → r.neg = a.neg) := by
  cases a with
  | mk an am =>
    cases b with
    | mk bn bm =>
      simp only [BN_is_zero, beq_eq_false_iff_ne, ne_eq] at hb
      by_cases hlt : am < bm
      · refine ⟨BN_zero, ⟨an, am⟩, ?_, ?_, ?_, ?_, fun _ => rfl⟩
        · simp [BN_div, BN_is_zero, hb, BN_ucmp, hlt]
          omega
        · simp [BN_zero, Nat.div_eq_of_lt hlt]
        · simp [Nat.mod_eq_of_lt hlt]
        · simp [BN_zero]
      · refine ⟨⟨xor an bn, am / bm⟩, ⟨an && !(am % bm == 0), am % bm⟩, ?_, rfl, rfl, ?_, ?_⟩
        · simp [BN_div, BN_is_zero, hb, BN_ucmp, hlt]
          omega
        · have hpos : 0 < am / bm := Nat.div_pos (by omega) (by omega)
          have hne : ¬ am / bm = 0 := by omega
          simp [hne]
        · intro hr
          simp only [] at hr
          simp [hr]

/-- C16: for all `a` and `b != 0`, `|a / b| == floor(|a| / |b|)`, `a / b` is
negative only when `a` and `b` have opposite signs (it is the quotient rounded
toward zero), and `|a % b| < |b|`. -/
theorem division_truncates_toward_zero (a b : CBigNum) (hb : BN_is_zero b = false) :
    ∃ q r, op_div a b = Except.ok q ∧ op_mod a b = Except.ok r ∧
      q.toInt.natAbs = a.toInt.natAbs / b.toInt.natAbs ∧
      (q.toInt < 0 → (a.toInt < 0 ∧ 0 < b.toInt) ∨ (0 < a.toInt ∧ b.toInt < 0)) ∧
      q.toInt = a.toInt.tdiv b.toInt ∧
      r.toInt.natAbs < b.toInt.natAbs := by
  obtain ⟨q, r, hdiv, hq, hr, hqs, -⟩ := BN_div_signs a b hb
  have hbm : b.mag ≠ 0 := by
    simpa [BN_is_zero] using hb
  have hsign : q.toInt < 0 → (a.toInt < 0 ∧ 0 < b.toInt) ∨ (0 < a.toInt ∧ b.toInt < 0) := by
    intro hneg
    obtain ⟨hqn, hqm⟩ := (toInt_neg_iff q).mp hneg
    have ham : a.mag ≠ 0 := by
      intro h0
      rw [hq, h0, Nat.zero_div] at hqm
      exact hqm rfl
    rw [toInt_neg_iff, toInt_pos_iff, toInt_pos_iff, toInt_neg_iff]
    rw [hqn] at hqs
    cases ha : a.neg <;> cases hb' : b.neg <;> simp_all
  refine ⟨q, r, ?_, ?_, ?_, hsign, ?_, ?_⟩
  · simp [op_div, hdiv]
  · simp [op_mod, BN_mod, hdiv]
  · rw [natAbs_toInt, natAbs_toInt, natAbs_toInt, hq]
  · -- the value is the truncated quotient
    have hnat : ((q.mag : Nat) : Int) = Int.tdiv (a.mag : Int) (b.mag : Int) := by
      rw [hq]
      exact Int.ofNat_tdiv _ _
    have hqI : q.toInt = (BIGNUM.mk (xor a.neg b.neg) q.mag).toInt := by
      rw [← toInt_norm_sign (xor a.neg b.neg) q.mag, ← hqs]
    rw [hqI]
    cases ha : a.neg <;> cases hb' : b.neg <;>
      simp [BIGNUM.toInt, ha, hb', hnat, Int.tdiv_neg, Int.neg_tdiv]
  · rw [natAbs_toInt, natAbs_toInt, hr]
    exact Nat.mod_lt _ (by omega)

theorem division_truncates_toward_zero_witness :
    ∃ q r, op_div (CBigNum_int (-7)) (CBigNum_int 2) = Except.ok q ∧
      op_mod (CBigNum_int (-7)) (CBigNum_int 2) = Except.ok r ∧
      q.toInt.natAbs = (CBigNum_int (-7)).toInt.natAbs / (CBigNum_int 2).toInt.natAbs ∧
      (q.toInt < 0 → ((CBigNum_int (-7)).toInt < 0 ∧ 0 < (CBigNum_int 2).toInt) ∨
        (0 < (CBigNum_int (-7)).toInt ∧ (CBigNum_int 2).toInt < 0)) ∧
      q.toInt = (CBigNum_int (-7)).toInt.tdiv (CBigNum_int 2).toInt ∧
      r.toInt.natAbs < (CBigNum_int 2).toInt.natAbs :=
  division_truncates_toward_zero (CBigNum_int (-7)) (CBigNum_int 2) (by decide)

/-- C17, as the claim has it, fails: `7 % -2` is `1`, positive although the
divisor is negative, and `-7 % 2` is `-1`, negative although the divisor is
positive. -/
theorem remainder_sign_of_divisor_counterexample :
    BN_is_zero (CBigNum_int (-2)) = false ∧
    op_mod (CBigNum_int 7) (CBigNum_int (-2)) = Except.ok (CBigNum_int 1) ∧
    (CBigNum_int (-2)).toInt < 0 ∧ 0 < (CBigNum_int 1).toInt ∧
    op_mod (CBigNum_int (-7)) (CBigNum_int 2) = Except.ok (CBigNum_int (-1)) ∧
    0 < (CBigNum_int 2).toInt ∧ (CBigNum_int (-1)).toInt < 0 := by
  decide

/-- C17 (amended): for all `a` and `b != 0`, `a % b` is the remainder of the
division rounded toward zero, and when it is not zero it has the same sign as
`a`, the dividend. -/
theorem remainder_sign_follows_dividend (a b : CBigNum) (hb : BN_is_zero b = false) :
    ∃ r, op_mod a b = Except.ok r ∧ r.toInt = a.toInt.tmod b.toInt ∧
      (r.toInt ≠ 0 → ((r.toInt < 0 ↔ a.toInt < 0) ∧ (0 < r.toInt ↔ 0 < a.toInt))) := by
  obtain ⟨q, r, hdiv, hq, hr, -, hrs⟩ := BN_div_signs a b hb
  have hbm : b.mag ≠ 0 := by
    simpa [BN_is_zero] using hb
  refine ⟨r, ?_, ?_, ?_⟩
  · simp [op_mod, BN_mod, hdiv]
  · have hnat : ((r.mag : Nat) : Int) = Int.tmod (a.mag : Int) (b.mag : Int) := by
      rw [hr]
      exact Int.ofNat_tmod _ _
    have hneg : ∀ x y : Int, (-x).tmod y = -(x.tmod y) := by
      intro x y
      rw [Int.tmod_def, Int.tmod_def, Int.neg_tdiv]
      ring
    by_cases hrm : r.mag = 0
    · have h0 : Int.tmod (a.mag : Int) (b.mag : Int) = 0 := by rw [← hnat, hrm]; rfl
      rw [(toInt_eq_zero_iff r).mpr hrm]
      cases ha : a.neg <;> cases hb' : b.neg <;>
        simp [BIGNUM.toInt, ha, hb', h0, Int.tmod_neg, hneg]
    · have hrn := hrs hrm
      cases ha : a.neg <;> cases hb' : b.neg <;>
        simp [BIGNUM.toInt, ha, hb', hrn, hnat, Int.tmod_neg, hneg]
  · intro hne
    have hrm : r.mag ≠ 0 := fun h => hne ((toInt_eq_zero_iff r).mpr h)
    have ham : a.mag ≠ 0 := by
      intro h0
      rw [hr, h0, Nat.zero_mod] at hrm
      exact hrm rfl
    rw [toInt_neg_iff, toInt_neg_iff, toInt_pos_iff, toInt_pos_iff, hrs hrm]
    simp [hrm, ham]

theorem remainder_sign_follows_dividend_witness :
    ∃ r, op_mod (CBigNum_int 7) (CBigNum_int (-2)) = Except.ok r ∧
      r.toInt = (CBigNum_int 7).toInt.tmod (CBigNum_int (-2)).toInt ∧
      (r.toInt ≠ 0 → ((r.toInt < 0 ↔ (CBigNum_int 7).toInt < 0) ∧
        (0 < r.toInt ↔ 0 < (CBigNum_int 7).toInt))) :=
  remainder_sign_follows_dividend (CBigNum_int 7) (CBigNum_int (-2)) (by decide)

/-! ## The compact format, in the notation of the code -/

/-- C18: for every 32-bit `c` with `size = c >> 24`, mantissa
`m = c & 0x007fffff` and sign flag `f = (c & 0x00800000 != 0)`, `SetCompact(c)`
has magnitude `m >> 8*(3-size)` when `size <= 3` and `m * 2^(8*(size-3))` when
`size > 3`, and is negative iff `f` is set and that magnitude is nonzero. -/
theorem SetCompact_decode_formula (c : Nat) (hc : c < 2 ^ 32) :
    (SetCompact c).mag =
      (if c >>> 24 ≤ 3 then (c &&& 0x007fffff) >>> (8 * (3 - c >>> 24))
       else (c &&& 0x007fffff) * 2 ^ (8 * (c >>> 24 - 3))) ∧
    (BN_is_negative (SetCompact c) = true ↔
      (c &&& 0x00800000 ≠ 0 ∧ (SetCompact c).mag ≠ 0)) ∧
    ((SetCompact c).toInt < 0 ↔ (c &&& 0x00800000 ≠ 0 ∧ (SetCompact c).mag ≠ 0)) ∧
    (SetCompact c).canonical := by
  have hmag : (SetCompact c).mag =
      (if c >>> 24 ≤ 3 then (c &&& 0x007fffff) >>> (8 * (3 - c >>> 24))
       else (c &&& 0x007fffff) * 2 ^ (8 * (c >>> 24 - 3))) := by
    simp only [SetCompact, BN_set_negative, BN_set_word, BN_lshift]
    split_ifs <;> rfl
  have hneg : (SetCompact c).neg = (decide (c &&& 0x00800000 ≠ 0) &&
      !((SetCompact c).mag == 0)) := by
    simp only [SetCompact, BN_set_negative, BN_is_zero]
  have hiff : (SetCompact c).neg = true ↔
      (c &&& 0x00800000 ≠ 0 ∧ (SetCompact c).mag ≠ 0) := by
    rw [hneg]
    simp
  refine ⟨hmag, ?_, ?_, ?_⟩
  · simpa [BN_is_negative] using hiff
  · rw [toInt_neg_iff, hiff]
    tauto
  · intro h
    exact (hiff.mp h).2

theorem SetCompact_decode_formula_witness :
    ((SetCompact 0x1b0404cb).mag =
      (if 0x1b0404cb >>> 24 ≤ 3 then (0x1b0404cb &&& 0x007fffff) >>> (8 * (3 - 0x1b0404cb >>> 24))
       else (0x1b0404cb &&& 0x007fffff) * 2 ^ (8 * (0x1b0404cb >>> 24 - 3))) ∧
    (BN_is_negative (SetCompact 0x1b0404cb) = true ↔
      (0x1b0404cb &&& 0x00800000 ≠ 0 ∧ (SetCompact 0x1b0404cb).mag ≠ 0)) ∧
    ((SetCompact 0x1b0404cb).toInt < 0 ↔
      (0x1b0404cb &&& 0x00800000 ≠ 0 ∧ (SetCompact 0x1b0404cb).mag ≠ 0)) ∧
    (SetCompact 0x1b0404cb).canonical) ∧
    (SetCompact 0x1b0404cb).mag = 0x0404cb * 2 ^ 192 ∧
    (SetCompact 0x04923456).toInt = -0x12345600 ∧ (SetCompact 0x01803456).toInt = 0 :=
  ⟨SetCompact_decode_formula 0x1b0404cb (by decide), by decide, by decide, by decide⟩

theorem shiftLeft_24 (s : Nat) : s <<< 24 = s * 2 ^ 24 := Nat.shiftLeft_eq s 24

/-- C19: for every `x` whose magnitude byte length `size` satisfies
`3 < size <= 254`, with `m = |x| >> 8*(size-3)` and `s = 0x00800000` for
`x < 0`, else `0`: `GetCompact(x) == (size << 24) | m | s` when
`m < 0x00800000`, and `GetCompact(x) == ((size+1) << 24) | (m >> 8) | s`
otherwise. -/
theorem GetCompact_wide_formula (dm : DataModel) (hdm : 24 ≤ dm.BN_BITS2) (x : CBigNum)
    (h3 : 3 < BN_num_bytes x) (h254 : BN_num_bytes x ≤ 254) :
    GetCompact dm x =
      (if x.mag >>> (8 * (BN_num_bytes x - 3)) < 0x00800000 then
        (BN_num_bytes x <<< 24) ||| (x.mag >>> (8 * (BN_num_bytes x - 3)))
          ||| (if BN_is_negative x then 0x00800000 else 0)
       else
        ((BN_num_bytes x + 1) <<< 24) ||| ((x.mag >>> (8 * (BN_num_bytes x - 3))) >>> 8)
          ||| (if BN_is_negative x then 0x00800000 else 0)) := by
  obtain ⟨hb24, hG⟩ := GetCompact_eq dm hdm x _ rfl
  have hn3 : ¬ BN_num_bytes x ≤ 3 := by omega
  simp only [hn3, if_false] at hb24 hG
  rw [hG]
  simp only [Nat.shiftRight_eq_div_pow, shiftLeft_24, BN_is_negative]
  have hs1 : BN_num_bytes x * 2 ^ 24 % 2 ^ 32 = BN_num_bytes x * 2 ^ 24 :=
    Nat.mod_eq_of_lt (by omega)
  have hs2 : (BN_num_bytes x + 1) * 2 ^ 24 % 2 ^ 32 = (BN_num_bytes x + 1) * 2 ^ 24 :=
    Nat.mod_eq_of_lt (by omega)
  have hsgn : (if x.neg = true then 0x00800000 else 0) = 0 ∨
      (if x.neg = true then 0x00800000 else 0) = 2 ^ 23 := by
    cases x.neg <;> simp
  rw [hs1, hs2]
  have e23 : (0x00800000 : Nat) = 2 ^ 23 := by norm_num
  have e8 : (2 : Nat) ^ 8 = 256 := by norm_num
  rw [e8]
  by_cases hlt : x.mag / 2 ^ (8 * (BN_num_bytes x - 3)) < 2 ^ 23
  · have hlt' : x.mag / 2 ^ (8 * (BN_num_bytes x - 3)) < 0x00800000 := by rw [e23]; exact hlt
    rw [if_pos hlt, if_pos hlt', Nat.or_comm (BN_num_bytes x * 2 ^ 24),
      or3_eq_add _ _ _ hlt (Dvd.intro_left _ rfl) hsgn]
    cases x.neg <;> simp
  · have hlt' : ¬ x.mag / 2 ^ (8 * (BN_num_bytes x - 3)) < 0x00800000 := by rw [e23]; exact hlt
    rw [if_neg hlt, if_neg hlt', Nat.or_comm ((BN_num_bytes x + 1) * 2 ^ 24),
      or3_eq_add _ _ _ (by omega) (Dvd.intro_left _ rfl) hsgn]
    cases x.neg <;> simp

theorem GetCompact_wide_formula_witness :
    GetCompact LP64 ⟨true, 0x92345678⟩ =
      (if (0x92345678 : Nat) >>> (8 * (BN_num_bytes ⟨true, 0x92345678⟩ - 3)) < 0x00800000 then
        (BN_num_bytes ⟨true, 0x92345678⟩ <<< 24)
          ||| ((0x92345678 : Nat) >>> (8 * (BN_num_bytes ⟨true, 0x92345678⟩ - 3)))
          ||| (if BN_is_negative ⟨true, 0x92345678⟩ then 0x00800000 else 0)
       else
        ((BN_num_bytes ⟨true, 0x92345678⟩ + 1) <<< 24)
          ||| (((0x92345678 : Nat) >>> (8 * (BN_num_bytes ⟨true, 0x92345678⟩ - 3))) >>> 8)
          ||| (if BN_is_negative ⟨true, 0x92345678⟩ then 0x00800000 else 0)) ∧
    GetCompact LP64 ⟨true, 0x92345678⟩ = 0x05809234 ∧
    GetCompact LP64 ⟨false, 0x12345678⟩ = 0x04123456 :=
  ⟨GetCompact_wide_formula LP64 (by decide) ⟨true, 0x92345678⟩ (by decide) (by decide),
    by decide, by decide⟩

/-- C20, as the claim has it, fails: the magnitude `0x12` fills one byte and is
below `0x00800000`, and its compact form is `0x01120000`: the mantissa field is
`0x120000`, the byte moved to the top of the three mantissa bytes, and not
`0x12`. -/
theorem GetCompact_narrow_counterexample :
    BN_num_bytes ⟨false, 0x12⟩ = 1 ∧ (BIGNUM.mk false 0x12).mag < 0x00800000 ∧
    GetCompact LP64 ⟨false, 0x12⟩ = 0x01120000 ∧
    GetCompact LP64 ⟨false, 0x12⟩ &&& 0x007fffff = 0x120000 ∧
    GetCompact LP64 ⟨false, 0x12⟩ &&& 0x007fffff ≠ (BIGNUM.mk false 0x12).mag ∧
    GetCompact ILP32 ⟨false, 0x12⟩ = 0x01120000 := by
  decide

/-- C20 (amended): for every `x` whose magnitude occupies `size <= 3` bytes,
let `w = |x| << 8*(3-size)`, the magnitude moved to the top of the three
mantissa bytes.  When `w < 0x00800000`, the size byte of `GetCompact(x)` is
`size` and the mantissa field `GetCompact(x) & 0x007fffff` is `w` (which is
`|x|` itself only for `size == 3` or `x == 0`); otherwise the size byte is
`size + 1` and the mantissa field is `w >> 8`.  The bit `0x00800000` holds the
sign. -/
theorem GetCompact_narrow_formula (dm : DataModel) (hdm : 24 ≤ dm.BN_BITS2) (x : CBigNum)
    (h3 : BN_num_bytes x ≤ 3) :
    (x.mag <<< (8 * (3 - BN_num_bytes x)) < 0x00800000 →
      GetCompact dm x >>> 24 = BN_num_bytes x ∧
      GetCompact dm x &&& 0x007fffff = x.mag <<< (8 * (3 - BN_num_bytes x))) ∧
    (¬ x.mag <<< (8 * (3 - BN_num_bytes x)) < 0x00800000 →
      GetCompact dm x >>> 24 = BN_num_bytes x + 1 ∧
      GetCompact dm x &&& 0x007fffff = (x.mag <<< (8 * (3 - BN_num_bytes x))) >>> 8) ∧
    (GetCompact dm x &&& 0x00800000 ≠ 0 ↔ BN_is_negative x = true) ∧
    (BN_num_bytes x = 3 → x.mag < 0x00800000 →
      GetCompact dm x &&& 0x007fffff = x.mag) := by
  obtain ⟨hb24, hG⟩ := GetCompact_eq dm hdm x _ rfl
  simp only [h3, if_true] at hb24 hG
  have hs1 : BN_num_bytes x * 2 ^ 24 % 2 ^ 32 = BN_num_bytes x * 2 ^ 24 :=
    Nat.mod_eq_of_lt (by omega)
  have hs2 : (BN_num_bytes x + 1) * 2 ^ 24 % 2 ^ 32 = (BN_num_bytes x + 1) * 2 ^ 24 :=
    Nat.mod_eq_of_lt (by omega)
  rw [hs1, hs2] at hG
  have hA := and_0x007fffff (GetCompact dm x)
  have hB := and_0x00800000 (GetCompact dm x)
  rw [hA, hB]
  simp only [Nat.shiftLeft_eq, Nat.shiftRight_eq_div_pow, BN_is_negative]
  generalize hwdef : x.mag * 2 ^ (8 * (3 - BN_num_bytes x)) = w at hb24 hG ⊢
  have hsz : BN_num_bytes x = 3 → x.mag < 0x00800000 → GetCompact dm x % 2 ^ 23 = x.mag := by
    intro h3e hx
    have hw : w = x.mag := by
      rw [← hwdef, h3e]
      simp
    rw [hG, hw, if_pos (by omega)]
    cases x.neg <;> simp <;> omega
  refine ⟨?_, ?_, ?_, hsz⟩
  · intro hw
    rw [hG, if_pos (by omega)]
    cases x.neg <;> simp <;> omega
  · intro hw
    rw [hG, if_neg (by omega)]
    cases x.neg <;> simp <;> omega
  · rw [hG]
    by_cases hw : w < 2 ^ 23
    · rw [if_pos hw]
      cases x.neg
      · have : (w + BN_num_bytes x * 2 ^ 24 + 0) / 2 ^ 23 % 2 = 0 := by omega
        simp
        omega
      · have : (w + BN_num_bytes x * 2 ^ 24 + 2 ^ 23) / 2 ^ 23 % 2 = 1 := by omega
        simp
        omega
    · rw [if_neg hw]
      cases x.neg
      · have : (w / 256 + (BN_num_bytes x + 1) * 2 ^ 24 + 0) / 2 ^ 23 % 2 = 0 := by omega
        simp
        omega
      · have : (w / 256 + (BN_num_bytes x + 1) * 2 ^ 24 + 2 ^ 23) / 2 ^ 23 % 2 = 1 := by omega
        simp
        omega

theorem GetCompact_narrow_formula_witness :
    ((BIGNUM.mk true 0x1234).mag <<< (8 * (3 - BN_num_bytes ⟨true, 0x1234⟩)) < 0x00800000 →
      GetCompact LP64 ⟨true, 0x1234⟩ >>> 24 = BN_num_bytes ⟨true, 0x1234⟩ ∧
      GetCompact LP64 ⟨true, 0x1234⟩ &&& 0x007fffff =
        (BIGNUM.mk true 0x1234).mag <<< (8 * (3 - BN_num_bytes ⟨true, 0x1234⟩))) ∧
    (¬ (BIGNUM.mk true 0x1234).mag <<< (8 * (3 - BN_num_bytes ⟨true, 0x1234⟩)) < 0x00800000 →
      GetCompact LP64 ⟨true, 0x1234⟩ >>> 24 = BN_num_bytes ⟨true, 0x1234⟩ + 1 ∧
      GetCompact LP64 ⟨true, 0x1234⟩ &&& 0x007fffff =
        ((BIGNUM.mk true 0x1234).mag <<< (8 * (3 - BN_num_bytes ⟨true, 0x1234⟩))) >>> 8) ∧
    (GetCompact LP64 ⟨true, 0x1234⟩ &&& 0x00800000 ≠ 0 ↔
      BN_is_negative ⟨true, 0x1234⟩ = true) ∧
    (BN_num_bytes ⟨true, 0x1234⟩ = 3 → (BIGNUM.mk true 0x1234).mag < 0x00800000 →
      GetCompact LP64 ⟨true, 0x1234⟩ &&& 0x007fffff = (BIGNUM.mk true 0x1234).mag) :=
  GetCompact_narrow_formula LP64 (by decide) ⟨true, 0x1234⟩ (by decide)

/-! ## The compact format: sign flag and truncation -/

/-- The sign flag of the compact form is the sign flag of the number, for every
size: the mantissa stays below `0x00800000` and the size byte above it. -/
theorem GetCompact_sign_flag (dm : DataModel) (hdm : 24 ≤ dm.BN_BITS2) (x : BIGNUM) :
    GetCompact dm x &&& 0x00800000 = if x.neg then 2 ^ 23 else 0 := by
  obtain ⟨hb24, hG⟩ := GetCompact_eq dm hdm x _ rfl
  rw [and_0x00800000, hG]
  generalize (if BN_num_bytes x ≤ 3 then x.mag * 2 ^ (8 * (3 - BN_num_bytes x))
    else x.mag / 2 ^ (8 * (BN_num_bytes x - 3))) = w at hb24 ⊢
  generalize BN_num_bytes x = n
  by_cases hw : w < 2 ^ 23
  · rw [if_pos hw]
    cases x.neg
    · have : (w + n * 2 ^ 24 % 2 ^ 32 + 0) / 2 ^ 23 % 2 = 0 := by omega
      simp
      omega
    · have : (w + n * 2 ^ 24 % 2 ^ 32 + 2 ^ 23) / 2 ^ 23 % 2 = 1 := by omega
      simp
      omega
  · rw [if_neg hw]
    cases x.neg
    · have : (w / 256 + (n + 1) * 2 ^ 24 % 2 ^ 32 + 0) / 2 ^ 23 % 2 = 0 := by omega
      simp
      omega
    · have : (w / 256 + (n + 1) * 2 ^ 24 % 2 ^ 32 + 2 ^ 23) / 2 ^ 23 % 2 = 1 := by omega
      simp
      omega

/-- C21: for every `x`, bit `0x00800000` of `GetCompact(x)` is set if and only
if `x < 0`, whatever the mantissa and the size are. -/
theorem GetCompact_sign_bit_iff_negative (dm : DataModel) (hdm : 24 ≤ dm.BN_BITS2)
    (x : CBigNum) (hc : x.canonical) :
    (GetCompact dm x &&& 0x00800000 ≠ 0 ↔ x.toInt < 0) ∧
    (GetCompact dm x &&& 0x00800000 ≠ 0 ↔ BN_is_negative x = true) := by
  rw [GetCompact_sign_flag dm hdm x, toInt_neg_iff]
  simp only [BN_is_negative]
  cases hx : x.neg
  · simp
  · have : x.mag ≠ 0 := hc hx
    simp [this]

theorem GetCompact_sign_bit_iff_negative_witness :
    (GetCompact LP64 (CBigNum_int (-0x80)) &&& 0x00800000 ≠ 0 ↔ (CBigNum_int (-0x80)).toInt < 0) ∧
    (GetCompact LP64 (CBigNum_int (-0x80)) &&& 0x00800000 ≠ 0 ↔
      BN_is_negative (CBigNum_int (-0x80)) = true) :=
  GetCompact_sign_bit_iff_negative LP64 (by decide) (CBigNum_int (-0x80)) (by decide)

/-- The compact round trip, for every size that fits the size byte: the sign
is kept and the magnitude loses its `compact_dropped_bits` low bits. -/
theorem compact_round_trip_truncates (dm : DataModel) (hdm : 24 ≤ dm.BN_BITS2) (x : BIGNUM)
    (hsz : BN_num_bytes x + 1 ≤ 255) :
    SetCompact (GetCompact dm x) = BN_set_negative
      ⟨false, x.mag / 2 ^ compact_dropped_bits x * 2 ^ compact_dropped_bits x⟩ x.neg := by
  by_cases hm : x.mag = 0
  · have h0 : BN_num_bytes x = 0 := by
      simp only [BN_num_bytes, BN_num_bits, hm]
      rfl
    obtain ⟨-, hG⟩ := GetCompact_eq dm hdm x _ rfl
    rw [h0, hm] at hG
    simp only [compact_dropped_bits, h0, hm]
    rw [hG]
    cases x.neg <;> decide
  · obtain ⟨k, hk, -, -, -, -⟩ := top_byte x hm
    have hk' : BN_num_bytes x = k + 1 := hk
    rw [hk'] at hsz
    obtain ⟨hlo, hhi⟩ := GetCompact_parts dm hdm x k hk' (by omega)
    by_cases hT : 128 ≤ x.mag / 256 ^ k
    · obtain ⟨hG, hw⟩ := hhi hT (by omega)
      have hd : compact_dropped_bits x = 8 * (k - 1) := by
        simp only [compact_dropped_bits, hk', Nat.add_sub_cancel]
        rw [if_neg (by omega)]
        congr 1
      rw [hG, SetCompact_of_parts _ _ _ hw, hd]
      congr 2
      by_cases h1 : k ≤ 1
      · interval_cases k <;> simp
      · rw [if_neg (by omega), if_neg h1, ← pow_256]
        have e : k + 2 - 3 = k - 1 := by omega
        rw [e, pow_256]
    · obtain ⟨hG, hw⟩ := hlo (by omega)
      have hd : compact_dropped_bits x = 8 * (k - 2) := by
        simp only [compact_dropped_bits, hk', Nat.add_sub_cancel]
        rw [if_pos (by omega)]
        congr 1
      rw [hG, SetCompact_of_parts _ _ _ hw, hd]
      congr 2
      by_cases h2 : k ≤ 2
      · interval_cases k <;> simp
      · rw [if_neg (by omega), if_neg h2, ← pow_256]
        have e : k + 1 - 3 = k - 2 := by omega
        rw [e, pow_256]

theorem compact_dropped_bits_le (x : BIGNUM) (hm : x.mag ≠ 0) :
    2 ^ compact_dropped_bits x ≤ x.mag := by
  obtain ⟨k, hk, -, hT0, -, -⟩ := top_byte x hm
  have hk' : BN_num_bytes x = k + 1 := hk
  have hqpos : 0 < (256 : Nat) ^ k := Nat.pos_pow_of_pos k (by norm_num)
  have hge : 256 ^ k ≤ x.mag := by
    have := Nat.div_mul_le_self x.mag (256 ^ k)
    have : 1 * 256 ^ k ≤ x.mag / 256 ^ k * 256 ^ k := Nat.mul_le_mul_right _ hT0
    omega
  have hd : compact_dropped_bits x ≤ 8 * k := by
    simp only [compact_dropped_bits, hk', Nat.add_sub_cancel]
    split_ifs <;> omega
  calc 2 ^ compact_dropped_bits x ≤ 2 ^ (8 * k) := Nat.pow_le_pow_right (by norm_num) hd
    _ = 256 ^ k := (pow_256 k).symm
    _ ≤ x.mag := hge

/-- C22: for every `x` with `|x| < 2^256` and magnitude byte length `size`,
`SetCompact(GetCompact(x))` has the sign of `x` and the magnitude
`(|x| >> k) << k`, where `k = max(0, 8*(size-3))` if the top magnitude byte is
below `0x80` and `k = max(0, 8*(size-2))` otherwise; so its magnitude never
exceeds `|x|` and differs from it by less than `2^k`. -/
theorem compact_round_trip_drops_low_bytes (dm : DataModel) (hdm : 24 ≤ dm.BN_BITS2)
    (x : CBigNum) (hc : x.canonical) (hx : x.mag < 2 ^ 256) :
    (SetCompact (GetCompact dm x)).mag
        = (x.mag >>> compact_dropped_bits x) <<< compact_dropped_bits x ∧
      BN_is_negative (SetCompact (GetCompact dm x)) = BN_is_negative x ∧
      ((SetCompact (GetCompact dm x)).toInt < 0 ↔ x.toInt < 0) ∧
      (SetCompact (GetCompact dm x)).mag ≤ x.mag ∧
      x.mag < (SetCompact (GetCompact dm x)).mag + 2 ^ compact_dropped_bits x := by
  have hbits : BN_num_bits x ≤ 256 := BN_num_bits_le_of_lt x 256 hx
  have hsz : BN_num_bytes x + 1 ≤ 255 := by
    simp only [BN_num_bytes]
    omega
  have key := compact_round_trip_truncates dm hdm x hsz
  have hge := compact_dropped_bits_le x
  generalize compact_dropped_bits x = k at key hge ⊢
  have hpos : 0 < 2 ^ k := Nat.pos_pow_of_pos k (by norm_num)
  have hdm := Nat.div_add_mod x.mag (2 ^ k)
  have hml := Nat.mod_lt x.mag hpos
  have hmag : (SetCompact (GetCompact dm x)).mag = x.mag / 2 ^ k * 2 ^ k := by
    rw [key]
    rfl
  have hle : x.mag / 2 ^ k * 2 ^ k ≤ x.mag := Nat.div_mul_le_self _ _
  have hnz : x.mag ≠ 0 → x.mag / 2 ^ k * 2 ^ k ≠ 0 := by
    intro h0
    have h1 : 0 < x.mag / 2 ^ k := Nat.div_pos (hge h0) hpos
    exact Nat.ne_of_gt (Nat.mul_pos h1 hpos)
  have hneg : (SetCompact (GetCompact dm x)).neg = x.neg := by
    rw [key]
    simp only [BN_set_negative, BN_is_zero]
    cases hn : x.neg
    · simp
    · have := hnz (hc hn)
      simp [this]
  refine ⟨?_, ?_, ?_, ?_, ?_⟩
  · rw [hmag, Nat.shiftRight_eq_div_pow, Nat.shiftLeft_eq]
  · simpa [BN_is_negative] using hneg
  · rw [toInt_neg_iff, toInt_neg_iff, hneg, hmag]
    constructor
    · rintro ⟨h1, h2⟩
      exact ⟨h1, fun h0 => h2 (by rw [h0]; simp)⟩
    · rintro ⟨h1, h2⟩
      exact ⟨h1, hnz h2⟩
  · rw [hmag]
    exact hle
  · rw [hmag]
    rw [Nat.mul_comm] at hdm
    omega

theorem compact_round_trip_drops_low_bytes_witness :
    ((SetCompact (GetCompact LP64 ⟨true, 0x92345678⟩)).mag
        = ((BIGNUM.mk true 0x92345678).mag >>> compact_dropped_bits ⟨true, 0x92345678⟩)
            <<< compact_dropped_bits ⟨true, 0x92345678⟩ ∧
      BN_is_negative (SetCompact (GetCompact LP64 ⟨true, 0x92345678⟩))
        = BN_is_negative ⟨true, 0x92345678⟩ ∧
      ((SetCompact (GetCompact LP64 ⟨true, 0x92345678⟩)).toInt < 0 ↔
        (BIGNUM.mk true 0x92345678).toInt < 0) ∧
      (SetCompact (GetCompact LP64 ⟨true, 0x92345678⟩)).mag ≤ (BIGNUM.mk true 0x92345678).mag ∧
      (BIGNUM.mk true 0x92345678).mag < (SetCompact (GetCompact LP64 ⟨true, 0x92345678⟩)).mag
        + 2 ^ compact_dropped_bits ⟨true, 0x92345678⟩) ∧
    compact_dropped_bits ⟨true, 0x92345678⟩ = 16 ∧
    SetCompact (GetCompact LP64 ⟨true, 0x92345678⟩) = ⟨true, 0x92340000⟩ ∧
    compact_dropped_bits ⟨false, 0x12345678⟩ = 8 ∧
    SetCompact (GetCompact LP64 ⟨false, 0x12345678⟩) = ⟨false, 0x12345600⟩ :=
  ⟨compact_round_trip_drops_low_bytes LP64 (by decide) ⟨true, 0x92345678⟩ (by decide)
    (by decide), by decide, by decide, by decide, by decide⟩

/-! ## The byte-vector codec -/

theorem BN_num_bits_eq_size (x : BIGNUM) : BN_num_bits x = Nat.size x.mag := by
  by_cases hm : x.mag = 0
  · simp [BN_num_bits, hm, numBitsAux]
  · have h1 := BN_num_bits_lt x
    have h2 := BN_num_bits_le x hm
    have h3 : Nat.size x.mag ≤ BN_num_bits x := Nat.size_le.mpr h1
    have h4 : BN_num_bits x - 1 < Nat.size x.mag := Nat.lt_size.mpr h2
    omega

theorem getvch_of_ne_zero (x : BIGNUM) (hm : x.mag ≠ 0) :
    getvch x = ((BN_bn2mpi x).drop 4).reverse ∧
      (getvch x).length = BN_num_bits x / 8 + 1 := by
  obtain ⟨-, h2, -⟩ := BN_mpi2bn_payload_bn2mpi x hm
  have hpos := BN_num_bits_pos x hm
  have hgt : ¬ BN_bn2mpi_size x ≤ 4 := by
    simp only [BN_bn2mpi_size]
    omega
  have hg : getvch x = ((BN_bn2mpi x).drop 4).reverse := by
    simp only [getvch, hgt, if_false]
  refine ⟨hg, ?_⟩
  rw [hg, List.length_reverse]
  have hs : BN_bn2mpi_size x = BN_num_bits x / 8 + 1 + 4 := by
    simp only [BN_bn2mpi_size]
    split_ifs <;> omega
  omega

theorem getvch_of_zero (x : BIGNUM) (hm : x.mag = 0) : getvch x = [] := by
  have hb : BN_num_bits x = 0 := by simp [BN_num_bits, hm, numBitsAux]
  simp [getvch, BN_bn2mpi_size, hb]

/-- C23: `getvch(x)` is the empty vector if and only if `x == 0`, and for every
`x != 0` it has exactly `floor(bitLength(|x|) / 8) + 1` bytes: the byte length
of the magnitude, and one byte more exactly when the top bit of the top
magnitude byte is set. -/
theorem getvch_length (x : CBigNum) :
    (getvch x = [] ↔ x.mag = 0) ∧
    (x.mag ≠ 0 →
      (getvch x).length = Nat.size x.mag / 8 + 1 ∧
      (getvch x).length = (Nat.size x.mag + 7) / 8
        + (if 0x80 ≤ x.mag / 256 ^ ((Nat.size x.mag + 7) / 8 - 1) then 1 else 0)) := by
  have hlen : x.mag ≠ 0 → (getvch x).length = Nat.size x.mag / 8 + 1 := by
    intro hm
    rw [← BN_num_bits_eq_size]
    exact (getvch_of_ne_zero x hm).2
  refine ⟨?_, fun hm => ⟨hlen hm, ?_⟩⟩
  · constructor
    · intro h
      by_contra hm
      have := hlen hm
      rw [h] at this
      simp at this
    · exact getvch_of_zero x
  · rw [hlen hm, ← BN_num_bits_eq_size]
    obtain ⟨k, hk, -, -, -, h8⟩ := top_byte x hm
    rw [hk, Nat.add_sub_cancel]
    by_cases hT : 128 ≤ x.mag / 256 ^ k
    · have := h8.mpr hT
      rw [if_pos hT]
      omega
    · have : ¬ BN_num_bits x % 8 = 0 := fun h => hT (h8.mp h)
      rw [if_neg hT]
      omega

theorem getvch_length_witness :
    ((getvch (CBigNum_int 0x80) = [] ↔ (CBigNum_int 0x80).mag = 0) ∧
    ((CBigNum_int 0x80).mag ≠ 0 →
      (getvch (CBigNum_int 0x80)).length = Nat.size (CBigNum_int 0x80).mag / 8 + 1 ∧
      (getvch (CBigNum_int 0x80)).length = (Nat.size (CBigNum_int 0x80).mag + 7) / 8
        + (if 0x80 ≤ (CBigNum_int 0x80).mag / 256 ^ ((Nat.size (CBigNum_int 0x80).mag + 7) / 8 - 1)
            then 1 else 0))) ∧
    getvch (CBigNum_int 0x80) = [0x80, 0x00] ∧ getvch (CBigNum_int 0x7f) = [0x7f] ∧
    getvch (CBigNum_int 0) = [] :=
  ⟨getvch_length (CBigNum_int 0x80), by decide, by decide, by decide⟩

theorem foldl_bytes (rest : List Nat) (acc : Nat) :
    rest.foldl (fun acc b => acc * 256 + b) acc
      = acc * 256 ^ rest.length + rest.foldl (fun acc b => acc * 256 + b) 0 := by
  induction rest generalizing acc with
  | nil => simp
  | cons b rest ih =>
    simp only [List.foldl_cons, List.length_cons]
    rw [ih (acc * 256 + b), ih (0 * 256 + b), pow_succ]
    ring

theorem BN_bin2bn_cons_bytes (b : Nat) (rest : List Nat) :
    BN_bin2bn (b :: rest) = b * 256 ^ rest.length + BN_bin2bn rest := by
  simp only [BN_bin2bn, List.foldl_cons]
  rw [foldl_bytes]
  simp

theorem BN_bin2bn_lt (P : List Nat) (h : ∀ b ∈ P, b < 256) :
    BN_bin2bn P < 256 ^ P.length := by
  induction P with
  | nil => simp [BN_bin2bn]
  | cons b rest ih =>
    rw [BN_bin2bn_cons_bytes, List.length_cons, pow_succ]
    have hb : b < 256 := h b (List.mem_cons_self _ _)
    have hr := ih (fun c hc => h c (List.mem_cons_of_mem _ hc))
    have : b * 256 ^ rest.length ≤ 255 * 256 ^ rest.length := Nat.mul_le_mul_right _ (by omega)
    omega

theorem BN_bin2bn_reverse (v : List Nat) : BN_bin2bn v.reverse = bytesLE_value v := by
  simp only [BN_bin2bn, bytesLE_value, List.foldl_reverse]

/-- What `BN_mpi2bn` reads from a payload `top :: rest` of bytes: the sign is
bit `0x80` of `top`, the magnitude is the payload with that bit cleared, and a
magnitude of zero has no sign. -/
theorem BN_mpi2bn_payload_cons (top : Nat) (rest : List Nat) (htop : top < 256)
    (h : ∀ b ∈ rest, b < 256) :
    BN_mpi2bn_payload (top :: rest) =
      ⟨decide (top &&& 0x80 ≠ 0) && !(BN_bin2bn ((top &&& 0x7f) :: rest) == 0),
        BN_bin2bn ((top &&& 0x7f) :: rest)⟩ := by
  have hr := BN_bin2bn_lt rest h
  have hq : (256 : Nat) ^ rest.length = 2 ^ (8 * rest.length) := pow_256 _
  simp only [BN_mpi2bn_payload, List.headD_cons]
  by_cases hT : 128 ≤ top
  · have hbit : top &&& 0x80 ≠ 0 := byte_and_0x80_ne_zero top hT htop
    have hmask : top &&& 0x7f = top - 128 := by
      interval_cases top <;> rfl
    have hval : BN_bin2bn (top :: rest)
        = BN_bin2bn ((top &&& 0x7f) :: rest) + 2 ^ (8 * rest.length + 7) := by
      rw [BN_bin2bn_cons_bytes, BN_bin2bn_cons_bytes, hmask, pow_add, ← hq]
      have : top = (top - 128) + 128 := by omega
      conv_lhs => rw [this]
      ring
    have hlt : BN_bin2bn ((top &&& 0x7f) :: rest) < 2 ^ (8 * rest.length + 7) := by
      rw [BN_bin2bn_cons_bytes, hmask, pow_add, ← hq]
      have : (top - 128) * 256 ^ rest.length ≤ 127 * 256 ^ rest.length :=
        Nat.mul_le_mul_right _ (by omega)
      omega
    simp only [hbit, ne_eq, not_false_eq_true, decide_True, if_true, hval]
    rw [clear_top_bit _ _ hlt]
  · have hbit : top &&& 0x80 = 0 := byte_and_0x80_eq_zero top (by omega)
    have hmask : top &&& 0x7f = top := (byte_mask_0x7f top (by omega)).1
    simp [hbit, hmask]

/-- C24, as the claim has it, fails on the encodings of a negative zero: bit
`0x80` of the most significant byte of `[0x80]` and of `[0x00, 0x80]` is set,
and `setvch` yields `0`, which is not negative. -/
theorem setvch_sign_bit_counterexample :
    ([0x80] : List Nat).getLastD 0 &&& 0x80 ≠ 0 ∧
    setvch BN_zero [0x80] = CBigNum_int 0 ∧ BN_is_negative (setvch BN_zero [0x80]) = false ∧
    ¬ (setvch BN_zero [0x80]).toInt < 0 ∧
    setvch (CBigNum_int 5) [0x00, 0x80] = CBigNum_int 0 := by
  decide

/-- C24 (amended): for every byte vector `v`, `setvch(v)` yields `0` when `v`
is empty, and otherwise the integer whose magnitude is `v` read little-endian
with bit `0x80` of its last (most significant) byte cleared, and which is
negative exactly when that bit was set and this magnitude is not zero. -/
theorem setvch_decode_formula (self : CBigNum) (v : List Nat) (hb : ∀ b ∈ v, b < 256)
    (hlen : v.length + 4 < 2 ^ 31) :
    (v = [] → setvch self v = CBigNum_int 0) ∧
    (v ≠ [] →
      (setvch self v).mag = bytesLE_value (v.dropLast ++ [v.getLastD 0 &&& 0x7f]) ∧
      (BN_is_negative (setvch self v) = true ↔
        (v.getLastD 0 &&& 0x80 ≠ 0 ∧ (setvch self v).mag ≠ 0)) ∧
      ((setvch self v).toInt < 0 ↔
        (v.getLastD 0 &&& 0x80 ≠ 0 ∧ (setvch self v).mag ≠ 0))) := by
  constructor
  · intro hv
    subst hv
    have := setvch_reverse self [] (by decide)
    simp only [List.reverse_nil] at this
    rw [this]
    decide
  · intro hv
    obtain ⟨front, top, rfl⟩ : ∃ front top, v = front ++ [top] :=
      ⟨v.dropLast, v.getLast hv, (List.dropLast_append_getLast hv).symm⟩
    have htop : top < 256 := hb top (by simp)
    have hfront : ∀ b ∈ front.reverse, b < 256 := by
      intro b hmem
      exact hb b (by simp at hmem; simp [hmem])
    have hset : setvch self (front ++ [top]) = BN_mpi2bn_payload (top :: front.reverse) := by
      have h := setvch_reverse self (top :: front.reverse) (by simpa using hlen)
      simpa using h
    rw [hset, BN_mpi2bn_payload_cons top front.reverse htop hfront]
    have hval : BN_bin2bn ((top &&& 0x7f) :: front.reverse)
        = bytesLE_value (front ++ [top &&& 0x7f]) := by
      rw [← BN_bin2bn_reverse]
      simp
    simp only [List.dropLast_concat, List.getLastD_concat, hval, BN_is_negative, toInt_neg_iff]
    simp

theorem setvch_decode_formula_witness :
    (([0x34, 0x92] : List Nat) = [] → setvch BN_zero [0x34, 0x92] = CBigNum_int 0) ∧
    (([0x34, 0x92] : List Nat) ≠ [] →
      (setvch BN_zero [0x34, 0x92]).mag
        = bytesLE_value (([0x34, 0x92] : List Nat).dropLast
            ++ [([0x34, 0x92] : List Nat).getLastD 0 &&& 0x7f]) ∧
      (BN_is_negative (setvch BN_zero [0x34, 0x92]) = true ↔
        (([0x34, 0x92] : List Nat).getLastD 0 &&& 0x80 ≠ 0 ∧
          (setvch BN_zero [0x34, 0x92]).mag ≠ 0)) ∧
      ((setvch BN_zero [0x34, 0x92]).toInt < 0 ↔
        (([0x34, 0x92] : List Nat).getLastD 0 &&& 0x80 ≠ 0 ∧
          (setvch BN_zero [0x34, 0x92]).mag ≠ 0))) :=
  setvch_decode_formula BN_zero [0x34, 0x92] (by decide) (by decide)

theorem getD_reverse_bytesBE (L m i : Nat) (hi : i < L) :
    (bytesBE L m).reverse.getD i 0 = m / 256 ^ i % 256 := by
  induction L with
  | zero => omega
  | succ k ih =>
    simp only [bytesBE, List.reverse_cons]
    by_cases hik : i < k
    · rw [List.getD_append _ _ _ _ (by simpa [length_bytesBE] using hik)]
      exact ih hik
    · have hk : i = k := by omega
      subst hk
      rw [List.getD_append_right _ _ _ _ (by simp [length_bytesBE])]
      simp [length_bytesBE]

theorem bytesBE_add_mul (k m c : Nat) : bytesBE k (m + c * 256 ^ k) = bytesBE k m := by
  rw [← bytesBE_mod k k (m + c * 256 ^ k) (le_refl k), Nat.add_mul_mod_self_right,
    bytesBE_mod k k m (le_refl k)]

/-- The vector `getvch` returns for a nonzero number: the reverse of the
big-endian bytes of the magnitude on `L = bits / 8 + 1` bytes, with the sign in
the top bit of those `L` bytes. -/
theorem getvch_eq (x : BIGNUM) (hm : x.mag ≠ 0) :
    getvch x = (bytesBE (BN_num_bits x / 8 + 1)
      (x.mag + if x.neg then 2 ^ (8 * (BN_num_bits x / 8 + 1) - 1) else 0)).reverse := by
  obtain ⟨k, hk, hT1, hT0, hmlt, h8⟩ := top_byte x hm
  have hqpos : 0 < (256 : Nat) ^ k := Nat.pos_pow_of_pos k (by norm_num)
  have hge : 256 ^ k ≤ x.mag := by
    have : 1 * 256 ^ k ≤ x.mag / 256 ^ k * 256 ^ k := Nat.mul_le_mul_right _ hT0
    have := Nat.div_mul_le_self x.mag (256 ^ k)
    omega
  have hpay := BN_bn2mpi_payload x k hge hmlt
  rw [(getvch_of_ne_zero x hm).1, hpay]
  congr 1
  have hTmod : x.mag / 256 ^ k % 256 = x.mag / 256 ^ k := Nat.mod_eq_of_lt hT1
  have hsplit : x.mag / 256 ^ k * 256 ^ k + x.mag % 256 ^ k = x.mag := Nat.div_add_mod' _ _
  by_cases hT : 128 ≤ x.mag / 256 ^ k
  · have hL : BN_num_bits x / 8 + 1 = k + 2 := by
      have := h8.mpr hT
      omega
    rw [if_pos hT, hL]
    have e1 : 8 * (k + 2) - 1 = 7 + 8 * (k + 1) := by omega
    have e2 : (2 : Nat) ^ (8 * (k + 2) - 1) = 128 * 256 ^ (k + 1) := by
      rw [e1, pow_add, ← pow_256]
      norm_num
    cases hn : x.neg
    · simp only [Bool.false_eq_true, if_false, Nat.add_zero, bytesBE]
      rw [Nat.div_eq_of_lt hmlt, hTmod]
    · simp only [if_true, e2, bytesBE]
      have hhi : (x.mag + 128 * 256 ^ (k + 1)) / 256 ^ (k + 1) % 256 = 128 := by
        rw [Nat.add_mul_div_right _ _ (Nat.pos_pow_of_pos _ (by norm_num)),
          Nat.div_eq_of_lt hmlt]
      have hmid : (x.mag + 128 * 256 ^ (k + 1)) / 256 ^ k % 256 = x.mag / 256 ^ k := by
        have : 128 * 256 ^ (k + 1) = (128 * 256) * 256 ^ k := by
          rw [pow_succ]
          ring
        rw [this, Nat.add_mul_div_right _ _ hqpos]
        omega
      have hlow : bytesBE k (x.mag + 128 * 256 ^ (k + 1)) = bytesBE k x.mag := by
        have : 128 * 256 ^ (k + 1) = (128 * 256) * 256 ^ k := by
          rw [pow_succ]
          ring
        rw [this, bytesBE_add_mul]
      rw [hhi, hmid, hlow]
  · have hL : BN_num_bits x / 8 + 1 = k + 1 := by
      have : ¬ BN_num_bits x % 8 = 0 := fun h => hT (h8.mp h)
      omega
    rw [if_neg hT, hL]
    have e1 : 8 * (k + 1) - 1 = 7 + 8 * k := by omega
    have e2 : (2 : Nat) ^ (8 * (k + 1) - 1) = 128 * 256 ^ k := by
      rw [e1, pow_add, ← pow_256]
      norm_num
    cases hn : x.neg
    · simp only [Bool.false_eq_true, if_false, Nat.add_zero, bytesBE, hTmod]
    · simp only [if_true, e2, bytesBE]
      have hhi : (x.mag + 128 * 256 ^ k) / 256 ^ k % 256 = x.mag / 256 ^ k ||| 0x80 := by
        rw [Nat.add_mul_div_right _ _ hqpos, byte_or_0x80 _ (by omega)]
        omega
      rw [hhi, bytesBE_add_mul]

/-- The last byte of `getvch`: the bits of the magnitude above the lower
`L - 1` bytes, which stay below `0x80`, and the sign in bit `0x80`. -/
theorem getvch_last (x : BIGNUM) (hm : x.mag ≠ 0) :
    x.mag < 2 ^ (8 * (BN_num_bits x / 8 + 1) - 1) ∧
    x.mag / 256 ^ (BN_num_bits x / 8) < 128 ∧
    (getvch x).getLastD 0 = x.mag / 256 ^ (BN_num_bits x / 8) + if x.neg then 128 else 0 := by
  have hlt := BN_num_bits_lt x
  have hqpos : 0 < (256 : Nat) ^ (BN_num_bits x / 8) := Nat.pos_pow_of_pos _ (by norm_num)
  have e1 : 8 * (BN_num_bits x / 8 + 1) - 1 = 7 + 8 * (BN_num_bits x / 8) := by omega
  have e2 : (2 : Nat) ^ (8 * (BN_num_bits x / 8 + 1) - 1) = 128 * 256 ^ (BN_num_bits x / 8) := by
    rw [e1, pow_add, ← pow_256]
    norm_num
  have hb : x.mag < 2 ^ (8 * (BN_num_bits x / 8 + 1) - 1) :=
    lt_of_lt_of_le hlt (Nat.pow_le_pow_right (by norm_num) (by omega))
  have ht : x.mag / 256 ^ (BN_num_bits x / 8) < 128 := by
    rw [Nat.div_lt_iff_lt_mul hqpos, ← e2]
    exact hb
  refine ⟨hb, ht, ?_⟩
  rw [getvch_eq x hm, e2]
  simp only [bytesBE, List.reverse_cons, List.getLastD_concat]
  cases x.neg
  · simp only [Bool.false_eq_true, if_false, Nat.add_zero]
    exact Nat.mod_eq_of_lt (by omega)
  · simp only [if_true]
    rw [Nat.add_mul_div_right _ _ hqpos]
    exact Nat.mod_eq_of_lt (by omega)

/-- C25, as the claim has it, fails: `getvch(1)` is `[0x01]` and `getvch(-1)`
is `[0x81]`, so the sign is carried, and `getvch(0x1234)` is `[0x34, 0x12]`,
least significant byte first. -/
theorem getvch_unsigned_big_endian_counterexample :
    getvch (CBigNum_int 1) = [0x01] ∧ getvch (op_neg (CBigNum_int 1)) = [0x81] ∧
    getvch (op_neg (CBigNum_int 1)) ≠ getvch (CBigNum_int 1) ∧
    getvch (CBigNum_int 0x1234) = [0x34, 0x12] ∧
    BN_bn2bin (CBigNum_int 0x1234) = [0x12, 0x34] ∧
    getvch (CBigNum_int 0x1234) ≠ BN_bn2bin (CBigNum_int 0x1234) := by
  decide

/-- C25 (amended): for every `x != 0`, `getvch(x)` is little-endian and signed:
with `L = floor(bitLength(|x|) / 8) + 1` it has `L` bytes, byte `i` is byte `i`
(weight `256^i`) of `|x|`, and bit `0x80` of the last byte, which no magnitude
bit reaches, is set exactly when `x` is negative; so `getvch(-x)` differs from
`getvch(x)`. -/
theorem getvch_little_endian_signed (x : CBigNum) (hm : x.mag ≠ 0) :
    (getvch x).length = Nat.size x.mag / 8 + 1 ∧
    x.mag < 2 ^ (8 * (Nat.size x.mag / 8 + 1) - 1) ∧
    (∀ i, i < Nat.size x.mag / 8 + 1 →
      (getvch x).getD i 0 =
        (x.mag + if BN_is_negative x then 2 ^ (8 * (Nat.size x.mag / 8 + 1) - 1) else 0)
          / 256 ^ i % 256) ∧
    (getvch x).getLastD 0 &&& 0x7f = x.mag / 256 ^ (Nat.size x.mag / 8) ∧
    ((getvch x).getLastD 0 &&& 0x80 ≠ 0 ↔ BN_is_negative x = true) ∧
    getvch (op_neg x) ≠ getvch x := by
  obtain ⟨hb, ht, hlast⟩ := getvch_last x hm
  have hnegx : op_neg x = ⟨!x.neg, x.mag⟩ := by
    simp [op_neg, BN_set_negative, BN_is_negative, BN_is_zero, hm]
  obtain ⟨-, -, hlast'⟩ := getvch_last ⟨!x.neg, x.mag⟩ hm
  have hbits : BN_num_bits (BIGNUM.mk (!x.neg) x.mag) = BN_num_bits x := rfl
  rw [hbits] at hlast'
  simp only [] at hlast'
  rw [BN_num_bits_eq_size] at hb ht hlast hlast'
  obtain ⟨m1, m2⟩ := byte_mask_0x7f _ ht
  have hor := byte_or_0x80 _ ht
  have hz := byte_and_0x80_eq_zero _ ht
  have hnz := byte_and_0x80_ne_zero (x.mag / 256 ^ (Nat.size x.mag / 8) + 128)
    (by omega) (by omega)
  refine ⟨?_, hb, ?_, ?_, ?_, ?_⟩
  · rw [← BN_num_bits_eq_size]
    exact (getvch_of_ne_zero x hm).2
  · intro i hi
    rw [getvch_eq x hm, BN_num_bits_eq_size]
    exact getD_reverse_bytesBE _ _ i hi
  · rw [hlast]
    cases x.neg
    · simpa using m1
    · simp only [if_true]
      rw [← hor]
      exact m2
  · rw [hlast]
    simp only [BN_is_negative]
    cases x.neg
    · simpa using hz
    · simpa using hnz
  · rw [hnegx]
    intro heq
    have h := congrArg (fun l => List.getLastD l 0) heq
    simp only [hlast, hlast'] at h
    cases hx : x.neg <;> simp [hx] at h

theorem getvch_little_endian_signed_witness :
    ((getvch (CBigNum_int (-0x1234))).length = Nat.size (CBigNum_int (-0x1234)).mag / 8 + 1 ∧
    (CBigNum_int (-0x1234)).mag < 2 ^ (8 * (Nat.size (CBigNum_int (-0x1234)).mag / 8 + 1) - 1) ∧
    (∀ i, i < Nat.size (CBigNum_int (-0x1234)).mag / 8 + 1 →
      (getvch (CBigNum_int (-0x1234))).getD i 0 =
        ((CBigNum_int (-0x1234)).mag + if BN_is_negative (CBigNum_int (-0x1234))
            then 2 ^ (8 * (Nat.size (CBigNum_int (-0x1234)).mag / 8 + 1) - 1) else 0)
          / 256 ^ i % 256) ∧
    (getvch (CBigNum_int (-0x1234))).getLastD 0 &&& 0x7f
      = (CBigNum_int (-0x1234)).mag / 256 ^ (Nat.size (CBigNum_int (-0x1234)).mag / 8) ∧
    ((getvch (CBigNum_int (-0x1234))).getLastD 0 &&& 0x80 ≠ 0 ↔
      BN_is_negative (CBigNum_int (-0x1234)) = true) ∧
    getvch (op_neg (CBigNum_int (-0x1234))) ≠ getvch (CBigNum_int (-0x1234))) ∧
    getvch (CBigNum_int (-0x1234)) = [0x34, 0x92] :=
  ⟨getvch_little_endian_signed (CBigNum_int (-0x1234)) (by decide), by decide⟩

/-! ## Zero has one representation -/

theorem canonical_zero (r : BIGNUM) (hc : r.canonical) (h0 : r.mag = 0) :
    op_eq r (CBigNum_int 0) = true ∧ BN_is_negative r = false := by
  cases r with
  | mk rn rm =>
    simp only [] at h0
    subst h0
    have hn : rn = false := by
      cases rn
      · rfl
      · exact absurd rfl (hc rfl)
    subst hn
    exact ⟨by decide, rfl⟩

theorem canonical_BN_sub (a b : BIGNUM) (ha : a.canonical) (hb : b.canonical) :
    (BN_sub a b).canonical := by
  cases a with
  | mk an am =>
    cases b with
    | mk bn bm =>
      simp only [BIGNUM.canonical] at ha hb ⊢
      simp only [BN_sub, BN_ucmp, BN_zero]
      cases an <;> cases bn <;> simp at ha hb ⊢ <;> (try split_ifs) <;> (try simp) <;> omega

theorem canonical_op_neg (a : BIGNUM) : (op_neg a).canonical := by
  simp only [op_neg, BN_set_negative, BN_is_zero, BIGNUM.canonical]
  simp

theorem canonical_BN_lshift (a : BIGNUM) (s : Nat) (ha : a.canonical) :
    (BN_lshift a s).canonical := by
  simp only [BN_lshift, BIGNUM.canonical] at ha ⊢
  intro h
  have hp : 0 < 2 ^ s := Nat.pos_pow_of_pos s (by norm_num)
  exact Nat.ne_of_gt (Nat.mul_pos (Nat.pos_of_ne_zero (ha h)) hp)

theorem canonical_op_shr_assign (a : BIGNUM) (s : Nat) : (op_shr_assign a s).canonical := by
  simp only [op_shr_assign]
  split_ifs
  · decide
  · simp [BN_rshift, BIGNUM.canonical]

theorem canonical_SetCompact (c : Nat) : (SetCompact c).canonical := by
  rw [SetCompact_eq]
  simp [BN_set_negative, BN_is_zero, BIGNUM.canonical]

theorem canonical_CBigNum_vch (v : List Nat) (hv : ∀ b ∈ v, b < 256)
    (hlen : v.length + 4 < 2 ^ 31) : (CBigNum_vch v).canonical := by
  by_cases hnil : v = []
  · subst hnil
    decide
  · obtain ⟨front, top, rfl⟩ : ∃ front top, v = front ++ [top] :=
      ⟨v.dropLast, v.getLast hnil, (List.dropLast_append_getLast hnil).symm⟩
    have htop : top < 256 := hv top (by simp)
    have hfront : ∀ b ∈ front.reverse, b < 256 := by
      intro b hmem
      exact hv b (by simp at hmem; simp [hmem])
    have hset : CBigNum_vch (front ++ [top]) = BN_mpi2bn_payload (top :: front.reverse) := by
      have h := setvch_reverse BN_zero (top :: front.reverse) (by simpa using hlen)
      simpa [CBigNum_vch] using h
    rw [hset, BN_mpi2bn_payload_cons top front.reverse htop hfront]
    simp [BIGNUM.canonical]

theorem canonical_BN_div (a b q r : BIGNUM) (ha : a.canonical) (h : BN_div a b = some (q, r)) :
    q.canonical ∧ r.canonical := by
  by_cases hb : BN_is_zero b = true
  · simp [BN_div, hb] at h
  · have hb' : BN_is_zero b = false := by simpa using hb
    obtain ⟨q1, r1, h1, -, -, hqs, -⟩ := BN_div_signs a b hb'
    obtain ⟨q2, r2, h2, hr2, -⟩ := BN_div_spec a b hb'
    rw [h] at h1 h2
    simp only [Option.some.injEq, Prod.mk.injEq] at h1 h2
    obtain ⟨rfl, rfl⟩ := h1
    obtain ⟨-, rfl⟩ := h2
    refine ⟨?_, hr2 ha⟩
    intro hq
    rw [hqs] at hq
    simp at hq
    exact hq.2

/-- C28: zero has a single representation: the result of every operation on
canonical operands, when its magnitude is zero, compares equal to `CBigNum(0)`
and is not negative; in particular `-CBigNum(0) == 0`, `a - a == 0`,
`SetCompact(c) == 0` for every `c` with the sign flag set and a decoded
magnitude of zero (and `GetCompact` of it has the sign flag clear), and
`setvch` of `[0x80]` is `0`. -/
theorem zero_single_representation (dm : DataModel) (hdm : 24 ≤ dm.BN_BITS2)
    (a b : CBigNum) (ha : a.canonical) (hb : b.canonical) (s c : Nat)
    (v : List Nat) (hv : ∀ b ∈ v, b < 256) (hlen : v.length + 4 < 2 ^ 31) :
    (∀ r ∈ [op_neg a, op_add a b, op_sub a b, op_mul a b, op_shl a s, op_shr a s,
        SetCompact c, CBigNum_vch v],
      r.mag = 0 → op_eq r (CBigNum_int 0) = true ∧ BN_is_negative r = false) ∧
    (∀ q, op_div a b = Except.ok q → q.mag = 0 →
      op_eq q (CBigNum_int 0) = true ∧ BN_is_negative q = false) ∧
    (∀ r, op_mod a b = Except.ok r → r.mag = 0 →
      op_eq r (CBigNum_int 0) = true ∧ BN_is_negative r = false) ∧
    op_eq (op_neg (CBigNum_int 0)) (CBigNum_int 0) = true ∧
    op_eq (op_sub a a) (CBigNum_int 0) = true ∧
    (c &&& 0x00800000 ≠ 0 → (SetCompact c).mag = 0 →
      op_eq (SetCompact c) (CBigNum_int 0) = true ∧
      GetCompact dm (SetCompact c) &&& 0x00800000 = 0) ∧
    op_eq (CBigNum_vch [0x80]) (CBigNum_int 0) = true := by
  refine ⟨?_, ?_, ?_, by decide, ?_, ?_, by decide⟩
  · intro r hr
    simp only [List.mem_cons, List.mem_singleton, List.not_mem_nil, or_false] at hr
    rcases hr with rfl | rfl | rfl | rfl | rfl | rfl | rfl | rfl
    · exact canonical_zero _ (canonical_op_neg a)
    · exact canonical_zero _ (canonical_BN_add a b ha hb)
    · exact canonical_zero _ (canonical_BN_sub a b ha hb)
    · exact canonical_zero _ (canonical_BN_mul a b)
    · exact canonical_zero _ (canonical_BN_lshift a s ha)
    · exact canonical_zero _ (canonical_op_shr_assign a s)
    · exact canonical_zero _ (canonical_SetCompact c)
    · exact canonical_zero _ (canonical_CBigNum_vch v hv hlen)
  · intro q hq
    cases hd : BN_div a b with
    | none => simp [op_div, hd] at hq
    | some p =>
      obtain ⟨q1, r1⟩ := p
      simp only [op_div, hd, Except.ok.injEq] at hq
      subst hq
      exact canonical_zero _ (canonical_BN_div a b q1 r1 ha hd).1
  · intro r hr
    cases hd : BN_div a b with
    | none => simp [op_mod, BN_mod, hd] at hr
    | some p =>
      obtain ⟨q1, r1⟩ := p
      simp only [op_mod, BN_mod, hd, Option.map_some', Except.ok.injEq] at hr
      subst hr
      exact canonical_zero _ (canonical_BN_div a b q1 r1 ha hd).2
  · have : op_sub a a = BN_zero := by
      simp [op_sub, BN_sub, BN_ucmp]
    rw [this]
    decide
  · intro _ h0
    have hz := canonical_zero _ (canonical_SetCompact c) h0
    refine ⟨hz.1, ?_⟩
    rw [GetCompact_sign_flag dm hdm]
    have : (SetCompact c).neg = false := hz.2
    simp [this]

theorem zero_single_representation_witness :
    (∀ r ∈ [op_neg (CBigNum_int 5), op_add (CBigNum_int 5) (CBigNum_int (-5)),
        op_sub (CBigNum_int 5) (CBigNum_int (-5)), op_mul (CBigNum_int 5) (CBigNum_int (-5)),
        op_shl (CBigNum_int 5) 3, op_shr (CBigNum_int 5) 3,
        SetCompact 0x01803456, CBigNum_vch [0x00, 0x80]],
      r.mag = 0 → op_eq r (CBigNum_int 0) = true ∧ BN_is_negative r = false) ∧
    (∀ q, op_div (CBigNum_int 5) (CBigNum_int (-5)) = Except.ok q → q.mag = 0 →
      op_eq q (CBigNum_int 0) = true ∧ BN_is_negative q = false) ∧
    (∀ r, op_mod (CBigNum_int 5) (CBigNum_int (-5)) = Except.ok r → r.mag = 0 →
      op_eq r (CBigNum_int 0) = true ∧ BN_is_negative r = false) ∧
    op_eq (op_neg (CBigNum_int 0)) (CBigNum_int 0) = true ∧
    op_eq (op_sub (CBigNum_int 5) (CBigNum_int 5)) (CBigNum_int 0) = true ∧
    (0x01803456 &&& 0x00800000 ≠ 0 → (SetCompact 0x01803456).mag = 0 →
      op_eq (SetCompact 0x01803456) (CBigNum_int 0) = true ∧
      GetCompact LP64 (SetCompact 0x01803456) &&& 0x00800000 = 0) ∧
    op_eq (CBigNum_vch [0x80]) (CBigNum_int 0) = true :=
  zero_single_representation LP64 (by decide) (CBigNum_int 5) (CBigNum_int (-5))
    (by decide) (by decide) 3 0x01803456 [0x00, 0x80] (by decide) (by decide)

/-! ## Compound assignment -/

/-- C29: for each of `+ - * / % << >>`, after `a op= b` the receiver holds the
value the free operator `a op b` returns; when `a / b` or `a % b` raises
(`b == 0`), `a /= b` and `a %= b` raise the same error and leave the receiver
unchanged. -/
theorem compound_assignment_agrees (a b : CBigNum) (s : Nat) :
    op_add_assign a b = op_add a b ∧ op_sub_assign a b = op_sub a b ∧
    op_mul_assign a b = op_mul a b ∧
    op_shl_assign a s = op_shl a s ∧ op_shr_assign a s = op_shr a s ∧
    (∀ q, op_div a b = Except.ok q → op_div_assign a b = (none, q)) ∧
    (∀ r, op_mod a b = Except.ok r → op_mod_assign a b = (none, r)) ∧
    (∀ e, op_div a b = Except.error e → op_div_assign a b = (some e, a)) ∧
    (∀ e, op_mod a b = Except.error e → op_mod_assign a b = (some e, a)) ∧
    (BN_is_zero b = true →
      (∃ e, op_div a b = Except.error e ∧ op_div_assign a b = (some e, a)) ∧
      (∃ e, op_mod a b = Except.error e ∧ op_mod_assign a b = (some e, a))) ∧
    (BN_is_zero b = false →
      (∃ q, op_div a b = Except.ok q ∧ op_div_assign a b = (none, q)) ∧
      (∃ r, op_mod a b = Except.ok r ∧ op_mod_assign a b = (none, r))) := by
  refine ⟨rfl, rfl, rfl, rfl, rfl, ?_, ?_, ?_, ?_, ?_, ?_⟩
  · intro q h
    simp [op_div_assign, h]
  · intro r h
    simp [op_mod_assign, h]
  · intro e h
    simp [op_div_assign, h]
  · intro e h
    simp [op_mod_assign, h]
  · intro hb
    constructor
    · refine ⟨"CBigNum::operator/ : BN_div failed", ?_, ?_⟩ <;>
        simp [op_div_assign, op_div, BN_div, hb]
    · refine ⟨"CBigNum::operator% : BN_div failed", ?_, ?_⟩ <;>
        simp [op_mod_assign, op_mod, BN_mod, BN_div, hb]
  · intro hb
    obtain ⟨q, r, hdiv, -⟩ := BN_div_spec a b hb
    constructor
    · exact ⟨q, by simp [op_div, hdiv], by simp [op_div_assign, op_div, hdiv]⟩
    · exact ⟨r, by simp [op_mod, BN_mod, hdiv], by simp [op_mod_assign, op_mod, BN_mod, hdiv]⟩

/-! ## `ToString` -/

theorem BN_div_pos (a d : Nat) (hd : d ≠ 0) :
    BN_div ⟨false, a⟩ ⟨false, d⟩ = some (⟨false, a / d⟩, ⟨false, a % d⟩) := by
  simp only [BN_div, BN_is_zero, BN_ucmp_lt_zero, BN_zero]
  by_cases h : a < d
  · simp [hd, h, Nat.div_eq_of_lt h, Nat.mod_eq_of_lt h]
  · simp [hd, h]

theorem getulong_small (dm : DataModel) (hW : 32 ≤ dm.BN_BITS2) (hL : 32 ≤ dm.ULONG_BITS)
    (r : Nat) (hr : r < 2 ^ 32) : getulong dm ⟨false, r⟩ % 2 ^ 32 = r := by
  have hW' : (2 : Nat) ^ 32 ≤ 2 ^ dm.BN_BITS2 := Nat.pow_le_pow_right (by norm_num) hW
  have hL' : (2 : Nat) ^ 32 ≤ 2 ^ dm.ULONG_BITS := Nat.pow_le_pow_right (by norm_num) hL
  have h1 : r < 2 ^ dm.BN_BITS2 := by omega
  have h2 : r % 2 ^ dm.ULONG_BITS = r := Nat.mod_eq_of_lt (lt_of_lt_of_le hr hL')
  simp only [getulong, BN_get_word, h1, if_true]
  rw [h2, Nat.mod_eq_of_lt hr]

/-- The loop of `ToString` on a non-negative number and a base of at least 2
collects the digits of the number, least significant first, and ends before
the fuel does. -/
theorem ToString_loop_digits (dm : DataModel) (hW : 32 ≤ dm.BN_BITS2)
    (hL : 32 ≤ dm.ULONG_BITS) (b : Nat) (hb2 : 2 ≤ b) (hb16 : b ≤ 16)
    (fuel m : Nat) (str : List Nat) (hm : m ≤ fuel) :
    ToString_loop dm ⟨false, b⟩ ⟨false, 0⟩ fuel ⟨false, m⟩ str
      = some (Except.ok (str ++ (Nat.digits b m).map ToString_digit)) := by
  induction fuel generalizing m str with
  | zero =>
    have h0 : m = 0 := by omega
    subst h0
    have hc : ¬ BN_cmp ⟨false, 0⟩ ⟨false, 0⟩ > 0 := by decide
    simp only [ToString_loop, hc, if_false]
    simp
  | succ fuel ih =>
    by_cases h0 : m = 0
    · subst h0
      have hc : ¬ BN_cmp ⟨false, 0⟩ ⟨false, 0⟩ > 0 := by decide
      simp only [ToString_loop, hc, if_false]
      simp
    · have hc : BN_cmp ⟨false, m⟩ ⟨false, 0⟩ > 0 := (BN_cmp_pos_gt m 0).mpr (by omega)
      have hlt : m % b < b := Nat.mod_lt _ (by omega)
      have hdiv : m / b < m := Nat.div_lt_self (by omega) (by omega)
      have hb0 : b ≠ 0 := by omega
      have h32 : m % b < 2 ^ 32 := lt_of_lt_of_le hlt (by omega)
      have hfu : m / b ≤ fuel := by omega
      simp only [ToString_loop, hc, if_true, BN_div_pos m b hb0]
      have hd : Nat.digits b m = (m % b) :: Nat.digits b (m / b) :=
        Nat.digits_def' (by omega) (by omega)
      rw [getulong_small dm hW hL _ h32, ih (m / b) _ hfu, hd]
      simp

/-- The string `ToString` returns, for a base from 2 to 16. -/
theorem ToString_eq (dm : DataModel) (hW : 32 ≤ dm.BN_BITS2) (hL : 32 ≤ dm.ULONG_BITS)
    (x : BIGNUM) (b : Nat) (hb2 : 2 ≤ b) (hb16 : b ≤ 16) :
    ToString dm x (b : Int) = some (Except.ok
      (if x.mag = 0 then cstr "0"
       else (if x.neg then cstr "-" else []) ++
         ((Nat.digits b x.mag).reverse.map ToString_digit))) := by
  have hB : CBigNum_int (b : Int) = ⟨false, b⟩ := CBigNum_int_of_nonneg b
  have h0 : CBigNum_int 0 = ⟨false, 0⟩ := CBigNum_int_of_nonneg 0
  have hbn : BN_set_negative x false = ⟨false, x.mag⟩ := by
    simp [BN_set_negative]
  simp only [ToString, hB, h0, hbn]
  by_cases hm : x.mag = 0
  · have hc : (BN_cmp ⟨false, x.mag⟩ ⟨false, 0⟩ == 0) = true := by
      rw [hm]
      decide
    rw [if_pos hc, if_pos hm]
  · have hc : (BN_cmp ⟨false, x.mag⟩ ⟨false, 0⟩ == 0) = false := by
      rw [beq_eq_false_iff_ne, ne_eq, BN_cmp_eq_zero_iff]
      simpa using hm
    simp only [hc, Bool.false_eq_true, if_false, hm]
    rw [ToString_loop_digits dm hW hL b hb2 hb16 _ _ _ (le_refl _)]
    simp only [Option.map_some', Except.map, List.nil_append, BN_is_negative]
    by_cases hx : x.neg = true <;> simp [hx, cstr]

theorem ToString_digit_mem (d : Nat) (h : d < 16) : ToString_digit d ∈ ToString_digits := by
  interval_cases d <;> decide

theorem HexDigit_ToString_digit (d : Nat) (h : d < 16) : HexDigit (ToString_digit d) = d := by
  interval_cases d <;> decide

theorem foldl_digits_reverse (b m : Nat) :
    (Nat.digits b m).reverse.foldl (fun acc d => acc * b + d) 0 = m := by
  rw [List.foldl_reverse]
  have h := Nat.ofDigits_digits b m
  rw [Nat.ofDigits_eq_foldr] at h
  simp only [Nat.cast_id] at h
  have e : (fun (x y : Nat) => y * b + x) = (fun x y => x + b * y) := by
    funext x y
    ring
  rw [e]
  exact h

/-- C26: for every `x` and base `b` with `2 <= b <= 16`, `ToString(x, b)`
returns `"0"` when `x == 0`, and otherwise a leading `-` exactly when `x < 0`
followed by digits drawn from `"0123456789abcdef"`, most significant first and
with no leading zero digit, whose base-`b` value is `|x|`. -/
theorem ToString_canonical_numeral (dm : DataModel) (hW : 32 ≤ dm.BN_BITS2)
    (hL : 32 ≤ dm.ULONG_BITS) (x : CBigNum) (b : Nat) (hb2 : 2 ≤ b) (hb16 : b ≤ 16) :
    (x.mag = 0 → ToString dm x (b : Int) = some (Except.ok (cstr "0"))) ∧
    (x.mag ≠ 0 → ∃ ds : List Nat,
      ToString dm x (b : Int) = some (Except.ok
        ((if BN_is_negative x then cstr "-" else []) ++ ds.map ToString_digit)) ∧
      ds ≠ [] ∧ ds.head? ≠ some 0 ∧ (∀ d ∈ ds, d < b) ∧
      (∀ c ∈ ds.map ToString_digit, c ∈ ToString_digits) ∧
      ds.foldl (fun acc d => acc * b + d) 0 = x.mag) := by
  have key := ToString_eq dm hW hL x b hb2 hb16
  constructor
  · intro hm
    rw [key, if_pos hm]
  · intro hm
    rw [if_neg hm] at key
    have hlt : ∀ d ∈ (Nat.digits b x.mag).reverse, d < b := by
      intro d hd
      exact Nat.digits_lt_base (by omega) (List.mem_reverse.mp hd)
    have hne : Nat.digits b x.mag ≠ [] := Nat.digits_ne_nil_iff_ne_zero.mpr hm
    refine ⟨(Nat.digits b x.mag).reverse, key, ?_, ?_, hlt, ?_, foldl_digits_reverse b x.mag⟩
    · simpa using hne
    · rw [List.head?_reverse, List.getLast?_eq_getLast _ hne]
      intro h
      exact Nat.getLast_digit_ne_zero b hm (Option.some.inj h)
    · intro c hc
      obtain ⟨d, hd, rfl⟩ := List.mem_map.mp hc
      exact ToString_digit_mem d (by have := hlt d hd; omega)

theorem ToString_canonical_numeral_witness :
    (((CBigNum_int (-255)).mag = 0 →
      ToString LP64 (CBigNum_int (-255)) ((16 : Nat) : Int) = some (Except.ok (cstr "0"))) ∧
    ((CBigNum_int (-255)).mag ≠ 0 → ∃ ds : List Nat,
      ToString LP64 (CBigNum_int (-255)) ((16 : Nat) : Int) = some (Except.ok
        ((if BN_is_negative (CBigNum_int (-255)) then cstr "-" else [])
          ++ ds.map ToString_digit)) ∧
      ds ≠ [] ∧ ds.head? ≠ some 0 ∧ (∀ d ∈ ds, d < 16) ∧
      (∀ c ∈ ds.map ToString_digit, c ∈ ToString_digits) ∧
      ds.foldl (fun acc d => acc * 16 + d) 0 = (CBigNum_int (-255)).mag)) ∧
    ToString LP64 (CBigNum_int 0) 10 = some (Except.ok (cstr "0")) ∧
    ToString LP64 (CBigNum_int (-255)) 16 = some (Except.ok (cstr "-ff")) :=
  ⟨ToString_canonical_numeral LP64 (by decide) (by decide) (CBigNum_int (-255)) 16
    (by decide) (by decide), by decide, by decide⟩

/-! ## `SetHex` -/

theorem HexDigit_nonneg (c : Nat) (h : HexDigit c ≠ -1) : 0 ≤ HexDigit c := by
  unfold HexDigit at h ⊢
  simp only [Char.reduceToNat] at h ⊢
  split_ifs at h ⊢ <;> omega

theorem HexDigit_lt (c : Nat) : HexDigit c < 16 := by
  unfold HexDigit
  simp only [Char.reduceToNat]
  split_ifs <;> omega

theorem isspace_of_hex (c : Nat) (h : HexDigit c ≠ -1) : isspace c = false := by
  unfold HexDigit at h
  simp only [Char.reduceToNat] at h
  simp only [isspace, Char.reduceToNat]
  split_ifs at h <;> simp <;> omega

theorem hex_ne_minus (c : Nat) (h : HexDigit c ≠ -1) : c ≠ 45 := by
  intro hc
  subst hc
  exact h (by decide)

theorem tolower_of_hex (c : Nat) (h : HexDigit c ≠ -1) : tolower c ≠ 120 := by
  unfold HexDigit at h
  simp only [Char.reduceToNat] at h
  simp only [tolower, Char.reduceToNat]
  split_ifs at h ⊢ <;> omega

theorem tolower_eq_x (c : Nat) (h : tolower c = 120) : c = 120 ∨ c = 88 := by
  simp only [tolower, Char.reduceToNat] at h
  split_ifs at h <;> omega

theorem space_ne (c : Nat) (h : isspace c = true) : c ≠ 45 ∧ c ≠ 48 := by
  simp only [isspace, Char.reduceToNat] at h
  simp at h
  omega

theorem skip_space_append (W rest : List Nat) (hW : ∀ c ∈ W, isspace c = true) :
    skip_space (W ++ rest) = skip_space rest := by
  induction W with
  | nil => rfl
  | cons w W ih =>
    have hw : isspace w = true := hW w (List.mem_cons_self _ _)
    simp only [List.cons_append, skip_space, hw, if_true]
    exact ih (fun c hc => hW c (List.mem_cons_of_mem _ hc))

theorem skip_space_of_head (l : List Nat) (h : ∀ c rest, l = c :: rest → isspace c = false) :
    skip_space l = l := by
  cases l with
  | nil => rfl
  | cons c rest => simp [skip_space, h c rest rfl]

theorem skip_0x_of_head (l : List Nat) (h : cstr_head l ≠ 48) : skip_0x l = l := by
  cases l with
  | nil => rfl
  | cons c0 rest =>
    cases rest with
    | nil => rfl
    | cons c1 rest =>
      have : c0 ≠ 48 := by simpa [cstr_head] using h
      simp [skip_0x, this]

/-- The digit loop reads a run of hex digits that ends at the end of the string
or at a character that is no hex digit, and adds them to the number in base
16. -/
theorem SetHex_loop_append (D G : List Nat) (acc : Nat) (hD : ∀ c ∈ D, HexDigit c ≠ -1)
    (hG : ∀ g rest, G = g :: rest → HexDigit g = -1) :
    SetHex_loop (D ++ G) ⟨false, acc⟩
      = ⟨false, D.foldl (fun a c => a * 16 + (HexDigit c).toNat) acc⟩ := by
  induction D generalizing acc with
  | nil =>
    cases G with
    | nil => rfl
    | cons g rest => simp [SetHex_loop, hG g rest rfl]
  | cons d D ih =>
    have hd : HexDigit d ≠ -1 := hD d (List.mem_cons_self _ _)
    have hn : HexDigit d = ((HexDigit d).toNat : Int) :=
      (Int.toNat_of_nonneg (HexDigit_nonneg d hd)).symm
    have hstep : op_add_assign (op_shl_assign ⟨false, acc⟩ 4) (CBigNum_int (HexDigit d))
        = ⟨false, acc * 16 + (HexDigit d).toNat⟩ := by
      rw [hn, CBigNum_int_of_nonneg]
      simp only [op_add_assign, op_shl_assign, BN_lshift, BN_add_pos, Int.toNat_ofNat]
      norm_num
    simp only [List.cons_append, SetHex_loop, hd, ne_eq, not_false_eq_true, if_true,
      List.foldl_cons]
    rw [hstep]
    exact ih _ (fun c hc => hD c (List.mem_cons_of_mem _ hc))

/-- `SetHex` in steps: the string after the leading whitespace, the sign, and
the string the digit loop starts at. -/
theorem SetHex_steps (str p1 p4 : List Nat) (f : Bool) (h1 : skip_space str = p1)
    (hf : decide (cstr_head p1 = 45) = f)
    (h4 : skip_space (skip_0x (if f then p1.tail else p1)) = p4) :
    SetHex str = if f then op_sub (CBigNum_int 0) (SetHex_loop p4 (CBigNum_int 0))
      else SetHex_loop p4 (CBigNum_int 0) := by
  subst h1 hf h4
  simp only [SetHex, Char.reduceToNat]

theorem op_sub_zero_pos (v : Nat) :
    op_sub (CBigNum_int 0) ⟨false, v⟩ = BN_set_negative ⟨false, v⟩ true := by
  have h0 : CBigNum_int 0 = ⟨false, 0⟩ := CBigNum_int_of_nonneg 0
  rw [h0]
  by_cases hv : v = 0
  · subst hv
    decide
  · have hpos : 0 < v := Nat.pos_of_ne_zero hv
    simp [op_sub, BN_sub, BN_ucmp, BN_set_negative, BN_is_zero, hv, hpos]

/-- `SetHex` on a string made of whitespace, a sign, a `0x`, whitespace, hex
digits and a rest that stops the parser. -/
theorem SetHex_of_parts (W1 S P W2 D G : List Nat)
    (hW1 : ∀ c ∈ W1, isspace c = true) (hS : S = [] ∨ S = cstr "-")
    (hP : P = [] ∨ P = cstr "0x" ∨ P = cstr "0X")
    (hW2 : ∀ c ∈ W2, isspace c = true) (hD : ∀ c ∈ D, HexDigit c ≠ -1)
    (hG : G = [] ∨ ∃ g rest, G = g :: rest ∧ HexDigit g = -1 ∧ g ≠ 120 ∧ g ≠ 88 ∧
      (D = [] → isspace g = false ∧ (S = [] → P = [] → g ≠ 45))) :
    SetHex (W1 ++ S ++ P ++ W2 ++ D ++ G)
      = BN_set_negative ⟨false, hex_value D⟩ (decide (S = cstr "-")) := by
  have eminus : cstr "-" = [45] := by decide
  have e0x : cstr "0x" = [48, 120] := by decide
  have e0X : cstr "0X" = [48, 88] := by decide
  rw [eminus] at hS ⊢
  rw [e0x, e0X] at hP
  -- the string the digit loop starts at
  have hGstop : ∀ g rest, G = g :: rest → HexDigit g = -1 := by
    intro g rest hg
    rcases hG with h | ⟨g', rest', h, hh, -⟩
    · rw [h] at hg
      cases hg
    · rw [h] at hg
      cases hg
      exact hh
  have hT3 : SetHex_loop (D ++ G) (CBigNum_int 0) = ⟨false, hex_value D⟩ := by
    have h0 : CBigNum_int 0 = ⟨false, 0⟩ := CBigNum_int_of_nonneg 0
    rw [h0]
    exact SetHex_loop_append D G 0 hD hGstop
  have hT1 : skip_space (D ++ G) = D ++ G := by
    apply skip_space_of_head
    intro c rest hc
    cases D with
    | nil =>
      rcases hG with h | ⟨g', rest', h, -, -, -, hsp⟩
      · rw [h] at hc
        cases hc
      · rw [h] at hc
        cases hc
        exact (hsp rfl).1
    | cons d D' =>
      cases hc
      exact isspace_of_hex _ (hD _ (List.mem_cons_self _ _))
  have hT2 : skip_0x (D ++ G) = D ++ G := by
    cases D with
    | nil =>
      apply skip_0x_of_head
      rcases hG with h | ⟨g', rest', h, hh, -⟩
      · rw [h]
        decide
      · rw [h]
        simp only [List.nil_append, cstr_head, List.headD_cons]
        intro h48
        rw [h48] at hh
        exact absurd hh (by decide)
    | cons d D' =>
      cases D' with
      | nil =>
        rcases hG with h | ⟨g', rest', h, -, hx, hX, -⟩
        · rw [h]
          rfl
        · rw [h]
          have : tolower g' ≠ 120 := fun ht => by
            rcases tolower_eq_x g' ht with h1 | h1
            · exact hx h1
            · exact hX h1
          simp [skip_0x, this]
      | cons d' D'' =>
        have : tolower d' ≠ 120 := tolower_of_hex d' (hD d' (by simp))
        simp [skip_0x, this]
  have hT4 : S = [] → P = [] → cstr_head (D ++ G) ≠ 45 := by
    intro hs hp
    cases D with
    | nil =>
      rcases hG with h | ⟨g', rest', h, -, -, -, hsp⟩
      · rw [h]
        decide
      · rw [h]
        simpa [cstr_head] using (hsp rfl).2 hs hp
    | cons d D' =>
      simpa [cstr_head] using hex_ne_minus d (hD d (List.mem_cons_self _ _))
  -- the same with the second run of whitespace in front
  have hU1 : skip_space (W2 ++ (D ++ G)) = D ++ G := by
    rw [skip_space_append W2 _ hW2, hT1]
  have hU2 : skip_0x (W2 ++ (D ++ G)) = W2 ++ (D ++ G) := by
    cases W2 with
    | nil => exact hT2
    | cons w W2' =>
      apply skip_0x_of_head
      simpa [cstr_head] using (space_ne w (hW2 w (List.mem_cons_self _ _))).2
  have hstr : W1 ++ S ++ P ++ W2 ++ D ++ G = W1 ++ (S ++ (P ++ (W2 ++ (D ++ G)))) := by
    simp only [List.append_assoc]
  rw [hstr]
  generalize D ++ G = T at hT1 hT2 hT3 hT4 hU1 hU2
  rcases hS with hS | hS
  · -- no sign
    subst hS
    rcases hP with hP | hP | hP
    · subst hP
      have h1 : skip_space (W1 ++ ([] ++ ([] ++ (W2 ++ T)))) = T := by
        rw [skip_space_append W1 _ hW1]
        exact hU1
      have hf : decide (cstr_head T = 45) = false := by
        simpa using hT4 rfl rfl
      rw [SetHex_steps _ T T false h1 hf (by simp [hT2, hT1]), hT3]
      simp [BN_set_negative]
    · subst hP
      have h1 : skip_space (W1 ++ ([] ++ ([48, 120] ++ (W2 ++ T)))) = 48 :: 120 :: (W2 ++ T) := by
        rw [skip_space_append W1 _ hW1]
        rfl
      rw [SetHex_steps _ _ T false h1 (by simp [cstr_head])
        (by simp only [Bool.false_eq_true, if_false]; exact hU1), hT3]
      simp [BN_set_negative]
    · subst hP
      have h1 : skip_space (W1 ++ ([] ++ ([48, 88] ++ (W2 ++ T)))) = 48 :: 88 :: (W2 ++ T) := by
        rw [skip_space_append W1 _ hW1]
        rfl
      rw [SetHex_steps _ _ T false h1 (by simp [cstr_head])
        (by simp only [Bool.false_eq_true, if_false]; exact hU1), hT3]
      simp [BN_set_negative]
  · -- a minus sign
    subst hS
    rcases hP with hP | hP | hP
    · subst hP
      have h1 : skip_space (W1 ++ ([45] ++ ([] ++ (W2 ++ T)))) = 45 :: (W2 ++ T) := by
        rw [skip_space_append W1 _ hW1]
        rfl
      rw [SetHex_steps _ _ T true h1 (by simp [cstr_head])
        (by simp only [if_true, List.tail_cons]; rw [hU2]; exact hU1), hT3, op_sub_zero_pos]
      simp
    · subst hP
      have h1 : skip_space (W1 ++ ([45] ++ ([48, 120] ++ (W2 ++ T))))
          = 45 :: 48 :: 120 :: (W2 ++ T) := by
        rw [skip_space_append W1 _ hW1]
        rfl
      rw [SetHex_steps _ _ T true h1 (by simp [cstr_head])
        (by simp only [if_true, List.tail_cons]; exact hU1), hT3, op_sub_zero_pos]
      simp
    · subst hP
      have h1 : skip_space (W1 ++ ([45] ++ ([48, 88] ++ (W2 ++ T))))
          = 45 :: 48 :: 88 :: (W2 ++ T) := by
        rw [skip_space_append W1 _ hW1]
        rfl
      rw [SetHex_steps _ _ T true h1 (by simp [cstr_head])
        (by simp only [if_true, List.tail_cons]; exact hU1), hT3, op_sub_zero_pos]
      simp

/-- C27, as the claim has it, fails where the digit run `D` is empty and the
ignored rest `G` begins with whitespace or with the sign: `"0x 5"` is
`P = "0x"`, `D = ""`, `G = " 5"`, and `"-5"` is `D = ""`, `G = "-5"`, both of
the form of the claim with the value `0`, and `SetHex` yields `5` and `-5`. -/
theorem SetHex_empty_digits_counterexample :
    cstr "0x 5" = [] ++ [] ++ cstr "0x" ++ [] ++ [] ++ cstr " 5" ∧
    HexDigit ' '.toNat = -1 ∧ ' '.toNat ≠ 'x'.toNat ∧ ' '.toNat ≠ 'X'.toNat ∧
    hex_value [] = 0 ∧ SetHex (cstr "0x 5") = CBigNum_int 5 ∧
    cstr "-5" = [] ++ [] ++ [] ++ [] ++ [] ++ cstr "-5" ∧
    HexDigit '-'.toNat = -1 ∧ '-'.toNat ≠ 'x'.toNat ∧ '-'.toNat ≠ 'X'.toNat ∧
    SetHex (cstr "-5") = CBigNum_int (-5) := by
  decide

/-- C27 (amended): for every string `W1 S P W2 D G`, where `W1` and `W2` are
runs of whitespace, `S` is empty or `"-"`, `P` is empty, `"0x"` or `"0X"`, `D`
is a run of hex digits, and `G` is empty or begins with a character that is no
hex digit, not `x` or `X`, and, when `D` is empty, no whitespace and (when `S`
and `P` are empty too) not `-`, `SetHex` yields the base-16 value of `D`,
negated when `S` is `"-"`; `G` is ignored and nothing is raised. -/
theorem SetHex_lenient_parse (W1 S P W2 D G : List Nat)
    (hW1 : ∀ c ∈ W1, isspace c = true) (hS : S = [] ∨ S = cstr "-")
    (hP : P = [] ∨ P = cstr "0x" ∨ P = cstr "0X")
    (hW2 : ∀ c ∈ W2, isspace c = true) (hD : ∀ c ∈ D, HexDigit c ≠ -1)
    (hG : G = [] ∨ ∃ g rest, G = g :: rest ∧ HexDigit g = -1 ∧
      g ≠ 'x'.toNat ∧ g ≠ 'X'.toNat ∧
      (D = [] → isspace g = false ∧ (S = [] → P = [] → g ≠ '-'.toNat))) :
    (SetHex (W1 ++ S ++ P ++ W2 ++ D ++ G)).toInt
        = (if S = cstr "-" then -(hex_value D : Int) else (hex_value D : Int)) ∧
      (SetHex (W1 ++ S ++ P ++ W2 ++ D ++ G)).mag = hex_value D ∧
      (SetHex (W1 ++ S ++ P ++ W2 ++ D ++ G)).canonical := by
  have key := SetHex_of_parts W1 S P W2 D G hW1 hS hP hW2 hD
    (by simpa only [Char.reduceToNat] using hG)
  rw [key]
  refine ⟨?_, rfl, ?_⟩
  · by_cases hs : S = cstr "-"
    · simp only [hs, decide_True, if_true]
      by_cases hv : hex_value D = 0
      · simp [BN_set_negative, BN_is_zero, BIGNUM.toInt, hv]
      · simp [BN_set_negative, BN_is_zero, BIGNUM.toInt, hv]
    · simp [hs, BN_set_negative, BIGNUM.toInt]
  · simp [BN_set_negative, BN_is_zero, BIGNUM.canonical]

theorem SetHex_lenient_parse_witness :
    ((SetHex (cstr " " ++ [] ++ cstr "0x" ++ [] ++ cstr "1A" ++ cstr "zz")).toInt
        = (if ([] : List Nat) = cstr "-" then -(hex_value (cstr "1A") : Int)
            else (hex_value (cstr "1A") : Int)) ∧
      (SetHex (cstr " " ++ [] ++ cstr "0x" ++ [] ++ cstr "1A" ++ cstr "zz")).mag
        = hex_value (cstr "1A") ∧
      (SetHex (cstr " " ++ [] ++ cstr "0x" ++ [] ++ cstr "1A" ++ cstr "zz")).canonical) ∧
    hex_value (cstr "1A") = 26 ∧
    SetHex (cstr " 0x1A") = CBigNum_int 26 ∧ SetHex (cstr "-0x10") = CBigNum_int (-16) :=
  ⟨SetHex_lenient_parse (cstr " ") [] (cstr "0x") [] (cstr "1A") (cstr "zz")
    (by decide) (by decide) (by decide) (by decide) (by decide)
    (Or.inr ⟨'z'.toNat, cstr "z", by decide, by decide, by decide, by decide, by decide⟩),
    by decide, by decide, by decide⟩

/-! ## The hex string round trip -/

theorem hex_value_digits (ds : List Nat) (h : ∀ d ∈ ds, d < 16) (acc : Nat) :
    (ds.map ToString_digit).foldl (fun a c => a * 16 + (HexDigit c).toNat) acc
      = ds.foldl (fun a d => a * 16 + d) acc := by
  induction ds generalizing acc with
  | nil => rfl
  | cons d ds ih =>
    have hd : HexDigit (ToString_digit d) = d :=
      HexDigit_ToString_digit d (h d (List.mem_cons_self _ _))
    simp only [List.map_cons, List.foldl_cons, hd, Int.toNat_ofNat]
    exact ih (fun e he => h e (List.mem_cons_of_mem _ he)) _

/-- C30: for every `x`, zero and negatives included, `GetHex` returns a string
and `SetHex` on it yields a value equal to `x`. -/
theorem SetHex_GetHex (dm : DataModel) (hW : 32 ≤ dm.BN_BITS2) (hL : 32 ≤ dm.ULONG_BITS)
    (x : CBigNum) (hc : x.canonical) :
    ∃ s, GetHex dm x = some (Except.ok s) ∧ SetHex s = x ∧ op_eq (SetHex s) x = true := by
  have key := ToString_eq dm hW hL x 16 (by norm_num) (by norm_num)
  have hG : GetHex dm x = ToString dm x ((16 : Nat) : Int) := rfl
  rw [← hG] at key
  refine ⟨_, key, ?_⟩
  have hmain : SetHex (if x.mag = 0 then cstr "0"
      else (if x.neg then cstr "-" else []) ++
        ((Nat.digits 16 x.mag).reverse.map ToString_digit)) = x := by
    by_cases hm : x.mag = 0
    · rw [if_pos hm]
      cases x with
      | mk xn xm =>
        simp only [] at hm
        subst hm
        have hn : xn = false := by
          cases xn
          · rfl
          · exact absurd rfl (hc rfl)
        subst hn
        decide
    · rw [if_neg hm]
      have hlt : ∀ d ∈ (Nat.digits 16 x.mag).reverse, d < 16 := by
        intro d hd
        exact Nat.digits_lt_base (by norm_num) (List.mem_reverse.mp hd)
      have hD : ∀ c ∈ (Nat.digits 16 x.mag).reverse.map ToString_digit, HexDigit c ≠ -1 := by
        intro c hcm
        obtain ⟨d, hd, rfl⟩ := List.mem_map.mp hcm
        rw [HexDigit_ToString_digit d (hlt d hd)]
        omega
      have hval : hex_value ((Nat.digits 16 x.mag).reverse.map ToString_digit) = x.mag := by
        simp only [hex_value]
        rw [hex_value_digits _ hlt, foldl_digits_reverse]
      have hparts := SetHex_of_parts [] (if x.neg then cstr "-" else []) [] []
        ((Nat.digits 16 x.mag).reverse.map ToString_digit) []
        (by simp) (by cases x.neg <;> simp) (Or.inl rfl) (by simp) hD (Or.inl rfl)
      simp only [List.nil_append, List.append_nil] at hparts
      rw [hparts, hval]
      have eminus : cstr "-" = [45] := by decide
      cases x with
      | mk xn xm =>
        simp only [] at hm
        cases xn
        · simp [BN_set_negative, eminus]
        · simp [BN_set_negative, BN_is_zero, hm]
  exact ⟨hmain, by rw [hmain, op_eq_iff]⟩

theorem SetHex_GetHex_witness :
    (∃ s, GetHex LP64 (CBigNum_int (-255)) = some (Except.ok s) ∧
      SetHex s = CBigNum_int (-255) ∧ op_eq (SetHex s) (CBigNum_int (-255)) = true) ∧
    GetHex LP64 (CBigNum_int (-255)) = some (Except.ok (cstr "-ff")) ∧
    SetHex (cstr "-ff") = CBigNum_int (-255) ∧
    GetHex LP64 (CBigNum_int 0) = some (Except.ok (cstr "0")) ∧
    SetHex (cstr "0") = CBigNum_int 0 :=
  ⟨SetHex_GetHex LP64 (by decide) (by decide) (CBigNum_int (-255)) (by decide),
    by decide, by decide, by decide, by decide⟩

/-! ## The compact format: order and idempotence -/

theorem mantissa_small (v a b : Nat) (h : a + b = 3) : v * 256 ^ 3 / 256 ^ b = v * 256 ^ a := by
  rw [← h, pow_add, ← Nat.mul_assoc]
  exact Nat.mul_div_cancel _ (Nat.pos_pow_of_pos _ (by norm_num))

theorem mantissa_large (v b t : Nat) (h : b = 3 + t) : v * 256 ^ 3 / 256 ^ b = v / 256 ^ t := by
  rw [h, pow_add, Nat.mul_comm v]
  exact Nat.mul_div_mul_left _ _ (Nat.pos_pow_of_pos _ (by norm_num))

/-- The compact form by the effective size `e` (the byte length, one more when
the top byte is `0x80` or above): `256^(e-1) <= 2*v < 256^e` fixes `e`, and
the mantissa is `v * 256^3 / 256^e`. -/
theorem GetCompact_of_form (dm : DataModel) (hdm : 24 ≤ dm.BN_BITS2) (f : Bool) (v e : Nat)
    (he1 : 1 ≤ e) (he : e ≤ 255) (h1 : 256 ^ (e - 1) ≤ 2 * v) (h2 : 2 * v < 256 ^ e) :
    GetCompact dm ⟨f, v⟩ = v * 256 ^ 3 / 256 ^ e + e * 2 ^ 24 + (if f then 2 ^ 23 else 0) := by
  have hv : (BIGNUM.mk f v).mag ≠ 0 := by
    intro h0
    simp only [] at h0
    have : 0 < 256 ^ (e - 1) := Nat.pos_pow_of_pos _ (by norm_num)
    omega
  obtain ⟨k, hk, hT1, hT0, hmlt, -⟩ := top_byte ⟨f, v⟩ hv
  simp only [] at hT1 hT0 hmlt
  have hqpos : 0 < (256 : Nat) ^ k := Nat.pos_pow_of_pos k (by norm_num)
  have hsplit : v / 256 ^ k * 256 ^ k + v % 256 ^ k = v := Nat.div_add_mod' _ _
  have hr := Nat.mod_lt v hqpos
  have hge : 256 ^ k ≤ v := by
    have : 1 * 256 ^ k ≤ v / 256 ^ k * 256 ^ k := Nat.mul_le_mul_right _ hT0
    omega
  have hk1 : (256 : Nat) ^ (k + 1) = 256 * 256 ^ k := by rw [pow_succ]; ring
  have hk2 : (256 : Nat) ^ (k + 2) = 256 * 256 * 256 ^ k := by rw [pow_succ, pow_succ]; ring
  by_cases hT : 128 ≤ v / 256 ^ k
  · -- the top byte is 0x80 or above: e = k + 2
    have hlow : 256 ^ (k + 1) ≤ 2 * v := by
      have : 128 * 256 ^ k ≤ v / 256 ^ k * 256 ^ k := Nat.mul_le_mul_right _ hT
      omega
    have hek : e = k + 2 := by
      have a1 : e - 1 < k + 2 := by
        by_contra hcon
        have : (256 : Nat) ^ (k + 2) ≤ 256 ^ (e - 1) :=
          Nat.pow_le_pow_right (by norm_num) (by omega)
        omega
      have a2 : k + 1 < e := by
        by_contra hcon
        have : (256 : Nat) ^ e ≤ 256 ^ (k + 1) :=
          Nat.pow_le_pow_right (by norm_num) (by omega)
        omega
      omega
    subst hek
    obtain ⟨-, hhi⟩ := GetCompact_parts dm hdm ⟨f, v⟩ k hk (by omega)
    obtain ⟨hG, -⟩ := hhi hT he
    simp only [] at hG
    rw [hG]
    congr 2
    by_cases hk1' : k ≤ 1
    · rw [if_pos hk1', mantissa_small v (1 - k) (k + 2) (by omega)]
    · rw [if_neg hk1', mantissa_large v (k + 2) (k - 1) (by omega)]
  · -- the top byte is below 0x80: e = k + 1
    have hup : 2 * v < 256 ^ (k + 1) := by
      have : v / 256 ^ k * 256 ^ k ≤ 127 * 256 ^ k := Nat.mul_le_mul_right _ (by omega)
      omega
    have hek : e = k + 1 := by
      have a1 : e - 1 < k + 1 := by
        by_contra hcon
        have : (256 : Nat) ^ (k + 1) ≤ 256 ^ (e - 1) :=
          Nat.pow_le_pow_right (by norm_num) (by omega)
        omega
      have a2 : k < e := by
        by_contra hcon
        have : (256 : Nat) ^ e ≤ 256 ^ k :=
          Nat.pow_le_pow_right (by norm_num) (by omega)
        omega
      omega
    subst hek
    obtain ⟨hlo, -⟩ := GetCompact_parts dm hdm ⟨f, v⟩ k hk he
    obtain ⟨hG, -⟩ := hlo (by simp only []; omega)
    simp only [] at hG
    rw [hG]
    congr 2
    by_cases hk2' : k ≤ 2
    · rw [if_pos hk2', mantissa_small v (2 - k) (k + 1) (by omega)]
    · rw [if_neg hk2', mantissa_large v (k + 1) (k - 2) (by omega)]

/-- Every nonzero magnitude has an effective size. -/
theorem effective_size (v : Nat) (hv : v ≠ 0) :
    ∃ e, 1 ≤ e ∧ 256 ^ (e - 1) ≤ 2 * v ∧ 2 * v < 256 ^ e ∧ 8 * e ≤ Nat.size v + 8 := by
  refine ⟨Nat.size v / 8 + 1, by omega, ?_, ?_, by omega⟩
  · have h : 2 ^ (Nat.size v - 1) ≤ v := by
      have : Nat.size v - 1 < Nat.size v := by
        have : 0 < Nat.size v := Nat.size_pos.mpr (Nat.pos_of_ne_zero hv)
        omega
      exact Nat.lt_size.mp this
    have hs : 0 < Nat.size v := Nat.size_pos.mpr (Nat.pos_of_ne_zero hv)
    rw [Nat.add_sub_cancel, pow_256]
    calc 2 ^ (8 * (Nat.size v / 8)) ≤ 2 ^ (Nat.size v) :=
          Nat.pow_le_pow_right (by norm_num) (by omega)
      _ = 2 * 2 ^ (Nat.size v - 1) := by
          rw [← pow_succ']
          congr 1
          omega
      _ ≤ 2 * v := Nat.mul_le_mul_left _ h
  · have h : v < 2 ^ Nat.size v := Nat.lt_size_self v
    rw [pow_256]
    calc 2 * v < 2 * 2 ^ Nat.size v := by omega
      _ = 2 ^ (Nat.size v + 1) := by rw [pow_succ]; ring
      _ ≤ 2 ^ (8 * (Nat.size v / 8 + 1)) :=
          Nat.pow_le_pow_right (by norm_num) (by omega)

theorem GetCompact_zero (dm : DataModel) (hdm : 24 ≤ dm.BN_BITS2) :
    GetCompact dm ⟨false, 0⟩ = 0 := by
  have h0 : BN_num_bytes ⟨false, 0⟩ = 0 := by decide
  obtain ⟨-, hG⟩ := GetCompact_eq dm hdm ⟨false, 0⟩ _ rfl
  rw [h0] at hG
  simpa using hG

theorem mantissa_lt (v e : Nat) (h2 : 2 * v < 256 ^ e) : v * 256 ^ 3 / 256 ^ e < 2 ^ 23 := by
  rw [Nat.div_lt_iff_lt_mul (Nat.pos_pow_of_pos _ (by norm_num))]
  have : (256 : Nat) ^ 3 = 2 * 2 ^ 23 := by norm_num
  rw [this]
  calc v * (2 * 2 ^ 23) = 2 * v * 2 ^ 23 := by ring
    _ < 256 ^ e * 2 ^ 23 := Nat.mul_lt_mul_of_pos_right h2 (by norm_num)
    _ = 2 ^ 23 * 256 ^ e := by ring

theorem effective_size_le (v e : Nat) (hv : v < 2 ^ 256) (h1 : 256 ^ (e - 1) ≤ 2 * v) :
    e ≤ 33 := by
  by_contra hcon
  have : (256 : Nat) ^ 33 ≤ 256 ^ (e - 1) := Nat.pow_le_pow_right (by norm_num) (by omega)
  have h33 : (256 : Nat) ^ 33 = 256 * 2 ^ 256 := by norm_num
  omega

/-- C31: for all `x` and `y` with `0 <= x <= y < 2^256`,
`GetCompact(x) <= GetCompact(y)` as unsigned 32-bit integers. -/
theorem GetCompact_monotone (dm : DataModel) (hdm : 24 ≤ dm.BN_BITS2) (x y : CBigNum)
    (hx : BN_is_negative x = false) (hy : BN_is_negative y = false)
    (hxy : x.toInt ≤ y.toInt) (hlt : y.toInt < 2 ^ 256) :
    GetCompact dm x ≤ GetCompact dm y ∧ GetCompact dm y < 2 ^ 32 := by
  obtain ⟨xn, a⟩ := x
  obtain ⟨yn, b⟩ := y
  simp only [BN_is_negative] at hx hy
  subst hx hy
  rw [toInt_pos] at hxy hlt
  rw [toInt_pos] at hxy
  have hab : a ≤ b := by exact_mod_cast hxy
  have hb : b < 2 ^ 256 := by exact_mod_cast hlt
  by_cases hb0 : b = 0
  · have ha0 : a = 0 := by omega
    subst hb0 ha0
    rw [GetCompact_zero dm hdm]
    exact ⟨le_refl _, by norm_num⟩
  · obtain ⟨eb, heb1, hb1, hb2, -⟩ := effective_size b hb0
    have heb := effective_size_le b eb hb hb1
    have hGb := GetCompact_of_form dm hdm false b eb heb1 (by omega) hb1 hb2
    have hmb := mantissa_lt b eb hb2
    simp only [Bool.false_eq_true, if_false, Nat.add_zero] at hGb
    refine ⟨?_, by rw [hGb]; omega⟩
    by_cases ha0 : a = 0
    · subst ha0
      rw [GetCompact_zero dm hdm]
      exact Nat.zero_le _
    · obtain ⟨ea, hea1, ha1, ha2, -⟩ := effective_size a ha0
      have hea := effective_size_le a ea (by omega) ha1
      have hGa := GetCompact_of_form dm hdm false a ea hea1 (by omega) ha1 ha2
      have hma := mantissa_lt a ea ha2
      simp only [Bool.false_eq_true, if_false, Nat.add_zero] at hGa
      rw [hGa, hGb]
      have hle : ea ≤ eb := by
        by_contra hcon
        have : (256 : Nat) ^ eb ≤ 256 ^ (ea - 1) :=
          Nat.pow_le_pow_right (by norm_num) (by omega)
        omega
      rcases Nat.lt_or_eq_of_le hle with h | h
      · generalize a * 256 ^ 3 / 256 ^ ea = ma at hma
        generalize b * 256 ^ 3 / 256 ^ eb = mb at hmb
        omega
      · subst h
        have : a * 256 ^ 3 / 256 ^ ea ≤ b * 256 ^ 3 / 256 ^ ea :=
          Nat.div_le_div_right (Nat.mul_le_mul_right _ hab)
        omega

theorem GetCompact_monotone_witness :
    (GetCompact LP64 (CBigNum_int 0x7fffff) ≤ GetCompact LP64 (CBigNum_int 0x800000) ∧
      GetCompact LP64 (CBigNum_int 0x800000) < 2 ^ 32) ∧
    GetCompact LP64 (CBigNum_int 0x7fffff) = 0x037fffff ∧
    GetCompact LP64 (CBigNum_int 0x800000) = 0x04008000 :=
  ⟨GetCompact_monotone LP64 (by decide) (CBigNum_int 0x7fffff) (CBigNum_int 0x800000)
    (by decide) (by decide) (by decide)
    (by simp [CBigNum_int, setulong, BN_set_word, BIGNUM.toInt]), by decide, by decide⟩

/-- C32: for every `x` with `|x| < 2^256`,
`GetCompact(SetCompact(GetCompact(x))) == GetCompact(x)`: the compact form of
a number is the compact form of what it decodes to. -/
theorem GetCompact_idempotent (dm : DataModel) (hdm : 24 ≤ dm.BN_BITS2) (x : CBigNum)
    (hc : x.canonical) (hx : x.mag < 2 ^ 256) :
    GetCompact dm (SetCompact (GetCompact dm x)) = GetCompact dm x := by
  obtain ⟨f, v⟩ := x
  simp only [] at hx
  by_cases hv : v = 0
  · subst hv
    have hf : f = false := by
      cases f
      · rfl
      · exact absurd rfl (hc rfl)
    subst hf
    rw [GetCompact_zero dm hdm]
    have : SetCompact 0 = ⟨false, 0⟩ := by decide
    rw [this, GetCompact_zero dm hdm]
  · obtain ⟨e, he1, h1, h2, -⟩ := effective_size v hv
    have he := effective_size_le v e hx h1
    have hG := GetCompact_of_form dm hdm f v e he1 (by omega) h1 h2
    have hm := mantissa_lt v e h2
    rw [hG, SetCompact_of_parts _ _ _ hm]
    -- the decoded magnitude
    have hdec : ∃ t, (if e ≤ 3 then v * 256 ^ 3 / 256 ^ e / 2 ^ (8 * (3 - e))
        else v * 256 ^ 3 / 256 ^ e * 2 ^ (8 * (e - 3))) = t ∧
        256 ^ (e - 1) ≤ 2 * t ∧ 2 * t < 256 ^ e ∧
        t * 256 ^ 3 / 256 ^ e = v * 256 ^ 3 / 256 ^ e := by
      by_cases h3 : e ≤ 3
      · refine ⟨v, ?_, h1, h2, rfl⟩
        rw [if_pos h3, mantissa_small v (3 - e) e (by omega), ← pow_256]
        exact Nat.mul_div_cancel _ (Nat.pos_pow_of_pos _ (by norm_num))
      · have hP : 0 < 256 ^ (e - 3) := Nat.pos_pow_of_pos _ (by norm_num)
        have hm3 : v * 256 ^ 3 / 256 ^ e = v / 256 ^ (e - 3) :=
          mantissa_large v e (e - 3) (by omega)
        have he1' : (256 : Nat) ^ (e - 1) = 32768 * 2 * 256 ^ (e - 3) := by
          have : e - 1 = 2 + (e - 3) := by omega
          rw [this, pow_add]
          norm_num
        have hle : v / 256 ^ (e - 3) * 256 ^ (e - 3) ≤ v := Nat.div_mul_le_self _ _
        have hge : 32768 ≤ v / 256 ^ (e - 3) := by
          rw [Nat.le_div_iff_mul_le hP]
          rw [he1'] at h1
          have : 32768 * 2 * 256 ^ (e - 3) = 2 * (32768 * 256 ^ (e - 3)) := by ring
          omega
        refine ⟨v / 256 ^ (e - 3) * 256 ^ (e - 3), ?_, ?_, by omega, ?_⟩
        · rw [if_neg h3, hm3, ← pow_256]
        · rw [he1']
          have : 32768 * 256 ^ (e - 3) ≤ v / 256 ^ (e - 3) * 256 ^ (e - 3) :=
            Nat.mul_le_mul_right _ hge
          have e2 : 32768 * 2 * 256 ^ (e - 3) = 2 * (32768 * 256 ^ (e - 3)) := by ring
          omega
        · rw [hm3, mantissa_large _ e (e - 3) (by omega)]
          rw [Nat.mul_div_cancel _ hP]
    obtain ⟨t, ht, ht1, ht2, htm⟩ := hdec
    rw [ht]
    have ht0 : t ≠ 0 := by
      intro h0
      have : 0 < 256 ^ (e - 1) := Nat.pos_pow_of_pos _ (by norm_num)
      omega
    have hset : BN_set_negative ⟨false, t⟩ f = ⟨f, t⟩ := by
      simp [BN_set_negative, BN_is_zero, ht0]
    rw [hset, GetCompact_of_form dm hdm f t e he1 (by omega) ht1 ht2, htm]

theorem GetCompact_idempotent_witness :
    GetCompact LP64 (SetCompact (GetCompact LP64 (CBigNum_int (-0x92345678))))
      = GetCompact LP64 (CBigNum_int (-0x92345678)) ∧
    GetCompact LP64 (CBigNum_int (-0x92345678)) = 0x05809234 ∧
    SetCompact 0x05809234 = CBigNum_int (-0x92340000) :=
  ⟨GetCompact_idempotent LP64 (by decide) (CBigNum_int (-0x92345678)) (by decide) (by decide),
    by decide, by decide⟩

/-! ## Right shift outside the clamp -/

/-- C33: for every `x < 0` and every shift `s >= 0`, `s == 0` included,
`x >> s` and `x >>= s` yield `0`: the guard compares `2^s` with the signed
value, and a positive number is greater than every negative one. -/
theorem right_shift_negative_is_zero (x : CBigNum) (s : Nat) (hx : x.toInt < 0)
    (hs : s < 2 ^ 31) :
    BN_cmp (op_shl_assign (CBigNum_int 1) s) x > 0 ∧
    op_shr x s = CBigNum_int 0 ∧ op_shr_assign x s = CBigNum_int 0 ∧
    (op_shr x s).toInt = 0 ∧ (op_shr_assign x s).toInt = 0 := by
  obtain ⟨hn, -⟩ := (toInt_neg_iff x).mp hx
  have h1 : CBigNum_int 1 = ⟨false, 1⟩ := CBigNum_int_of_nonneg 1
  have h0 : CBigNum_int 0 = ⟨false, 0⟩ := CBigNum_int_of_nonneg 0
  have hcmp : BN_cmp (op_shl_assign (CBigNum_int 1) s) x > 0 := by
    simp [h1, op_shl_assign, BN_lshift, BN_cmp, hn]
  have hr : op_shr_assign x s = CBigNum_int 0 := by
    simp only [op_shr_assign, hcmp, if_true]
  refine ⟨hcmp, ?_, hr, ?_, ?_⟩
  · simpa [op_shr] using hr
  · simp [op_shr, hr, h0, BIGNUM.toInt]
  · simp [hr, h0, BIGNUM.toInt]

theorem right_shift_negative_is_zero_witness :
    BN_cmp (op_shl_assign (CBigNum_int 1) 0) (CBigNum_int (-5)) > 0 ∧
    op_shr (CBigNum_int (-5)) 0 = CBigNum_int 0 ∧
    op_shr_assign (CBigNum_int (-5)) 0 = CBigNum_int 0 ∧
    (op_shr (CBigNum_int (-5)) 0).toInt = 0 ∧ (op_shr_assign (CBigNum_int (-5)) 0).toInt = 0 :=
  right_shift_negative_is_zero (CBigNum_int (-5)) 0 (by decide) (by decide)

/-- C34: for every `x` and `s` with `x >= 2^s`, `x >> s == floor(x / 2^s)` (so
`x == 2^s` gives `1`), and for every `x >= 0` and every `s`,
`(x << s) >> s == x`; the same for `>>=` and `<<=`. -/
theorem right_shift_floor_division (x : CBigNum) (s : Nat) (hs : s < 2 ^ 31) :
    ((2 : Int) ^ s ≤ x.toInt →
      (op_shr x s).toInt = x.toInt / 2 ^ s ∧ (op_shr_assign x s).toInt = x.toInt / 2 ^ s ∧
      BN_is_negative (op_shr x s) = false) ∧
    (x.toInt = 2 ^ s → (op_shr x s).toInt = 1) ∧
    (BN_is_negative x = false →
      op_shr (op_shl x s) s = x ∧ op_shr_assign (op_shl_assign x s) s = x) := by
  obtain ⟨xn, m⟩ := x
  have hp : 0 < 2 ^ s := Nat.pos_pow_of_pos s (by norm_num)
  have hpI : (0 : Int) < 2 ^ s := by positivity
  have hfloor : (2 : Int) ^ s ≤ (BIGNUM.mk xn m).toInt →
      (op_shr ⟨xn, m⟩ s).toInt = (BIGNUM.mk xn m).toInt / 2 ^ s ∧
      (op_shr_assign ⟨xn, m⟩ s).toInt = (BIGNUM.mk xn m).toInt / 2 ^ s ∧
      BN_is_negative (op_shr ⟨xn, m⟩ s) = false := by
    intro hge
    have hpos : 0 < (BIGNUM.mk xn m).toInt := lt_of_lt_of_le hpI hge
    obtain ⟨hn, -⟩ := (toInt_pos_iff _).mp hpos
    simp only [] at hn
    subst hn
    have hval : (BIGNUM.mk false (m / 2 ^ s)).toInt = (BIGNUM.mk false m).toInt / 2 ^ s := by
      rw [toInt_pos, toInt_pos]
      push_cast
      rfl
    simp only [op_shr, op_shr_assign_pos, hval, BN_is_negative, and_self]
  refine ⟨hfloor, ?_, ?_⟩
  · intro heq
    rw [(hfloor (le_of_eq heq.symm)).1, heq]
    exact Int.ediv_self (ne_of_gt hpI)
  · intro hn
    simp only [BN_is_negative] at hn
    subst hn
    simp only [op_shr, op_shl, op_shl_assign, BN_lshift, op_shr_assign_pos,
      Nat.mul_div_cancel _ hp, and_self]

theorem right_shift_floor_division_witness :
    (((2 : Int) ^ 3 ≤ (CBigNum_int 29).toInt →
      (op_shr (CBigNum_int 29) 3).toInt = (CBigNum_int 29).toInt / 2 ^ 3 ∧
      (op_shr_assign (CBigNum_int 29) 3).toInt = (CBigNum_int 29).toInt / 2 ^ 3 ∧
      BN_is_negative (op_shr (CBigNum_int 29) 3) = false) ∧
    ((CBigNum_int 29).toInt = 2 ^ 3 → (op_shr (CBigNum_int 29) 3).toInt = 1) ∧
    (BN_is_negative (CBigNum_int 29) = false →
      op_shr (op_shl (CBigNum_int 29) 3) 3 = CBigNum_int 29 ∧
      op_shr_assign (op_shl_assign (CBigNum_int 29) 3) 3 = CBigNum_int 29)) ∧
    op_shr (CBigNum_int 29) 3 = CBigNum_int 3 ∧ op_shr (CBigNum_int 8) 3 = CBigNum_int 1 ∧
    op_shl (CBigNum_int 29) 3 = CBigNum_int 232 :=
  ⟨right_shift_floor_division (CBigNum_int 29) 3 (by decide), by decide, by decide, by decide⟩

/-! ## `getuint256` on every number -/

/-- C35: for every `x`, negative or wider than 256 bits included,
`getuint256(x) == |x| mod 2^256`; it returns `0` only when `|x|` is a multiple
of `2^256`. -/
theorem getuint256_drops_sign_and_truncates (x : CBigNum) :
    getuint256 x = x.toInt.natAbs % 2 ^ 256 ∧ getuint256 x < 2 ^ 256 ∧
    (getuint256 x = 0 ↔ 2 ^ 256 ∣ x.toInt.natAbs) ∧
    getuint256 (op_neg x) = getuint256 x := by
  have hneg : (op_neg x).mag = x.mag := rfl
  rw [getuint256_eq, getuint256_eq, natAbs_toInt, hneg]
  refine ⟨rfl, Nat.mod_lt _ (by norm_num), ?_, rfl⟩
  exact Nat.dvd_iff_mod_eq_zero.symm

set_option maxRecDepth 100000 in
theorem getuint256_drops_sign_and_truncates_witness :
    (getuint256 ⟨true, 2 ^ 256 + 5⟩ = (BIGNUM.mk true (2 ^ 256 + 5)).toInt.natAbs % 2 ^ 256 ∧
      getuint256 ⟨true, 2 ^ 256 + 5⟩ < 2 ^ 256 ∧
      (getuint256 ⟨true, 2 ^ 256 + 5⟩ = 0 ↔
        2 ^ 256 ∣ (BIGNUM.mk true (2 ^ 256 + 5)).toInt.natAbs) ∧
      getuint256 (op_neg ⟨true, 2 ^ 256 + 5⟩) = getuint256 ⟨true, 2 ^ 256 + 5⟩) ∧
    getuint256 ⟨true, 2 ^ 256 + 5⟩ = 5 ∧ getuint256 ⟨false, 2 ^ 256⟩ = 0 :=
  ⟨getuint256_drops_sign_and_truncates ⟨true, 2 ^ 256 + 5⟩, by decide!, by decide!⟩

/-! ## `nthRoot`: the converged exits and the seed -/

/-- C36: for every `x > 0` and `n > 1`, `nthRoot` returns, and whenever it
returns through one of the return statements inside the Newton loop (a zero
delta, a negative delta right after a `+1` step, a positive delta right after
a `-1` step), the value `r` returned satisfies `r^n <= x < (r+1)^n`. -/
theorem nthRoot_converged_exits_exact (x : CBigNum) (n : Int) (hx : 0 < x.toInt)
    (hn : n > 1) (_hov : nthRoot_int_range x n) :
    ∃ e r, nthRoot_traced x n = Except.ok (e, r) ∧ nthRoot x n = Except.ok r ∧
      (e = NthRootExit.deltaZero ∨ e = NthRootExit.afterUp ∨ e = NthRootExit.afterDown →
        BN_is_negative r = false ∧
        r.mag ^ n.toNat ≤ x.mag ∧ x.mag < (r.mag + 1) ^ n.toNat) := by
  obtain ⟨k, rfl⟩ : ∃ k : Nat, n = (k : Int) := ⟨n.toNat, by omega⟩
  have hk : 2 ≤ k := by omega
  obtain ⟨hneg, hm⟩ := (toInt_pos_iff x).mp hx
  obtain ⟨xn, m⟩ := x
  simp only [] at hneg hm
  subst hneg
  have hm1 : 1 ≤ m := by omega
  refine ⟨(rootN m k).1, ⟨false, (rootN m k).2⟩, nthRoot_traced_eq m k hm1 hk, ?_, ?_⟩
  · simp [nthRoot, nthRoot_traced_eq m k hm1 hk, Except.map]
  · intro he
    have hne : (rootN m k).1 ≠ NthRootExit.exhausted := by
      rcases he with h | h | h <;> rw [h] <;> decide
    exact ⟨rfl, by simpa using rootN_exact m k hm1 hk hne⟩

set_option maxRecDepth 100000 in
theorem nthRoot_converged_exits_exact_witness :
    (∃ e r, nthRoot_traced (CBigNum_int 66560) 2 = Except.ok (e, r) ∧
      nthRoot (CBigNum_int 66560) 2 = Except.ok r ∧
      (e = NthRootExit.deltaZero ∨ e = NthRootExit.afterUp ∨ e = NthRootExit.afterDown →
        BN_is_negative r = false ∧
        r.mag ^ (2 : Int).toNat ≤ (CBigNum_int 66560).mag ∧
        (CBigNum_int 66560).mag < (r.mag + 1) ^ (2 : Int).toNat)) ∧
    nthRoot_traced (CBigNum_int 65536) 2 = Except.ok (NthRootExit.deltaZero, CBigNum_int 256) ∧
    nthRoot_traced (CBigNum_int 65792) 2 = Except.ok (NthRootExit.afterUp, CBigNum_int 256) ∧
    nthRoot_traced (CBigNum_int 66560) 2 = Except.ok (NthRootExit.afterDown, CBigNum_int 257) :=
  ⟨nthRoot_converged_exits_exact (CBigNum_int 66560) 2 (by decide) (by decide)
    (by simp [nthRoot_int_range, INT_MAX]; decide), by decide, by decide, by decide⟩

/-- With at most `8 * n` bits the number of root bits is at most 8, and
`nthRoot` returns its starting approximation. -/
theorem rootN_seed_exit (m k : Nat) (hk : 2 ≤ k) (hlt : m < 2 ^ (8 * k)) :
    (rootN m k).1 = NthRootExit.seed := by
  have hb : BN_num_bits ⟨false, m⟩ ≤ 8 * k := BN_num_bits_le_of_lt ⟨false, m⟩ (8 * k) hlt
  have hR : (BN_num_bits ⟨false, m⟩ + k - 1) / k ≤ 8 := by
    have : (BN_num_bits ⟨false, m⟩ + k - 1) / k < 9 := by
      rw [Nat.div_lt_iff_lt_mul (by omega)]
      omega
    omega
  simp only [rootN]
  rw [if_pos (by rw [Nat.min_eq_right hR])]

/-- C37: for every `n > 1` and every `x` with `0 <= x < 2^(8*n)`, `nthRoot`
returns before the Newton loop, from the zero test or with the result of the
bit search, and the result `r` satisfies `r^n <= x < (r+1)^n`. -/
theorem nthRoot_exact_on_seed_range (x : CBigNum) (n : Int)
    (hx : BN_is_negative x = false) (hn : n > 1) (hlt : x.toInt < 2 ^ (8 * n.toNat))
    (_hov : nthRoot_int_range x n) :
    ∃ e r, nthRoot_traced x n = Except.ok (e, r) ∧ nthRoot x n = Except.ok r ∧
      (e = NthRootExit.zero ∨ e = NthRootExit.seed) ∧ (e = NthRootExit.zero ↔ x.mag = 0) ∧
      BN_is_negative r = false ∧
      r.mag ^ n.toNat ≤ x.mag ∧ x.mag < (r.mag + 1) ^ n.toNat := by
  obtain ⟨k, rfl⟩ : ∃ k : Nat, n = (k : Int) := ⟨n.toNat, by omega⟩
  have hk : 2 ≤ k := by omega
  obtain ⟨xn, m⟩ := x
  simp only [BN_is_negative] at hx
  subst hx
  rw [toInt_pos, Int.toNat_ofNat] at hlt
  have hm : m < 2 ^ (8 * k) := by exact_mod_cast hlt
  by_cases hm0 : m = 0
  · subst hm0
    refine ⟨NthRootExit.zero, ⟨false, 0⟩, ?_, ?_, Or.inl rfl, by simp, rfl, ?_⟩
    · simp [nthRoot_traced, hn, BN_is_zero, CBigNum_int, setulong, BN_set_word]
    · simp [nthRoot, nthRoot_traced, hn, BN_is_zero, CBigNum_int, setulong, BN_set_word,
        Except.map]
    · simp
      omega
  · have hm1 : 1 ≤ m := by omega
    have hseed := rootN_seed_exit m k hk hm
    have hne : (rootN m k).1 ≠ NthRootExit.exhausted := by
      rw [hseed]
      decide
    refine ⟨(rootN m k).1, ⟨false, (rootN m k).2⟩, nthRoot_traced_eq m k hm1 hk, ?_,
      Or.inr hseed, ?_, rfl, by simpa using rootN_exact m k hm1 hk hne⟩
    · simp [nthRoot, nthRoot_traced_eq m k hm1 hk, Except.map]
    · rw [hseed]
      simp [hm0]

set_option maxRecDepth 100000 in
theorem nthRoot_exact_on_seed_range_witness :
    (∃ e r, nthRoot_traced (CBigNum_int 65535) 2 = Except.ok (e, r) ∧
      nthRoot (CBigNum_int 65535) 2 = Except.ok r ∧
      (e = NthRootExit.zero ∨ e = NthRootExit.seed) ∧
      (e = NthRootExit.zero ↔ (CBigNum_int 65535).mag = 0) ∧
      BN_is_negative r = false ∧
      r.mag ^ (2 : Int).toNat ≤ (CBigNum_int 65535).mag ∧
      (CBigNum_int 65535).mag < (r.mag + 1) ^ (2 : Int).toNat) ∧
    nthRoot_traced (CBigNum_int 65535) 2 = Except.ok (NthRootExit.seed, CBigNum_int 255) ∧
    nthRoot_traced (CBigNum_int 0) 2 = Except.ok (NthRootExit.zero, CBigNum_int 0) :=
  ⟨nthRoot_exact_on_seed_range (CBigNum_int 65535) 2 (by decide) (by decide) (by decide)
    (by simp [nthRoot_int_range, INT_MAX]; decide), by decide, by decide⟩

/-! ## `ToString`: the number of iterations -/

/-- The loop of `ToString` on a non-negative number and a base from 2 to 16
needs exactly as many iterations as the number has digits: with less fuel it
has not ended, with that much or more it returns the digits. -/
theorem ToString_loop_runs (dm : DataModel) (hW : 32 ≤ dm.BN_BITS2)
    (hL : 32 ≤ dm.ULONG_BITS) (b : Nat) (hb2 : 2 ≤ b) (hb16 : b ≤ 16)
    (fuel m : Nat) (str : List Nat) :
    ToString_loop dm ⟨false, b⟩ ⟨false, 0⟩ fuel ⟨false, m⟩ str
      = if (Nat.digits b m).length ≤ fuel then
          some (Except.ok (str ++ (Nat.digits b m).map ToString_digit))
        else none := by
  induction fuel generalizing m str with
  | zero =>
    by_cases h0 : m = 0
    · subst h0
      have hc : ¬ BN_cmp ⟨false, 0⟩ ⟨false, 0⟩ > 0 := by decide
      simp [ToString_loop, hc]
    · have hc : BN_cmp ⟨false, m⟩ ⟨false, 0⟩ > 0 := (BN_cmp_pos_gt m 0).mpr (by omega)
      have hd : Nat.digits b m = (m % b) :: Nat.digits b (m / b) :=
        Nat.digits_def' (by omega) (by omega)
      simp [ToString_loop, hc, hd]
  | succ fuel ih =>
    by_cases h0 : m = 0
    · subst h0
      have hc : ¬ BN_cmp ⟨false, 0⟩ ⟨false, 0⟩ > 0 := by decide
      simp [ToString_loop, hc]
    · have hc : BN_cmp ⟨false, m⟩ ⟨false, 0⟩ > 0 := (BN_cmp_pos_gt m 0).mpr (by omega)
      have hlt : m % b < b := Nat.mod_lt _ (by omega)
      have hb0 : b ≠ 0 := by omega
      have h32 : m % b < 2 ^ 32 := lt_of_lt_of_le hlt (by omega)
      have hd : Nat.digits b m = (m % b) :: Nat.digits b (m / b) :=
        Nat.digits_def' (by omega) (by omega)
      simp only [ToString_loop, hc, if_true, BN_div_pos m b hb0]
      rw [getulong_small dm hW hL _ h32, ih (m / b), hd]
      simp

/-- C38, as the claim has it, fails at zero: `ToString(0, 10)` returns `"0"`,
one digit character, before the loop, which therefore runs no iteration (with
no fuel at all the loop on `0` has ended with nothing collected). -/
theorem ToString_zero_iterations_counterexample :
    ToString LP64 (CBigNum_int 0) 10 = some (Except.ok (cstr "0")) ∧
    (cstr "0").length = 1 ∧
    ToString_loop LP64 (CBigNum_int 10) (CBigNum_int 0) 0
      (BN_set_negative (CBigNum_int 0) false) [] = some (Except.ok []) ∧
    ([] : List Nat).length = 0 := by
  decide

/-- C38 (amended): for every `x != 0` and base `b` with `2 <= b <= 16`, the
loop of `ToString` runs exactly `d` times, where `d` is the number of base-`b`
digits of `|x|` (`b^(d-1) <= |x| < b^d`): it has not ended before `d`
iterations and ends with `d` characters at the `d`-th; the result has `d`
digit characters plus one `-` when `x < 0`; in every iteration the working
value strictly decreases and the remainder that indexes the digit table is
below the base, hence below 16. -/
theorem ToString_loop_terminates (dm : DataModel) (hW : 32 ≤ dm.BN_BITS2)
    (hL : 32 ≤ dm.ULONG_BITS) (x : CBigNum) (b : Nat) (hb2 : 2 ≤ b) (hb16 : b ≤ 16)
    (hx : x.mag ≠ 0) :
    ∃ d, d = (Nat.digits b x.mag).length ∧ b ^ d ≤ b * x.mag ∧ x.mag < b ^ d ∧
      (∀ fuel, fuel < d →
        ToString_loop dm (CBigNum_int b) (CBigNum_int 0) fuel (BN_set_negative x false) []
          = none) ∧
      (∃ str, ToString_loop dm (CBigNum_int b) (CBigNum_int 0) d (BN_set_negative x false) []
          = some (Except.ok str) ∧ str.length = d) ∧
      (∃ s, ToString dm x (b : Int) = some (Except.ok s) ∧
        s.length = d + (if BN_is_negative x then 1 else 0)) ∧
      (∀ m, 0 < m → ∃ dv rem, BN_div ⟨false, m⟩ (CBigNum_int b) = some (dv, rem) ∧
        BN_is_negative dv = false ∧ dv.mag < m ∧
        getulong dm rem % 2 ^ 32 < b ∧ getulong dm rem % 2 ^ 32 < 16) := by
  have hB : CBigNum_int (b : Int) = ⟨false, b⟩ := CBigNum_int_of_nonneg b
  have h0 : CBigNum_int 0 = ⟨false, 0⟩ := CBigNum_int_of_nonneg 0
  have hbn : BN_set_negative x false = ⟨false, x.mag⟩ := by
    simp [BN_set_negative]
  refine ⟨_, rfl, Nat.base_pow_length_digits_le b x.mag (by omega) hx,
    Nat.lt_base_pow_length_digits (by omega), ?_, ?_, ?_, ?_⟩
  · intro fuel hf
    rw [hB, h0, hbn, ToString_loop_runs dm hW hL b hb2 hb16, if_neg (by omega)]
  · refine ⟨(Nat.digits b x.mag).map ToString_digit, ?_, by simp⟩
    rw [hB, h0, hbn, ToString_loop_runs dm hW hL b hb2 hb16, if_pos (le_refl _)]
    simp
  · refine ⟨_, ToString_eq dm hW hL x b hb2 hb16, ?_⟩
    rw [if_neg hx]
    simp only [BN_is_negative]
    by_cases hn : x.neg = true
    · simp [hn, cstr]
    · simp [hn]
  · intro m hm
    have hb0 : b ≠ 0 := by omega
    have hlt : m % b < b := Nat.mod_lt _ (by omega)
    refine ⟨⟨false, m / b⟩, ⟨false, m % b⟩, ?_, rfl, Nat.div_lt_self hm (by omega), ?_, ?_⟩
    · rw [hB, BN_div_pos m b hb0]
    · rw [getulong_small dm hW hL _ (lt_of_lt_of_le hlt (by omega))]
      exact hlt
    · rw [getulong_small dm hW hL _ (lt_of_lt_of_le hlt (by omega))]
      omega

theorem ToString_loop_terminates_witness :
    (∃ d, d = (Nat.digits 16 (CBigNum_int (-255)).mag).length ∧
      16 ^ d ≤ 16 * (CBigNum_int (-255)).mag ∧ (CBigNum_int (-255)).mag < 16 ^ d ∧
      (∀ fuel, fuel < d →
        ToString_loop LP64 (CBigNum_int (16 : Nat)) (CBigNum_int 0) fuel
          (BN_set_negative (CBigNum_int (-255)) false) [] = none) ∧
      (∃ str, ToString_loop LP64 (CBigNum_int (16 : Nat)) (CBigNum_int 0) d
          (BN_set_negative (CBigNum_int (-255)) false) []
          = some (Except.ok str) ∧ str.length = d) ∧
      (∃ s, ToString LP64 (CBigNum_int (-255)) ((16 : Nat) : Int) = some (Except.ok s) ∧
        s.length = d + (if BN_is_negative (CBigNum_int (-255)) then 1 else 0)) ∧
      (∀ m, 0 < m → ∃ dv rem, BN_div ⟨false, m⟩ (CBigNum_int (16 : Nat)) = some (dv, rem) ∧
        BN_is_negative dv = false ∧ dv.mag < m ∧
        getulong LP64 rem % 2 ^ 32 < 16 ∧ getulong LP64 rem % 2 ^ 32 < 16)) ∧
    ToString_loop LP64 (CBigNum_int 16) (CBigNum_int 0) 1 (CBigNum_int 255) [] = none ∧
    ToString_loop LP64 (CBigNum_int 16) (CBigNum_int 0) 2 (CBigNum_int 255) []
      = some (Except.ok (cstr "ff")) ∧
    ToString LP64 (CBigNum_int (-255)) 16 = some (Except.ok (cstr "-ff")) :=
  ⟨ToString_loop_terminates LP64 (by decide) (by decide) (CBigNum_int (-255)) 16
    (by decide) (by decide) (by decide), by decide, by decide, by decide⟩

end Bignum

namespace Rpcnet

/-! ## `addnode` keeps the list of added nodes free of duplicates -/

theorem addnode_find_le (node : String) (l : List String) : addnode_find node l ≤ l.length := by
  induction l with
  | nil => simp [addnode_find]
  | cons s rest ih =>
    simp only [addnode_find, List.length_cons]
    split_ifs <;> omega

/-- The search reaches `end()` exactly when the node is not in the list. -/
theorem addnode_find_eq_length (node : String) (l : List String) :
    addnode_find node l = l.length ↔ node ∉ l := by
  induction l with
  | nil => simp [addnode_find]
  | cons s rest ih =>
    simp only [addnode_find, List.length_cons, List.mem_cons, not_or]
    by_cases h : node = s
    · simp [h]
    · simp [h, ih]

/-- Erasing at the position found erases the first occurrence of the node. -/
theorem eraseIdx_addnode_find (node : String) (l : List String) :
    l.eraseIdx (addnode_find node l) = l.erase node := by
  induction l with
  | nil => simp [addnode_find]
  | cons s rest ih =>
    by_cases h : node = s
    · subst h
      simp [addnode_find]
    · have h' : ¬ s = node := fun e => h e.symm
      simp [addnode_find, h, ih, List.erase_cons_tail, h']

/-- What `addnode` does for each command, once the usage check has passed. -/
theorem addnode_eq (l : List String) (node cmd : String) :
    addnode l [node, cmd] false =
      if cmd = "onetry" then (AddnodeOutcome.null, l)
      else if cmd = "add" then
        (if node ∈ l then (AddnodeOutcome.RPC_CLIENT_NODE_ALREADY_ADDED, l)
         else (AddnodeOutcome.null, l ++ [node]))
      else if cmd = "remove" then
        (if node ∈ l then (AddnodeOutcome.null, l.erase node)
         else (AddnodeOutcome.RPC_CLIENT_NODE_NOT_ADDED, l))
      else (AddnodeOutcome.runtime_error, l) := by
  have hfind := addnode_find_eq_length node l
  have herase := eraseIdx_addnode_find node l
  by_cases h1 : cmd = "onetry"
  · subst h1
    simp [addnode]
  · by_cases h2 : cmd = "add"
    · subst h2
      by_cases hm : node ∈ l
      · have : addnode_find node l ≠ l.length := fun h => (hfind.mp h) hm
        simp [addnode, hm, this]
      · have : addnode_find node l = l.length := hfind.mpr hm
        simp [addnode, hm, this]
    · by_cases h3 : cmd = "remove"
      · subst h3
        by_cases hm : node ∈ l
        · have : addnode_find node l ≠ l.length := fun h => (hfind.mp h) hm
          simp [addnode, hm, this, herase]
        · have : addnode_find node l = l.length := hfind.mpr hm
          simp [addnode, hm, this]
      · simp [addnode, h1, h2, h3]

/-- A call that fails the usage check leaves the list as it is. -/
theorem addnode_usage (l : List String) (params : List String) (fHelp : Bool)
    (h : fHelp = true ∨ params.length ≠ 2) :
    addnode l params fHelp = (AddnodeOutcome.runtime_error, l) := by
  rcases h with h | h
  · simp [addnode, h]
  · simp [addnode, h]

/-- C39: if `vAddedNodes` has no duplicate before a call of `addnode`, it has
none after; `"add"` of a node already present and `"remove"` of a node not
present raise an error and leave the list unchanged; `"add"` of an absent node
appends exactly that node, and `"remove"` of a present node deletes exactly
that node. -/
theorem addnode_keeps_list_duplicate_free (l : List String) (params : List String)
    (fHelp : Bool) (node : String) (hnd : l.Nodup) :
    (addnode l params fHelp).2.Nodup ∧
    (node ∈ l → addnode l [node, "add"] false
      = (AddnodeOutcome.RPC_CLIENT_NODE_ALREADY_ADDED, l)) ∧
    (node ∉ l → addnode l [node, "remove"] false
      = (AddnodeOutcome.RPC_CLIENT_NODE_NOT_ADDED, l)) ∧
    (node ∉ l → addnode l [node, "add"] false = (AddnodeOutcome.null, l ++ [node])) ∧
    (node ∈ l → addnode l [node, "remove"] false = (AddnodeOutcome.null, l.erase node) ∧
      node ∉ l.erase node ∧ (l.erase node).length + 1 = l.length ∧
      ∀ m, m ≠ node → (m ∈ l.erase node ↔ m ∈ l)) := by
  have hcase : ∀ (n c : String), (addnode l [n, c] false).2.Nodup := by
    intro n c
    rw [addnode_eq]
    split_ifs with h1 h2 hm h3 hm
    · exact hnd
    · exact hnd
    · exact List.Nodup.append hnd (List.nodup_singleton n) (by simpa using hm)
    · exact hnd.erase n
    · exact hnd
    · exact hnd
  refine ⟨?_, ?_, ?_, ?_, ?_⟩
  · by_cases hu : fHelp = true ∨ params.length ≠ 2
    · rw [addnode_usage l params fHelp hu]
      exact hnd
    · have hf : fHelp = false := by
        cases fHelp
        · rfl
        · exact absurd (Or.inl rfl) hu
      have hlen : params.length = 2 := by
        by_contra hne
        exact hu (Or.inr hne)
      obtain ⟨n, c, rfl⟩ : ∃ n c, params = [n, c] := by
        match params, hlen with
        | [n, c], _ => exact ⟨n, c, rfl⟩
      rw [hf]
      exact hcase n c
  · intro hm
    rw [addnode_eq]
    simp [hm]
  · intro hm
    rw [addnode_eq]
    simp [hm]
  · intro hm
    rw [addnode_eq]
    simp [hm]
  · intro hm
    refine ⟨?_, ?_, ?_, ?_⟩
    · rw [addnode_eq]
      simp [hm]
    · exact hnd.not_mem_erase
    · rw [List.length_erase_of_mem hm]
      have : 0 < l.length := List.length_pos_of_mem hm
      omega
    · intro m hne
      exact List.mem_erase_of_ne hne

theorem addnode_keeps_list_duplicate_free_witness :
    ((addnode ["a", "b"] ["b", "remove"] false).2.Nodup ∧
    ("b" ∈ ["a", "b"] → addnode ["a", "b"] ["b", "add"] false
      = (AddnodeOutcome.RPC_CLIENT_NODE_ALREADY_ADDED, ["a", "b"])) ∧
    ("b" ∉ ["a", "b"] → addnode ["a", "b"] ["b", "remove"] false
      = (AddnodeOutcome.RPC_CLIENT_NODE_NOT_ADDED, ["a", "b"])) ∧
    ("b" ∉ ["a", "b"] → addnode ["a", "b"] ["b", "add"] false
      = (AddnodeOutcome.null, ["a", "b"] ++ ["b"])) ∧
    ("b" ∈ ["a", "b"] → addnode ["a", "b"] ["b", "remove"] false
        = (AddnodeOutcome.null, ["a", "b"].erase "b") ∧
      "b" ∉ ["a", "b"].erase "b" ∧ (["a", "b"].erase "b").length + 1 = ["a", "b"].length ∧
      ∀ m, m ≠ "b" → (m ∈ ["a", "b"].erase "b" ↔ m ∈ ["a", "b"]))) ∧
    addnode ["a", "b"] ["b", "remove"] false = (AddnodeOutcome.null, ["a"]) ∧
    addnode ["a", "b"] ["c", "add"] false = (AddnodeOutcome.null, ["a", "b", "c"]) ∧
    addnode ["a", "b"] ["b", "add"] false
      = (AddnodeOutcome.RPC_CLIENT_NODE_ALREADY_ADDED, ["a", "b"]) ∧
    addnode ["a", "b"] ["c", "remove"] false
      = (AddnodeOutcome.RPC_CLIENT_NODE_NOT_ADDED, ["a", "b"]) :=
  ⟨addnode_keeps_list_duplicate_free ["a", "b"] ["b", "remove"] false "b" (by decide),
    by decide, by decide, by decide, by decide⟩

end Rpcnet
